import Mathlib

/-!
# prep-waldo: config patching (`main.go`)

A shallow embedding of the text-patching logic of `main.go` and of the Go
standard-library functions it calls, followed by the properties proved about it.

A Go string is a sequence of bytes, and so is a string here (`List Byte`): the command-line
arguments and the file contents are arbitrary bytes, valid UTF-8 or not.  The functions of
package `strings` work on the bytes; package `regexp` reads its pattern and its input rune
by rune with `utf8.DecodeRuneInString`, which is modelled too.  The definitions come first,
the lemmas and the properties of `updateKrakendConfig`, `updateGwIngressValues` and `main`
after them.
-/

namespace PrepWaldo

/-- A byte. -/
abbrev Byte := Fin 256

/-- A Go string: the list of its bytes. -/
abbrev Str := List Byte

/-- The byte of an ASCII character. -/
def byte (c : Char) : Byte := ⟨c.toNat % 256, Nat.mod_lt _ (by decide)⟩

/-- The bytes of an ASCII string literal. -/
def ascii (s : String) : Str := s.toList.map byte

/-- Outcome of a Go function returning an `error` (or a value and an `error`):
normal return with a value, return of a non-nil error carrying its message, or a
run-time panic. -/
inductive Result (α : Type) where
  | ok (val : α)
  | err (msg : Str)
  | panic (msg : Str)
deriving DecidableEq, Repr

/-! ## Go standard library: package `unicode/utf8` -/

/-- A Unicode code point (Go's `rune`). -/
abbrev Rune := Nat

/-- The code point of a character of the pattern syntax. -/
def rune (c : Char) : Rune := c.toNat

/-- Go `utf8.RuneError`, U+FFFD: the rune that stands for an invalid encoding. -/
def RuneError : Rune := 0xFFFD

/-- Whether the value of a byte lies in `lo..hi`. -/
def inRange (b : Byte) (lo hi : Nat) : Bool := decide (lo ≤ b.val) && decide (b.val ≤ hi)

/-- Go `utf8.DecodeRuneInString`: the first rune of the string and the number of bytes of
its encoding.  An encoding that is invalid or cut short gives `(RuneError, 1)`, the empty
string `(RuneError, 0)`.  The second byte must lie in `A0..BF` after `E0`, in `80..9F`
after `ED`, in `90..BF` after `F0`, in `80..8F` after `F4`, and in `80..BF` otherwise; the
sums are the shifts and ors of the payload bits. -/
def DecodeRuneInString : Str → Rune × Nat
  | [] => (RuneError, 0)
  | b0 :: rest =>
    if b0.val < 0x80 then (b0.val, 1)
    else if b0.val < 0xC2 then (RuneError, 1)
    else if b0.val < 0xE0 then
      match rest with
      | b1 :: _ =>
        if inRange b1 0x80 0xBF then ((b0.val - 0xC0) * 64 + (b1.val - 0x80), 2)
        else (RuneError, 1)
      | [] => (RuneError, 1)
    else if b0.val < 0xF0 then
      match rest with
      | b1 :: b2 :: _ =>
        if inRange b1 (if b0.val = 0xE0 then 0xA0 else 0x80) (if b0.val = 0xED then 0x9F else 0xBF)
            && inRange b2 0x80 0xBF then
          ((b0.val - 0xE0) * 4096 + (b1.val - 0x80) * 64 + (b2.val - 0x80), 3)
        else (RuneError, 1)
      | _ => (RuneError, 1)
    else if b0.val < 0xF5 then
      match rest with
      | b1 :: b2 :: b3 :: _ =>
        if inRange b1 (if b0.val = 0xF0 then 0x90 else 0x80) (if b0.val = 0xF4 then 0x8F else 0xBF)
            && inRange b2 0x80 0xBF && inRange b3 0x80 0xBF then
          ((b0.val - 0xF0) * 262144 + (b1.val - 0x80) * 4096 + (b2.val - 0x80) * 64
            + (b3.val - 0x80), 4)
        else (RuneError, 1)
      | _ => (RuneError, 1)
    else (RuneError, 1)

/-- The decoding loop `for len(s) > 0 { r, size := DecodeRuneInString(s); s = s[size:] }`:
the rune of every step with the bytes it consumed.  `skip` counts the bytes of the current
encoding that are still to be passed over. -/
def chunksLoop : Nat → Str → List (Rune × Str)
  | _, [] => []
  | 0, b :: t =>
    ((DecodeRuneInString (b :: t)).1, (b :: t).take (DecodeRuneInString (b :: t)).2) ::
      chunksLoop ((DecodeRuneInString (b :: t)).2 - 1) t
  | skip + 1, _ :: t => chunksLoop skip t

/-- The decoding steps of a whole string. -/
def chunks (s : Str) : List (Rune × Str) := chunksLoop 0 s

/-- The runes that a reader of the string gets, an invalid byte read as `RuneError`. -/
def runes (s : Str) : List Rune := (chunks s).map Prod.fst

/-- Go `utf8.ValidString`, and the check of the regexp parser: no decoding step gives
`RuneError` with width 1. -/
def ValidString (s : Str) : Bool :=
  (chunks s).all fun c => !(c.1 == RuneError && c.2.length == 1)

/-! ## Go standard library: package `strings` -/

/-- Go `strings.Index(s, substr)`: index of the first occurrence of `substr` in `s`
(`none` stands for Go's `-1`). The empty `substr` is found at index 0. -/
def Index (s substr : Str) : Option Nat :=
  if substr.isPrefixOf s then some 0
  else match s with
    | [] => none
    | _ :: t => (Index t substr).map (· + 1)

/-- Go `strings.Contains(s, substr)`, which is `Index(s, substr) >= 0`. -/
def Contains (s substr : Str) : Bool := (Index s substr).isSome

/-- The loop of Go `strings.Count` for a non-empty `substr`: repeatedly find the next
occurrence and continue after it.  `fuel` bounds the number of iterations. -/
def countLoop (substr : Str) : Nat → Str → Nat
  | 0, _ => 0
  | fuel + 1, s =>
    match Index s substr with
    | none => 0
    | some i => 1 + countLoop substr fuel (s.drop (i + substr.length))

/-- Go `strings.Count(s, substr)`: number of non-overlapping occurrences; for the empty
`substr` it is the number of runes plus one (`utf8.RuneCountInString(s) + 1`). -/
def Count (s substr : Str) : Nat :=
  if substr = [] then (chunks s).length + 1 else countLoop substr (s.length + 1) s

/-- The replacement loop of Go `strings.Replace`: `k` replacements remain to be done on the
rest `s` of the input; `first` says that no replacement has been made yet (it only matters
for the empty `old`, which matches at the start and after every UTF-8 sequence). -/
def replaceLoop (old new : Str) : Nat → Bool → Str → Str
  | 0, _, s => s
  | k + 1, first, s =>
    if old = [] then
      if first then new ++ replaceLoop old new k false s
      else s.take (DecodeRuneInString s).2 ++ new ++
        replaceLoop old new k false (s.drop (DecodeRuneInString s).2)
    else match Index s old with
      | none => s
      | some j => s.take j ++ new ++ replaceLoop old new k false (s.drop (j + old.length))

/-- Go `strings.Replace(s, old, new, n)` for `n ≥ 0`: a copy of `s` with the first `n`
non-overlapping occurrences of `old` replaced by `new`. -/
def Replace (s old new : Str) (n : Nat) : Str :=
  if old = new ∨ n = 0 then s
  else
    let m := Count s old
    if m = 0 then s
    else replaceLoop old new (min m n) true s

/-- Go `strings.Split(s, sep)` for a separator of one byte: the pieces of `s` between the
separators; a string without separator gives the one-element list `[s]`. -/
def Split (s : Str) (sep : Byte) : List Str :=
  match s with
  | [] => [[]]
  | c :: t =>
    if c = sep then [] :: Split t sep
    else match Split t sep with
      | [] => [[c]]
      | h :: r => (c :: h) :: r

/-- Go `strings.Join(elems, sep)`. -/
def Join : List Str → Str → Str
  | [], _ => []
  | [a], _ => a
  | a :: b :: rest, sep => a ++ sep ++ Join (b :: rest) sep

/-! ## Go standard library: package `regexp`

Only the fragment of the RE2 syntax that the pattern of `updateKrakendConfig` can
reach is modelled: literal characters, backslash escapes of punctuation, the Perl class
`\s`, the dot and the star.  `Compile` answers `none` for a Go syntax error, for a pattern
that is not valid UTF-8, for a pattern beyond the size limits of the Go parser, and for a
construct outside this fragment. -/

/-- A one-rune matcher. -/
inductive CharClass where
  | lit (c : Rune)
  | perlSpace
  | anyCharNotNL
deriving DecidableEq, Repr

/-- The runes of the Perl class `\s` of Go's regexp: tab, line feed, form feed,
carriage return, space. -/
def isPerlSpace (x : Rune) : Bool :=
  x == 9 || x == 10 || x == 12 || x == 13 || x == 32

/-- Whether a one-rune matcher accepts a rune. -/
def CharClass.accepts : CharClass → Rune → Bool
  | .lit c, x => x == c
  | .perlSpace, x => isPerlSpace x
  | .anyCharNotNL, x => x != 10

/-- One element of a compiled pattern: a one-rune matcher, possibly starred. -/
structure Piece where
  cls : CharClass
  star : Bool
deriving DecidableEq, Repr

/-- A compiled pattern: a sequence of pieces. -/
abbrev Regexp := List Piece

/-- Go `regexp`'s `special`: the bytes that `QuoteMeta` escapes. -/
def special (b : Byte) : Bool := (ascii "\\.+*?()|[]\x7b\x7d^$").contains b

/-- Go `regexp.QuoteMeta`: put a backslash before every special byte. -/
def QuoteMeta : Str → Str
  | [] => []
  | b :: t => if special b then byte '\\' :: b :: QuoteMeta t else b :: QuoteMeta t

/-- ASCII letters and digits (`isalnum` of Go's `regexp/syntax`). -/
def isalnum (c : Rune) : Bool :=
  (rune '0' ≤ c && c ≤ rune '9') || (rune 'A' ≤ c && c ≤ rune 'Z') ||
    (rune 'a' ≤ c && c ≤ rune 'z')

/-- The operators of the pattern syntax that are outside the modelled fragment. -/
def otherOperators : List Rune := "+?()|[\x7b^$".toList.map rune

/-- The parser of Go's `regexp/syntax`, restricted to the modelled fragment, on the runes
of the pattern.  `stack` holds the pieces read so far, the latest first. -/
def parseLoop : List Rune → List Piece → Option Regexp
  | [], stack => some stack.reverse
  | c :: rest, stack =>
    if c = rune '\\' then
      match rest with
      | [] => none
      | e :: rest' =>
        if e = rune 's' then parseLoop rest' (⟨.perlSpace, false⟩ :: stack)
        else if e < 128 && !isalnum e then parseLoop rest' (⟨.lit e, false⟩ :: stack)
        else none
    else if c = rune '*' then
      match stack with
      | [] => none
      | p :: stack' =>
        if p.star then none else parseLoop rest (⟨p.cls, true⟩ :: stack')
    else if c = rune '.' then parseLoop rest (⟨.anyCharNotNL, false⟩ :: stack)
    else if otherOperators.contains c then none
    else parseLoop rest (⟨.lit c, false⟩ :: stack)

/-- Go `regexp.Compile` on the modelled fragment.  The parser reads the pattern rune by
rune and fails on an invalid encoding.  It also fails on a pattern beyond its size limits;
these depend on the Go version and are the parameter `tooLarge`. -/
def Compile (tooLarge : Str → Bool) (expr : Str) : Option Regexp :=
  if ValidString expr && !tooLarge expr then parseLoop (runes expr) [] else none

/-- Matching of a starred one-rune matcher followed by the continuation `k`. -/
def starLoop (accepts : Rune → Bool) (k : List Rune → Bool) : List Rune → Bool
  | [] => k []
  | c :: t => k (c :: t) || (accepts c && starLoop accepts k t)

/-- Whether the pattern matches some initial segment of the runes. -/
def matchHere : Regexp → List Rune → Bool
  | [] => fun _ => true
  | p :: ps => fun s =>
    if p.star then starLoop p.cls.accepts (matchHere ps) s
    else match s with
      | [] => false
      | c :: t => p.cls.accepts c && matchHere ps t

/-- Whether the pattern matches somewhere in the runes. -/
def searchRunes (re : Regexp) : List Rune → Bool
  | [] => matchHere re []
  | c :: t => matchHere re (c :: t) || searchRunes re t

/-- Go `(*Regexp).MatchString`: whether the string contains any match of the pattern.  The
matcher steps through the input with `DecodeRuneInString`, so it sees the runes of the
input, an invalid byte as `RuneError`. -/
def MatchString (re : Regexp) (s : Str) : Bool := searchRunes re (runes s)

/-! ## Go standard library: package `os` (one file) -/

/-- What `main.go` can observe of one file: the outcome of `os.ReadFile` (the message of
the OS error, or the content), and what a call of `os.WriteFile` would do: succeed
(`none`), or fail with an OS error and leave the file in some state, as it was, truncated
or partly written (`some (error, outcome of a later read)`). -/
structure File where
  read : Except Str Str
  writeFailure : Option (Str × Except Str Str)

/-- Go `os.WriteFile` on the modelled file: the returned error (`none` for `nil`) and the
file afterwards. -/
def WriteFile (f : File) (data : Str) : Option Str × File :=
  match f.writeFailure with
  | some (e, after) => (some e, { f with read := after })
  | none => (none, { f with read := .ok data })

/-! ## `main.go`: `updateKrakendConfig` -/

/-- The value of `targetHost`, from `fmt.Sprintf` with the format `"http://%s"` (the double
quotes belong to the format). -/
def targetHost (serviceName : Str) : Str :=
  (ascii "\"http://") ++ serviceName ++ (ascii "\"")

/-- The value of `newHost`, from `fmt.Sprintf` with the format `"http://%s-%s"`. -/
def newHost (serviceName prNumber : Str) : Str :=
  (ascii "\"http://") ++ serviceName ++ (ascii "-") ++ prNumber ++ (ascii "\"")

/-- The value of `endpointPattern`: the format `"endpoint":\s*"%s"` filled with
`regexp.QuoteMeta(endpointURL)`. -/
def endpointPattern (endpointURL : Str) : Str :=
  (ascii "\"endpoint\":\\s*\"") ++ QuoteMeta endpointURL ++ (ascii "\"")

/-- Lines 110-135 of `updateKrakendConfig`: from the content read from `config.json` to
the content handed to `os.WriteFile`, or the returned error.  `regexp.MustCompile` panics
when the pattern does not compile (the message of the panic is abridged). -/
def krakendPatch (tooLarge : Str → Bool) (content prNumber serviceName endpointURL : Str) :
    Result Str :=
  match Compile tooLarge (endpointPattern endpointURL) with
  | none => .panic ((ascii "regexp: Compile(") ++ endpointPattern endpointURL ++ (ascii ")"))
  | some re =>
    if !MatchString re content then
      .err ((ascii "endpoint ") ++ endpointURL ++ (ascii " not found in config.json"))
    else if Contains content (targetHost serviceName) then
      let originalContent := content
      let content := Replace content (targetHost serviceName) (newHost serviceName prNumber) 1
      if content ≠ originalContent then .ok content
      else .err ((ascii "failed to update host ") ++ targetHost serviceName)
    else .err ((ascii "host ") ++ targetHost serviceName ++ (ascii " not found in config.json"))

/-- The function `updateKrakendConfig` on the file `config.json` of the krakend clone: the
outcome of the call and the file afterwards. -/
def updateKrakendConfig (tooLarge : Str → Bool) (config : File)
    (prNumber serviceName endpointURL : Str) : Result Unit × File :=
  match config.read with
  | .error e => (.err ((ascii "failed to read config.json: ") ++ e), config)
  | .ok data =>
    match krakendPatch tooLarge data prNumber serviceName endpointURL with
    | .panic m => (.panic m, config)
    | .err m => (.err m, config)
    | .ok content =>
      match WriteFile config content with
      | (some e, config') => (.err e, config')
      | (none, config') => (.ok (), config')

/-! ## `main.go`: `updateGwIngressValues` -/

/-- The local variables of the line scan of `updateGwIngressValues`. -/
structure ScanState where
  result : List Str
  inKrakendSection : Bool
  updated : Bool
  addedEndpointOverride : Bool
deriving DecidableEq, Repr

/-- The values of the local variables before the loop. -/
def ScanState.init : ScanState :=
  { result := [], inKrakendSection := false, updated := false, addedEndpointOverride := false }

/-- The marker of the first branch of the loop. -/
def albIdleMarker : Str := (ascii "albIdleTimeout: 180")

/-- The marker of the second branch of the loop. -/
def krakendMarker : Str := (ascii "krakend:")

/-- The marker of the third branch of the loop. -/
def instanceMarker : Str := (ascii "instance:")

/-- The line appended after the `albIdleTimeout: 180` line. -/
def overrideLine : Str := (ascii "  endpointFullNameOverride: api-fyre")

/-- The value of `instanceLine`, from `fmt.Sprintf` with the format `      instance: %s`. -/
def instanceLine (prNumber : Str) : Str := (ascii "      instance: ") ++ prNumber

/-- One iteration of the loop `for _, line := range lines` (lines 162-189). -/
def scanStep (prNumber : Str) (st : ScanState) (line : Str) : ScanState :=
  if Contains line albIdleMarker && !st.addedEndpointOverride then
    { st with
      result := st.result ++ [line] ++ [overrideLine]
      addedEndpointOverride := true }
  else if Contains line krakendMarker then
    { st with
      inKrakendSection := true
      result := st.result ++ [line] ++ [instanceLine prNumber]
      updated := true }
  else if st.inKrakendSection && Contains line instanceMarker then
    st
  else
    { st with
      result := st.result ++ [line]
      inKrakendSection :=
        if st.inKrakendSection && decide (0 < line.length) && line.head? != some (byte ' ') then false
        else st.inKrakendSection }

/-- The whole loop, started from a given state. -/
def scanFrom (prNumber : Str) (st : ScanState) (lines : List Str) : ScanState :=
  lines.foldl (scanStep prNumber) st

/-- Lines 155-196 of `updateGwIngressValues`: from the content read from
`values-staging-override.yaml` to the content handed to `os.WriteFile`, or the returned
error. -/
def gwIngressPatch (data prNumber : Str) : Result Str :=
  let lines := Split data (byte '\n')
  let st := scanFrom prNumber ScanState.init lines
  if !st.updated then .err (ascii "no krakend section found in values file")
  else .ok (Join st.result (ascii "\n"))

/-- The function `updateGwIngressValues` on the file `kube/values-staging-override.yaml` of
the gw-ingress clone: the outcome of the call and the file afterwards. -/
def updateGwIngressValues (values : File) (prNumber : Str) : Result Unit × File :=
  match values.read with
  | .error e => (.err ((ascii "failed to read values file: ") ++ e), values)
  | .ok data =>
    match gwIngressPatch data prNumber with
    | .panic m => (.panic m, values)
    | .err m => (.err m, values)
    | .ok updatedContent =>
      match WriteFile values updatedContent with
      | (some e, values') => (.err e, values')
      | (none, values') => (.ok (), values')

/-! ## `main.go`: the argument handling of `main` -/

/-- The four lines printed by the usage branch of `main`. -/
def usageText : List Str :=
  [ (ascii "Usage: prep-waldo <pr-number> <service-name> <endpoint-url> <repo-org>"),
    (ascii "Example: prep-waldo 654 home-depot /v1/fair-lock mycompany"),
    (ascii "  Note: endpoint-url will be prefixed with '/app' automatically"),
    (ascii "  Requires: git access to <repo-org>/krakend and <repo-org>/gw-ingress repos") ]

/-- What `main` does with `os.Args` (lines 13-27), before the workspace, patch and git
steps. -/
inductive MainOutcome where
  /-- The usage text was printed and `main` returned (exit status 0). -/
  | usage (printed : List Str)
  /-- Reading `os.Args[index]` panicked: index out of range for a slice of `len` elements
  (the Go runtime ends the process with exit status 2). -/
  | indexOutOfRange (index len : Nat)
  /-- The four values were read and the steps run with them; `endpointURL` carries the
  `/app` prefix. -/
  | run (prNumber serviceName endpointURL repoOrg : Str)
deriving DecidableEq, Repr

/-- Go slice indexing `os.Args[i]`: the element, or the run-time panic. -/
def argAt (osArgs : List Str) (i : Nat) (k : Str → MainOutcome) : MainOutcome :=
  match osArgs.get? i with
  | some a => k a
  | none => .indexOutOfRange i osArgs.length

/-- Lines 13-27 of `main`; `osArgs` is `os.Args`, the program name first. -/
def main (osArgs : List Str) : MainOutcome :=
  if osArgs.length < 4 then .usage usageText
  else
    argAt osArgs 1 fun prNumber =>
    argAt osArgs 2 fun serviceName =>
    argAt osArgs 3 fun endpointURL =>
    argAt osArgs 4 fun repoOrg =>
    let endpointURL := (ascii "/app") ++ endpointURL
    .run prNumber serviceName endpointURL repoOrg

/-! ## Vocabulary of the specification -/

/-- The document contains an endpoint declaration for `p`: the text `"endpoint":`, then
zero or more whitespace characters (those of `\s`), then `p` between double quotes, `p`
taken as literal text, byte for byte. -/
def HasEndpointDecl (d p : Str) : Prop :=
  ∃ pre ws post : Str, (∀ c ∈ ws, isPerlSpace c.val = true) ∧
    d = pre ++ ((ascii "\"endpoint\":") ++ ws ++ (ascii "\"") ++ p ++ (ascii "\"")) ++ post

/-- The message of the endpoint-not-found error. -/
def endpointNotFound (p : Str) : Str :=
  (ascii "endpoint ") ++ p ++ (ascii " not found in config.json")

/-- The message of the host-not-found error, for the quoted literal `"http://svc"`. -/
def hostNotFound (svc : Str) : Str :=
  (ascii "host \"http://") ++ svc ++ (ascii "\" not found in config.json")

/-- The message of the defensive replace-was-a-no-op error. -/
def replaceNoop (svc : Str) : Str :=
  (ascii "failed to update host \"http://") ++ svc ++ (ascii "\"")

/-- The message of the krakend-section-not-found error. -/
def krakendSectionNotFound : Str := (ascii "no krakend section found in values file")

/-- The indices at which `t` occurs in `s`, overlapping occurrences included. -/
def occurrences (s t : Str) : List Nat :=
  (List.range (s.length + 1)).filter fun i => t.isPrefixOf (s.drop i)

/-- The text `t` occurs at one place of `s` at most. -/
def OccursAtMostOnce (t s : Str) : Prop :=
  ∀ pre₁ post₁ pre₂ post₂ : Str, s = pre₁ ++ t ++ post₁ → s = pre₂ ++ t ++ post₂ → pre₁ = pre₂

/-- The state of the scan when it reaches line number `i` (from 0) of `lines`. -/
def stateAt (prNumber : Str) (lines : List Str) (i : Nat) : ScanState :=
  scanFrom prNumber ScanState.init (lines.take i)

/-- The branch of the loop body that a line takes in a given state. -/
inductive Rule where
  | override
  | header
  | drop
  | emit
deriving DecidableEq, Repr

/-- Which branch of the loop body a line takes. -/
def ruleOf (st : ScanState) (line : Str) : Rule :=
  if Contains line albIdleMarker && !st.addedEndpointOverride then .override
  else if Contains line krakendMarker then .header
  else if st.inKrakendSection && Contains line instanceMarker then .drop
  else .emit

/-- The lines that one iteration appends to `result`. -/
def emitted (prNumber : Str) (st : ScanState) (line : Str) : List Str :=
  (scanStep prNumber st line).result.drop st.result.length

/-- A line that is empty or begins with a space: it does not end the krakend section. -/
def staysInSection (line : Str) : Bool := line.isEmpty || line.head? == some (byte ' ')

/-- The line is the first of the document to contain `albIdleTimeout: 180`: it contains the
text and none of the lines `before` it does. -/
def IsFirstAlb (before : List Str) (line : Str) : Prop :=
  ascii "albIdleTimeout: 180" <:+: line ∧ ∀ l ∈ before, ¬ ascii "albIdleTimeout: 180" <:+: l

/-- The place after the lines `before` lies inside the krakend section, said of the text of
the lines alone: an earlier line `k` contains `krakend:` (and is not the first
`albIdleTimeout: 180` line, which only gets its override line), and every line after `k` is
empty, or begins with a space, or contains `instance:` or `krakend:`, or is the first
`albIdleTimeout: 180` line. -/
def LiesInKrakendSection (before : List Str) : Prop :=
  ∃ (b₁ : List Str) (k : Str) (b₂ : List Str), before = b₁ ++ k :: b₂ ∧
    ascii "krakend:" <:+: k ∧ ¬ IsFirstAlb b₁ k ∧
    ∀ (b₃ : List Str) (y : Str) (b₄ : List Str), b₂ = b₃ ++ y :: b₄ →
      (y = [] ∨ y.head? = some (byte ' ') ∨ ascii "instance:" <:+: y ∨
        ascii "krakend:" <:+: y ∨ IsFirstAlb (b₁ ++ k :: b₃) y)

/-! ## Auxiliary definitions for the proofs -/

/-- The pieces that match the runes literally, one by one. -/
def literal (t : List Rune) : Regexp := t.map fun c => ⟨.lit c, false⟩

/-- The pattern that `endpointPattern` compiles to: the literal `"endpoint":`, a starred
`\s`, then the runes of the quoted endpoint as a literal. -/
def endpointRegexp (p : Str) : Regexp :=
  literal ((ascii "\"endpoint\":").map Fin.val) ++ ⟨.perlSpace, true⟩ ::
    literal (rune '"' :: (runes p ++ [rune '"']))

/-- The runes of the pattern syntax that stand for a special byte. -/
def specialRune (r : Rune) : Bool :=
  decide (r < 128) && special ⟨r % 256, Nat.mod_lt _ (by decide)⟩

/-- What `QuoteMeta` does, seen on the decoding steps: a backslash before every special
byte. -/
def quoteChunks : List (Rune × Str) → List (Rune × Str)
  | [] => []
  | c :: cs =>
    if specialRune c.1 then (rune '\\', [byte '\\']) :: c :: quoteChunks cs
    else c :: quoteChunks cs

/-- What `QuoteMeta` does, seen on the runes. -/
def quoteRunes : List Rune → List Rune
  | [] => []
  | r :: rs => if specialRune r then rune '\\' :: r :: quoteRunes rs else r :: quoteRunes rs

/-- The decoding step at the start of `b :: t`: the rune and the bytes taken. -/
def chunkAt (b : Byte) (t : Str) : Rune × Str :=
  ((DecodeRuneInString (b :: t)).1, (b :: t).take (DecodeRuneInString (b :: t)).2)

/-- The bytes of value 128 or more at the start of a string: the only bytes that
`DecodeRuneInString` can accept after the first byte. -/
def lead (t : Str) : Str := t.takeWhile fun x => decide (128 ≤ x.val)

/-- A decoding step of some non-empty string. -/
def IsChunk (c : Rune × Str) : Prop := ∃ (b : Byte) (t : Str), c = chunkAt b t

/-- A decoding step that did not meet an invalid encoding. -/
def ValidChunk (c : Rune × Str) : Prop := ¬ (c.1 = RuneError ∧ c.2.length = 1)

/-- The bytes that a sequence of decoding steps consumed. -/
def bytesOf (cs : List (Rune × Str)) : Str := (cs.map Prod.snd).flatten

/-- The decoding steps of a string of ASCII bytes. -/
def asciiChunks (u : Str) : List (Rune × Str) := u.map fun a => (a.val, [a])

/-- The lines appended to `result` by the loop over `lines`, started in state `st`. -/
def scanOut (prNumber : Str) : ScanState → List Str → List Str
  | _, [] => []
  | st, line :: rest =>
    emitted prNumber st line ++ scanOut prNumber (scanStep prNumber st line) rest

/-! ## Concrete inputs used as examples -/

/-- No size limit: the setting of the examples, whose patterns are a few dozen bytes long,
below the limit of any version of the Go parser. -/
def noLimit : Str → Bool := fun _ => false

/-- An endpoint path that is not valid UTF-8: `/app/` and the byte `FF`. -/
def invalidPath : Str := ascii "/app/" ++ [0xFF]

/-- The endpoint path `/app/` followed by U+FFFD, in valid UTF-8 (`EF BF BD`). -/
def replacementPath : Str := ascii "/app/" ++ [0xEF, 0xBF, 0xBD]

/-- A `config.json` that declares the endpoint `invalidPath`, byte for byte, and holds the
host `http://svc`. -/
def invalidPathConfig : Str :=
  ascii "\x7b\"endpoint\": \"/app/" ++ [0xFF] ++ ascii "\", \"host\": [\"http://svc\"]\x7d"

/-- The document `invalidPathConfig` after the patch for PR 42. -/
def invalidPathPatched : Str :=
  ascii "\x7b\"endpoint\": \"/app/" ++ [0xFF] ++ ascii "\", \"host\": [\"http://svc-42\"]\x7d"

/-- A `config.json` that declares the endpoint `invalidPath`, byte for byte, and holds
another host. -/
def invalidPathOtherHost : Str :=
  ascii "\x7b\"endpoint\": \"/app/" ++ [0xFF] ++ ascii "\", \"host\": [\"http://garden\"]\x7d"

/-- The text `http://` followed by U+FFFD, in valid UTF-8 (`EF BF BD`). -/
def replacementHost : Str := ascii "http://" ++ [0xEF, 0xBF, 0xBD]

/-- A `config.json` whose endpoint path is the host `http://` followed by the byte `FF`. -/
def invalidHostConfig : Str := ascii "\x7b\"endpoint\": \"http://" ++ [0xFF] ++ ascii "\"\x7d"

/-- The document `invalidHostConfig` after the patch for PR 42. -/
def invalidHostPatched : Str :=
  ascii "\x7b\"endpoint\": \"http://" ++ [0xFF] ++ ascii "-42\"\x7d"

/-- The `config.json` of the end-to-end scenario. -/
def scenarioConfig : Str :=
  (ascii "\x7b\"endpoints\":[\x7b\"endpoint\":\"/app/v1/fair-lock\",\"backend\":[\x7b\"host\":[\"http://home-depot\"]\x7d]\x7d]\x7d")

/-- The end-to-end scenario's `config.json` after the patch for PR 654. -/
def scenarioPatched : Str :=
  (ascii "\x7b\"endpoints\":[\x7b\"endpoint\":\"/app/v1/fair-lock\",\"backend\":[\x7b\"host\":[\"http://home-depot-654\"]\x7d]\x7d]\x7d")

/-- A `config.json` that declares `/app/v1/fairxlock`, which the pattern `/app/v1/fair.lock`
would match if its dot were a wildcard. -/
def otherEndpointConfig : Str :=
  (ascii "\x7b\"endpoint\": \"/app/v1/fairxlock\", \"host\": [\"http://home-depot\"]\x7d")

/-- A `config.json` that declares the endpoint but has another host. -/
def otherHostConfig : Str :=
  (ascii "\x7b\"endpoint\": \"/app/v1/fair-lock\", \"host\": [\"http://garden\"]\x7d")

/-- A `config.json` whose endpoint path contains a double quote followed by the host. -/
def quotedPathConfig : Str := (ascii "\x7b\"endpoint\": \"/app/\"http://svc\"\x7d")

/-- The document `quotedPathConfig` after the patch for PR 42. -/
def quotedPathPatched : Str := (ascii "\x7b\"endpoint\": \"/app/\"http://svc-42\"\x7d")

/-- A `config.json` whose endpoint path is the host itself. -/
def hostAsPathConfig : Str := (ascii "\x7b\"endpoint\": \"http://svc\"\x7d")

/-- The document `hostAsPathConfig` after the patch for PR 42. -/
def hostAsPathPatched : Str := (ascii "\x7b\"endpoint\": \"http://svc-42\"\x7d")

/-- A `config.json` for a service name that contains a double quote. -/
def quotedServiceConfig : Str := (ascii "\x7b\"http://a\"endpoint\": \"/app/x\"\x7d")

/-- The document `quotedServiceConfig` after the patch for PR 42. -/
def quotedServicePatched : Str := (ascii "\x7b\"http://a\"endpoint-42\": \"/app/x\"\x7d")

/-- A `config.json` with one endpoint and one host. -/
def plainConfig : Str := (ascii "\x7b\"endpoint\": \"/app/x\", \"host\": [\"http://svc\"]\x7d")

/-- The document `plainConfig` after the patch for a PR identifier that is the text
`"http://svc`. -/
def quotedPrPatched : Str :=
  (ascii "\x7b\"endpoint\": \"/app/x\", \"host\": [\"http://svc-\"http://svc\"]\x7d")

/-- The document `quotedPrPatched` after the same patch once more. -/
def quotedPrPatchedTwice : Str :=
  (ascii "\x7b\"endpoint\": \"/app/x\", \"host\": [\"http://svc-\"http://svc-\"http://svc\"]\x7d")

/-- A values file with an `albIdleTimeout: 180` line and no `krakend:` line. -/
def valuesNoKrakend : Str := (ascii "global:\n  albIdleTimeout: 180\n")

/-- A values file with the `albIdleTimeout: 180` line, a krakend section holding an
instance line, and a following top-level section holding another instance line. -/
def valuesScenario : Str :=
  (ascii "global:\n  albIdleTimeout: 180\nkrakend:\n  instance: 5\n  replicas: 2\nother:\n  instance: 9\n")

/-- The document `valuesScenario` after the patch for PR 654. -/
def valuesScenarioPatched : Str :=
  (ascii "global:\n  albIdleTimeout: 180\n  endpointFullNameOverride: api-fyre\nkrakend:\n      instance: 654\n  replicas: 2\nother:\n  instance: 9\n")

/-- A values file whose krakend section holds a line with both `instance:` and
`albIdleTimeout: 180`, followed by another `krakend:` line. -/
def valuesInstanceWithAlb : Str :=
  (ascii "krakend:\n  instance: 1 # albIdleTimeout: 180\nkrakend:")

/-- A values file whose krakend section holds a line with both `krakend:` and
`instance:`. -/
def valuesInstanceWithKrakend : Str :=
  (ascii "  albIdleTimeout: 180\nkrakend:\n  sub-krakend: instance: 3")

/-- A values file whose krakend section is followed by the top-level line `rds-instance:`
and an instance line under it. -/
def valuesInstanceSection : Str :=
  ascii "krakend:\n  replicas: 2\nrds-instance:\n  instance: 9"

/-- A values file whose first line contains both `krakend:` and `albIdleTimeout: 180`. -/
def valuesKrakendWithAlb : Str :=
  ascii "krakend: # albIdleTimeout: 180\n  instance: 5\nkrakend:"

/-- A values file without final line break whose last line is a stale instance line after a
blank line. -/
def valuesStaleLast : Str := (ascii "krakend:\n\n  instance: 5")

/-- The document `valuesScenarioPatched` after the same patch once more: the override line
is there twice. -/
def valuesScenarioPatchedTwice : Str :=
  (ascii "global:\n  albIdleTimeout: 180\n  endpointFullNameOverride: api-fyre\n  endpointFullNameOverride: api-fyre\nkrakend:\n      instance: 654\n  replicas: 2\nother:\n  instance: 9\n")

/-- A values file without `albIdleTimeout: 180` line. -/
def valuesNoAlb : Str :=
  (ascii "krakend:\n  instance: 5\n  replicas: 2\nother:\n  instance: 9\n")

/-- The document `valuesNoAlb` after the patch for PR 654. -/
def valuesNoAlbPatched : Str :=
  (ascii "krakend:\n      instance: 654\n  replicas: 2\nother:\n  instance: 9\n")

set_option maxRecDepth 100000

/-! ## Lemmas on the `strings` functions -/

theorem Index_unfold_cons (c : Byte) (s t : Str) :
    Index (c :: s) t = if t.isPrefixOf (c :: s) then some 0 else (Index s t).map (· + 1) := by
  rw [Index]

theorem Index_unfold_nil (t : Str) :
    Index [] t = if t.isPrefixOf [] then some 0 else none := by
  rw [Index]

theorem isPrefixOf_append_self (t post : Str) : t.isPrefixOf (t ++ post) = true := by
  rw [ List.isPrefixOf_iff_prefix]
  exact List.prefix_append t post

theorem Index_found (t : Str) : ∀ (s : Str) (i : Nat), Index s t = some i →
    s = s.take i ++ t ++ s.drop (i + t.length) ∧
      ∀ pre' post' : Str, s = pre' ++ t ++ post' → i ≤ pre'.length := by
  intro s
  induction s with
  | nil =>
    intro i h
    rw [Index_unfold_nil] at h
    by_cases hp : t.isPrefixOf ([] : Str) = true
    · rw [if_pos hp] at h
      have hi : i = 0 := by injection h with h; exact h.symm
      have ht : t = [] := by
        rw [ List.isPrefixOf_iff_prefix] at hp
        exact List.prefix_nil.mp hp
      subst hi; subst ht
      simp
    · rw [if_neg hp] at h
      cases h
  | cons c s ih =>
    intro i h
    rw [Index_unfold_cons] at h
    by_cases hp : t.isPrefixOf (c :: s) = true
    · rw [if_pos hp] at h
      have hi : i = 0 := by injection h with h; exact h.symm
      subst hi
      rw [ List.isPrefixOf_iff_prefix] at hp
      obtain ⟨post, hpost⟩ := hp
      refine ⟨?_, fun _ _ _ => Nat.zero_le _⟩
      rw [← hpost]
      simp
    · rw [if_neg hp] at h
      cases hj : Index s t with
      | none => rw [hj] at h; cases h
      | some j =>
        rw [hj] at h
        have hi : i = j + 1 := by
          simp only [Option.map_some', Option.some.injEq] at h
          exact h.symm
        subst hi
        obtain ⟨h1, h2⟩ := ih j hj
        constructor
        · have e : j + 1 + t.length = (j + t.length) + 1 := by omega
          rw [e, List.take_succ_cons, List.drop_succ_cons]
          simp only [List.cons_append]
          rw [← h1]
        · intro pre' post' hd
          cases pre' with
          | nil =>
            exfalso
            apply hp
            rw [hd]
            simp
          | cons a pre'' =>
            simp only [List.cons_append, List.cons.injEq] at hd
            have := h2 pre'' post' hd.2
            simp only [List.length_cons]
            omega

theorem Index_of_occurrence (t : Str) : ∀ (pre post : Str), ∃ i, Index (pre ++ t ++ post) t = some i := by
  intro pre
  induction pre with
  | nil =>
    intro post
    refine ⟨0, ?_⟩
    cases hs : ([] ++ t ++ post : Str) with
    | nil =>
      rw [Index_unfold_nil, if_pos]
      rw [← hs]; simp
    | cons c s =>
      rw [Index_unfold_cons, if_pos]
      rw [← hs]; simp
  | cons a pre ih =>
    intro post
    obtain ⟨i, hi⟩ := ih post
    simp only [List.cons_append]
    rw [Index_unfold_cons]
    by_cases hp : t.isPrefixOf (a :: (pre ++ t ++ post)) = true
    · exact ⟨0, by rw [if_pos hp]⟩
    · exact ⟨i + 1, by rw [if_neg hp, hi]; rfl⟩

theorem Contains_iff_occurs (s t : Str) : Contains s t = true ↔ t <:+: s := by
  unfold Contains
  constructor
  · intro h
    cases hi : Index s t with
    | none => rw [hi] at h; cases h
    | some i =>
      have := (Index_found t s i hi).1
      exact ⟨s.take i, s.drop (i + t.length), this.symm⟩
  · rintro ⟨pre, post, rfl⟩
    obtain ⟨i, hi⟩ := Index_of_occurrence t pre post
    rw [hi]; rfl

theorem Contains_eq_false_iff (s t : Str) : Contains s t = false ↔ ¬ t <:+: s := by
  rw [← Contains_iff_occurs]
  cases Contains s t <;> simp

theorem Count_pos_of_Index (s old : Str) (i : Nat) (hne : old ≠ []) (h : Index s old = some i) :
    Count s old ≠ 0 := by
  unfold Count
  rw [if_neg hne, countLoop, h]
  simp only
  omega

theorem Replace_one (s old new : Str) (i : Nat) (hne : old ≠ []) (hdiff : old ≠ new)
    (h : Index s old = some i) :
    Replace s old new 1 = s.take i ++ new ++ s.drop (i + old.length) := by
  have hc := Count_pos_of_Index s old i hne h
  unfold Replace
  rw [if_neg (by simp [hdiff])]
  simp only
  rw [if_neg hc]
  have hm : min (Count s old) 1 = 1 := by omega
  rw [hm]
  simp [replaceLoop, hne, h]

/-! ## Lemmas on the `utf8` functions -/

theorem decode_ascii (b : Byte) (t : Str) (h : b.val < 128) :
    DecodeRuneInString (b :: t) = (b.val, 1) := by
  simp [DecodeRuneInString, h]

theorem decode_cons (b0 : Byte) (rest : Str) :
    DecodeRuneInString (b0 :: rest) =
      if b0.val < 0x80 then (b0.val, 1)
      else if b0.val < 0xC2 then (RuneError, 1)
      else if b0.val < 0xE0 then
        match rest with
        | b1 :: _ =>
          if inRange b1 0x80 0xBF then ((b0.val - 0xC0) * 64 + (b1.val - 0x80), 2)
          else (RuneError, 1)
        | [] => (RuneError, 1)
      else if b0.val < 0xF0 then
        match rest with
        | b1 :: b2 :: _ =>
          if inRange b1 (if b0.val = 0xE0 then 0xA0 else 0x80)
              (if b0.val = 0xED then 0x9F else 0xBF) && inRange b2 0x80 0xBF then
            ((b0.val - 0xE0) * 4096 + (b1.val - 0x80) * 64 + (b2.val - 0x80), 3)
          else (RuneError, 1)
        | _ => (RuneError, 1)
      else if b0.val < 0xF5 then
        match rest with
        | b1 :: b2 :: b3 :: _ =>
          if inRange b1 (if b0.val = 0xF0 then 0x90 else 0x80)
              (if b0.val = 0xF4 then 0x8F else 0xBF) && inRange b2 0x80 0xBF
              && inRange b3 0x80 0xBF then
            ((b0.val - 0xF0) * 262144 + (b1.val - 0x80) * 4096 + (b2.val - 0x80) * 64
              + (b3.val - 0x80), 4)
          else (RuneError, 1)
        | _ => (RuneError, 1)
      else (RuneError, 1) := rfl

theorem decode_cases (b : Byte) (t : Str) :
    (b.val < 128 ∧ DecodeRuneInString (b :: t) = (b.val, 1)) ∨
    (128 ≤ b.val ∧ DecodeRuneInString (b :: t) = (RuneError, 1)) ∨
    (∃ b1 t', t = b1 :: t' ∧ 0xC2 ≤ b.val ∧ b.val < 0xE0 ∧ 0x80 ≤ b1.val ∧ b1.val ≤ 0xBF ∧
      DecodeRuneInString (b :: t) = ((b.val - 0xC0) * 64 + (b1.val - 0x80), 2)) ∨
    (∃ b1 b2 t', t = b1 :: b2 :: t' ∧ 0xE0 ≤ b.val ∧ b.val < 0xF0 ∧
      (if b.val = 0xE0 then 0xA0 else 0x80) ≤ b1.val ∧
      b1.val ≤ (if b.val = 0xED then 0x9F else 0xBF) ∧ 0x80 ≤ b2.val ∧ b2.val ≤ 0xBF ∧
      DecodeRuneInString (b :: t) =
        ((b.val - 0xE0) * 4096 + (b1.val - 0x80) * 64 + (b2.val - 0x80), 3)) ∨
    (∃ b1 b2 b3 t', t = b1 :: b2 :: b3 :: t' ∧ 0xF0 ≤ b.val ∧ b.val < 0xF5 ∧
      (if b.val = 0xF0 then 0x90 else 0x80) ≤ b1.val ∧
      b1.val ≤ (if b.val = 0xF4 then 0x8F else 0xBF) ∧ 0x80 ≤ b2.val ∧ b2.val ≤ 0xBF ∧
      0x80 ≤ b3.val ∧ b3.val ≤ 0xBF ∧
      DecodeRuneInString (b :: t) =
        ((b.val - 0xF0) * 262144 + (b1.val - 0x80) * 4096 + (b2.val - 0x80) * 64
          + (b3.val - 0x80), 4)) := by
  rw [decode_cons]
  by_cases h1 : b.val < 0x80
  · left; exact ⟨h1, by rw [if_pos h1]⟩
  right
  rw [if_neg h1]
  by_cases h2 : b.val < 0xC2
  · left; exact ⟨by omega, by rw [if_pos h2]⟩
  rw [if_neg h2]
  by_cases h3 : b.val < 0xE0
  · rw [if_pos h3]
    cases t with
    | nil => left; exact ⟨by omega, rfl⟩
    | cons b1 t' =>
      by_cases hr : inRange b1 0x80 0xBF = true
      · right; left
        simp only [hr, if_true]
        simp only [inRange, Bool.and_eq_true, decide_eq_true_eq] at hr
        exact ⟨b1, t', rfl, by omega, h3, hr.1, hr.2, rfl⟩
      · left
        simp only [hr]
        exact ⟨by omega, rfl⟩
  rw [if_neg h3]
  by_cases h4 : b.val < 0xF0
  · rw [if_pos h4]
    rcases t with _ | ⟨b1, _ | ⟨b2, t'⟩⟩
    · left; exact ⟨by omega, rfl⟩
    · left; exact ⟨by omega, rfl⟩
    · by_cases hr : (inRange b1 (if b.val = 0xE0 then 0xA0 else 0x80)
          (if b.val = 0xED then 0x9F else 0xBF) && inRange b2 0x80 0xBF) = true
      · right; right; left
        simp only [hr, if_true]
        simp only [inRange, Bool.and_eq_true, decide_eq_true_eq] at hr
        exact ⟨b1, b2, t', rfl, by omega, h4, hr.1.1, hr.1.2, hr.2.1, hr.2.2, rfl⟩
      · left
        simp only [hr]
        exact ⟨by omega, rfl⟩
  rw [if_neg h4]
  by_cases h5 : b.val < 0xF5
  · rw [if_pos h5]
    rcases t with _ | ⟨b1, _ | ⟨b2, _ | ⟨b3, t'⟩⟩⟩
    · left; exact ⟨by omega, rfl⟩
    · left; exact ⟨by omega, rfl⟩
    · left; exact ⟨by omega, rfl⟩
    · by_cases hr : (inRange b1 (if b.val = 0xF0 then 0x90 else 0x80)
          (if b.val = 0xF4 then 0x8F else 0xBF) && inRange b2 0x80 0xBF
          && inRange b3 0x80 0xBF) = true
      · right; right; right
        simp only [hr, if_true]
        simp only [inRange, Bool.and_eq_true, decide_eq_true_eq] at hr
        exact ⟨b1, b2, b3, t', rfl, by omega, h5, hr.1.1.1, hr.1.1.2, hr.1.2.1, hr.1.2.2,
          hr.2.1, hr.2.2, rfl⟩
      · left
        simp only [hr]
        exact ⟨by omega, rfl⟩
  · rw [if_neg h5]
    left
    exact ⟨by omega, rfl⟩

theorem decode_two (b b1 : Byte) (t : Str) (h0 : 0xC2 ≤ b.val) (h1 : b.val < 0xE0)
    (h2 : 0x80 ≤ b1.val) (h3 : b1.val ≤ 0xBF) :
    DecodeRuneInString (b :: b1 :: t) = ((b.val - 0xC0) * 64 + (b1.val - 0x80), 2) := by
  have hr : inRange b1 0x80 0xBF = true := by simp [inRange, h2, h3]
  have n1 : ¬ b.val < 0x80 := by omega
  have n2 : ¬ b.val < 0xC2 := by omega
  rw [decode_cons, if_neg n1, if_neg n2, if_pos h1]
  simp only [hr, if_true]

theorem decode_three (b b1 b2 : Byte) (t : Str) (h0 : 0xE0 ≤ b.val) (h1 : b.val < 0xF0)
    (h2 : (if b.val = 0xE0 then 0xA0 else 0x80) ≤ b1.val)
    (h3 : b1.val ≤ (if b.val = 0xED then 0x9F else 0xBF))
    (h4 : 0x80 ≤ b2.val) (h5 : b2.val ≤ 0xBF) :
    DecodeRuneInString (b :: b1 :: b2 :: t) =
      ((b.val - 0xE0) * 4096 + (b1.val - 0x80) * 64 + (b2.val - 0x80), 3) := by
  have hr : (inRange b1 (if b.val = 0xE0 then 0xA0 else 0x80)
      (if b.val = 0xED then 0x9F else 0xBF) && inRange b2 0x80 0xBF) = true := by
    simp only [inRange, Bool.and_eq_true, decide_eq_true_eq]
    exact ⟨⟨h2, h3⟩, h4, h5⟩
  have n1 : ¬ b.val < 0x80 := by omega
  have n2 : ¬ b.val < 0xC2 := by omega
  have n3 : ¬ b.val < 0xE0 := by omega
  rw [decode_cons, if_neg n1, if_neg n2, if_neg n3, if_pos h1]
  simp only [hr, if_true]

theorem decode_four (b b1 b2 b3 : Byte) (t : Str) (h0 : 0xF0 ≤ b.val) (h1 : b.val < 0xF5)
    (h2 : (if b.val = 0xF0 then 0x90 else 0x80) ≤ b1.val)
    (h3 : b1.val ≤ (if b.val = 0xF4 then 0x8F else 0xBF))
    (h4 : 0x80 ≤ b2.val) (h5 : b2.val ≤ 0xBF) (h6 : 0x80 ≤ b3.val) (h7 : b3.val ≤ 0xBF) :
    DecodeRuneInString (b :: b1 :: b2 :: b3 :: t) =
      ((b.val - 0xF0) * 262144 + (b1.val - 0x80) * 4096 + (b2.val - 0x80) * 64
        + (b3.val - 0x80), 4) := by
  have hr : (inRange b1 (if b.val = 0xF0 then 0x90 else 0x80)
      (if b.val = 0xF4 then 0x8F else 0xBF) && inRange b2 0x80 0xBF
      && inRange b3 0x80 0xBF) = true := by
    simp only [inRange, Bool.and_eq_true, decide_eq_true_eq]
    exact ⟨⟨⟨h2, h3⟩, h4, h5⟩, h6, h7⟩
  have n1 : ¬ b.val < 0x80 := by omega
  have n2 : ¬ b.val < 0xC2 := by omega
  have n3 : ¬ b.val < 0xE0 := by omega
  have n4 : ¬ b.val < 0xF0 := by omega
  rw [decode_cons, if_neg n1, if_neg n2, if_neg n3, if_neg n4, if_pos h1]
  simp only [hr, if_true]

theorem lead_cons_pos (x : Byte) (t : Str) (h : 128 ≤ x.val) : lead (x :: t) = x :: lead t := by
  unfold lead
  rw [List.takeWhile_cons_of_pos (by simpa using h)]

theorem lead_cons_neg (x : Byte) (t : Str) (h : x.val < 128) : lead (x :: t) = [] := by
  unfold lead
  rw [List.takeWhile_cons_of_neg (by simp; omega)]

theorem lead_nil : lead [] = [] := rfl

theorem lead_eq_cons (t u : Str) (b1 : Byte) (h : lead t = b1 :: u) :
    ∃ t1, t = b1 :: t1 ∧ 128 ≤ b1.val ∧ lead t1 = u := by
  cases t with
  | nil => rw [lead_nil] at h; cases h
  | cons x t1 =>
    by_cases hx : 128 ≤ x.val
    · rw [lead_cons_pos x t1 hx] at h
      injection h with h1 h2
      subst h1
      exact ⟨t1, rfl, hx, h2⟩
    · rw [lead_cons_neg x t1 (by omega)] at h
      cases h

theorem decode_lead (b : Byte) (t : Str) :
    DecodeRuneInString (b :: lead t) = DecodeRuneInString (b :: t) := by
  rcases decode_cases b t with ⟨h, e⟩ | ⟨h, e⟩ | ⟨b1, t', rfl, h0, h1, h2, h3, e⟩ |
      ⟨b1, b2, t', rfl, h0, h1, h2, h3, h4, h5, e⟩ |
      ⟨b1, b2, b3, t', rfl, h0, h1, h2, h3, h4, h5, h6, h7, e⟩
  · rw [e, decode_ascii b _ h]
  · rw [e]
    rcases decode_cases b (lead t) with ⟨h', _⟩ | ⟨_, e'⟩ | ⟨b1, u, hl, h0, h1, h2, h3, _⟩ |
        ⟨b1, b2, u, hl, h0, h1, h2, h3, h4, h5, _⟩ |
        ⟨b1, b2, b3, u, hl, h0, h1, h2, h3, h4, h5, h6, h7, _⟩
    · omega
    · exact e'
    · obtain ⟨t1, ht, _, _⟩ := lead_eq_cons t u b1 hl
      have e2 := congrArg Prod.snd e
      rw [ht, decode_two b b1 t1 h0 h1 h2 h3] at e2
      simp at e2
    · obtain ⟨t1, ht, _, hl1⟩ := lead_eq_cons t _ b1 hl
      obtain ⟨t2, ht2, _, _⟩ := lead_eq_cons t1 _ b2 hl1
      have e2 := congrArg Prod.snd e
      rw [ht, ht2, decode_three b b1 b2 t2 h0 h1 h2 h3 h4 h5] at e2
      simp at e2
    · obtain ⟨t1, ht, _, hl1⟩ := lead_eq_cons t _ b1 hl
      obtain ⟨t2, ht2, _, hl2⟩ := lead_eq_cons t1 _ b2 hl1
      obtain ⟨t3, ht3, _, _⟩ := lead_eq_cons t2 _ b3 hl2
      have e2 := congrArg Prod.snd e
      rw [ht, ht2, ht3, decode_four b b1 b2 b3 t3 h0 h1 h2 h3 h4 h5 h6 h7] at e2
      simp at e2
  · rw [e, lead_cons_pos b1 t' (by omega), decode_two b b1 _ h0 h1 h2 h3]
  · rw [e, lead_cons_pos b1 _ (by split_ifs at h2 <;> omega), lead_cons_pos b2 _ (by omega),
      decode_three b b1 b2 _ h0 h1 h2 h3 h4 h5]
  · rw [e, lead_cons_pos b1 _ (by split_ifs at h2 <;> omega), lead_cons_pos b2 _ (by omega),
      lead_cons_pos b3 _ (by omega), decode_four b b1 b2 b3 _ h0 h1 h2 h3 h4 h5 h6 h7]

/-- The width of a decoding step: at least one byte, and the bytes after the first are
among the leading bytes of value 128 or more. -/
theorem decode_width (b : Byte) (t : Str) :
    1 ≤ (DecodeRuneInString (b :: t)).2 ∧ (DecodeRuneInString (b :: t)).2 - 1 ≤ (lead t).length := by
  rcases decode_cases b t with ⟨h, e⟩ | ⟨h, e⟩ | ⟨b1, t', rfl, h0, h1, h2, h3, e⟩ |
      ⟨b1, b2, t', rfl, h0, h1, h2, h3, h4, h5, e⟩ |
      ⟨b1, b2, b3, t', rfl, h0, h1, h2, h3, h4, h5, h6, h7, e⟩
  · rw [e]; simp
  · rw [e]; simp
  · rw [e, lead_cons_pos b1 t' (by omega)]; simp
  · rw [e, lead_cons_pos b1 _ (by split_ifs at h2 <;> omega), lead_cons_pos b2 _ (by omega)]
    simp
  · rw [e, lead_cons_pos b1 _ (by split_ifs at h2 <;> omega), lead_cons_pos b2 _ (by omega),
      lead_cons_pos b3 _ (by omega)]
    simp

theorem decode_rune_ge (b : Byte) (t : Str) (h : 128 ≤ b.val) :
    128 ≤ (DecodeRuneInString (b :: t)).1 := by
  rcases decode_cases b t with ⟨h', _⟩ | ⟨_, e⟩ | ⟨b1, t', rfl, h0, h1, h2, h3, e⟩ |
      ⟨b1, b2, t', rfl, h0, h1, h2, h3, h4, h5, e⟩ |
      ⟨b1, b2, b3, t', rfl, h0, h1, h2, h3, h4, h5, h6, h7, e⟩
  · omega
  · rw [e]; simp [RuneError]
  · rw [e]
    show 128 ≤ (b.val - 0xC0) * 64 + (b1.val - 0x80)
    omega
  · rw [e]
    show 128 ≤ (b.val - 0xE0) * 4096 + (b1.val - 0x80) * 64 + (b2.val - 0x80)
    split_ifs at h2 <;> omega
  · rw [e]
    show 128 ≤ (b.val - 0xF0) * 262144 + (b1.val - 0x80) * 4096 + (b2.val - 0x80) * 64
      + (b3.val - 0x80)
    split_ifs at h2 <;> omega

theorem lead_length_le (t : Str) : (lead t).length ≤ t.length :=
  (List.takeWhile_prefix _).length_le

theorem take_lead (t : Str) (k : Nat) (h : k ≤ (lead t).length) : (lead t).take k = t.take k := by
  obtain ⟨u, hu⟩ := List.takeWhile_prefix (fun x : Byte => decide (128 ≤ x.val)) (l := t)
  have : t = lead t ++ u := hu.symm
  conv => rhs; rw [this]
  rw [List.take_append_of_le_length h]

theorem chunkAt_lead (b : Byte) (t : Str) : chunkAt b (lead t) = chunkAt b t := by
  unfold chunkAt
  rw [decode_lead]
  have hw := decode_width b t
  congr 1
  generalize (DecodeRuneInString (b :: t)).2 = w at hw
  cases w with
  | zero => rfl
  | succ k =>
    simp only [List.take_succ_cons]
    rw [take_lead t k (by omega)]

/-! ## The decoding steps of a string -/

theorem chunks_nil : chunks [] = [] := rfl

theorem chunksLoop_skip : ∀ (k : Nat) (s : Str), chunksLoop k s = chunks (s.drop k)
  | 0, s => by cases s <;> rfl
  | _ + 1, [] => rfl
  | k + 1, _ :: t => by
    show chunksLoop k t = chunks (t.drop k)
    exact chunksLoop_skip k t

theorem chunks_cons (b : Byte) (t : Str) :
    chunks (b :: t) = chunkAt b t :: chunks (t.drop ((DecodeRuneInString (b :: t)).2 - 1)) := by
  show chunkAt b t :: chunksLoop ((DecodeRuneInString (b :: t)).2 - 1) t = _
  rw [chunksLoop_skip]

theorem chunkAt_ascii (a : Byte) (s : Str) (ha : a.val < 128) : chunkAt a s = (a.val, [a]) := by
  unfold chunkAt
  rw [decode_ascii a s ha]
  rfl

theorem chunks_cons_ascii (a : Byte) (s : Str) (ha : a.val < 128) :
    chunks (a :: s) = (a.val, [a]) :: chunks s := by
  rw [chunks_cons, chunkAt_ascii a s ha, decode_ascii a s ha]
  rfl

theorem lead_append_ascii (a : Byte) (ha : a.val < 128) (s : Str) :
    ∀ t : Str, lead (t ++ a :: s) = lead t
  | [] => by rw [List.nil_append, lead_cons_neg a s ha, lead_nil]
  | x :: t => by
    by_cases hx : 128 ≤ x.val
    · rw [List.cons_append, lead_cons_pos _ _ hx, lead_cons_pos _ _ hx,
        lead_append_ascii a ha s t]
    · rw [List.cons_append, lead_cons_neg _ _ (by omega), lead_cons_neg _ _ (by omega)]

theorem decode_append_ascii (b a : Byte) (ha : a.val < 128) (t s : Str) :
    DecodeRuneInString (b :: (t ++ a :: s)) = DecodeRuneInString (b :: t) := by
  rw [← decode_lead b (t ++ a :: s), lead_append_ascii a ha s t, decode_lead]

theorem chunkAt_append_ascii (b a : Byte) (ha : a.val < 128) (t s : Str) :
    chunkAt b (t ++ a :: s) = chunkAt b t := by
  rw [← chunkAt_lead b (t ++ a :: s), lead_append_ascii a ha s t, chunkAt_lead]

/-- An ASCII byte is never taken into the encoding of an earlier rune: the decoding steps
before it and after it are those of the two parts. -/
theorem chunks_append_ascii (a : Byte) (ha : a.val < 128) (s : Str) :
    ∀ (n : Nat) (pre : Str), pre.length ≤ n →
      chunks (pre ++ a :: s) = chunks pre ++ (a.val, [a]) :: chunks s
  | _, [], _ => by rw [List.nil_append, chunks_cons_ascii a s ha, chunks_nil, List.nil_append]
  | 0, _ :: _, h => by simp at h
  | n + 1, b :: t, h => by
    have hw := decode_width b t
    have hl := lead_length_le t
    rw [List.cons_append, chunks_cons, chunks_cons, decode_append_ascii b a ha t s,
      chunkAt_append_ascii b a ha t s, List.drop_append_of_le_length (by omega),
      List.cons_append]
    rw [chunks_append_ascii a ha s n (t.drop _) (by simp at h ⊢; omega)]

theorem chunks_ascii_append (s : Str) : ∀ u : Str, (∀ x ∈ u, x.val < 128) →
    chunks (u ++ s) = asciiChunks u ++ chunks s
  | [], _ => rfl
  | a :: u, h => by
    rw [List.cons_append, chunks_cons_ascii _ _ (h a (List.mem_cons_self _ _)),
      chunks_ascii_append s u fun x hx => h x (List.mem_cons_of_mem _ hx)]
    rfl

theorem bytesOf_cons (c : Rune × Str) (cs : List (Rune × Str)) :
    bytesOf (c :: cs) = c.2 ++ bytesOf cs := rfl

theorem bytesOf_append (cs cs' : List (Rune × Str)) :
    bytesOf (cs ++ cs') = bytesOf cs ++ bytesOf cs' := by
  unfold bytesOf
  rw [List.map_append, List.flatten_append]

theorem bytesOf_asciiChunks : ∀ u : Str, bytesOf (asciiChunks u) = u
  | [] => rfl
  | a :: u => by
    show [a] ++ bytesOf (asciiChunks u) = a :: u
    rw [bytesOf_asciiChunks u]
    rfl

theorem chunkAt_snd (b : Byte) (t : Str) :
    (chunkAt b t).2 = b :: t.take ((DecodeRuneInString (b :: t)).2 - 1) := by
  have hw := decode_width b t
  show (b :: t).take (DecodeRuneInString (b :: t)).2 = _
  generalize (DecodeRuneInString (b :: t)).2 = w at hw
  cases w with
  | zero => omega
  | succ k => rfl

/-- The decoding steps consume the string, byte for byte. -/
theorem bytesOf_chunks : ∀ (n : Nat) (s : Str), s.length ≤ n → bytesOf (chunks s) = s
  | _, [], _ => rfl
  | 0, _ :: _, h => by simp at h
  | n + 1, b :: t, h => by
    rw [chunks_cons, bytesOf_cons, chunkAt_snd,
      bytesOf_chunks n (t.drop _) (by simp at h ⊢; omega), List.cons_append,
      List.take_append_drop]

theorem isChunk_of_mem_chunks : ∀ (n : Nat) (s : Str), s.length ≤ n →
    ∀ c ∈ chunks s, IsChunk c
  | _, [], _ => by intro c hc; rw [chunks_nil] at hc; cases hc
  | 0, _ :: _, h => by simp at h
  | n + 1, b :: t, h => by
    intro c hc
    rw [chunks_cons] at hc
    rcases List.mem_cons.mp hc with rfl | hc
    · exact ⟨b, t, rfl⟩
    · exact isChunk_of_mem_chunks n (t.drop _) (by simp at h ⊢; omega) c hc

theorem ValidString_iff (s : Str) : ValidString s = true ↔ ∀ c ∈ chunks s, ValidChunk c := by
  unfold ValidString ValidChunk
  rw [List.all_eq_true]
  constructor
  · intro h c hc hv
    have := h c hc
    simp [hv.1, hv.2] at this
  · intro h c hc
    have := h c hc
    simp only [Bool.not_eq_true', Bool.and_eq_false_iff, beq_eq_false_iff_ne, ne_eq]
    by_cases h1 : c.1 = RuneError
    · right; exact fun h2 => this ⟨h1, h2⟩
    · left; exact h1

theorem runes_nil : runes [] = [] := rfl

theorem runes_cons_ascii (a : Byte) (s : Str) (ha : a.val < 128) :
    runes (a :: s) = a.val :: runes s := by
  unfold runes
  rw [chunks_cons_ascii a s ha]
  rfl

theorem runes_append_ascii (a : Byte) (ha : a.val < 128) (pre s : Str) :
    runes (pre ++ a :: s) = runes pre ++ a.val :: runes s := by
  unfold runes
  rw [chunks_append_ascii a ha s pre.length pre (Nat.le_refl _)]
  simp

theorem map_fst_asciiChunks (u : Str) : (asciiChunks u).map Prod.fst = u.map Fin.val := by
  unfold asciiChunks
  rw [List.map_map]
  rfl

theorem runes_ascii_append (u s : Str) (hu : ∀ x ∈ u, x.val < 128) :
    runes (u ++ s) = u.map Fin.val ++ runes s := by
  unfold runes
  rw [chunks_ascii_append s u hu, List.map_append, map_fst_asciiChunks]

/-! ## Lemmas on the `regexp` functions -/

theorem special_lt (b : Byte) (h : special b = true) : b.val < 128 := by
  have hm : b ∈ ascii "\\.+*?()|[]\x7b\x7d^$" := by simpa [special] using h
  have hall : ∀ x ∈ ascii "\\.+*?()|[]\x7b\x7d^$", x.val < 128 := by decide
  exact hall b hm

theorem QuoteMeta_cons_special (b : Byte) (t : Str) (h : special b = true) :
    QuoteMeta (b :: t) = byte '\\' :: b :: QuoteMeta t := by
  simp [QuoteMeta, h]

theorem QuoteMeta_cons_plain (b : Byte) (t : Str) (h : special b = false) :
    QuoteMeta (b :: t) = b :: QuoteMeta t := by
  simp [QuoteMeta, h]

theorem special_of_ge (x : Byte) (hx : 128 ≤ x.val) : special x = false := by
  cases h : special x
  · rfl
  · have := special_lt x h
    omega

theorem lead_QuoteMeta : ∀ t : Str, lead (QuoteMeta t) = lead t
  | [] => rfl
  | x :: t => by
    by_cases hx : 128 ≤ x.val
    · rw [QuoteMeta_cons_plain _ _ (special_of_ge x hx), lead_cons_pos _ _ hx,
        lead_cons_pos _ _ hx, lead_QuoteMeta t]
    · rw [lead_cons_neg x t (by omega)]
      cases hs : special x
      · rw [QuoteMeta_cons_plain _ _ hs, lead_cons_neg x (QuoteMeta t) (by omega)]
      · rw [QuoteMeta_cons_special _ _ hs, lead_cons_neg (byte '\\') _ (by decide)]

theorem QuoteMeta_drop : ∀ (k : Nat) (t : Str), k ≤ (lead t).length →
    (QuoteMeta t).drop k = QuoteMeta (t.drop k)
  | 0, _, _ => rfl
  | _ + 1, [], h => by simp [lead_nil] at h
  | k + 1, x :: t, h => by
    by_cases hx : 128 ≤ x.val
    · rw [lead_cons_pos _ _ hx] at h
      rw [QuoteMeta_cons_plain _ _ (special_of_ge x hx), List.drop_succ_cons, List.drop_succ_cons,
        QuoteMeta_drop k t (by simpa using h)]
    · rw [lead_cons_neg x t (by omega)] at h
      simp at h

theorem specialRune_val (b : Byte) (h : b.val < 128) : specialRune b.val = special b := by
  unfold specialRune
  have e : (⟨b.val % 256, Nat.mod_lt _ (by decide)⟩ : Byte) = b :=
    Fin.ext (Nat.mod_eq_of_lt b.isLt)
  rw [e]
  simp [h]

theorem specialRune_ge (r : Nat) (h : 128 ≤ r) : specialRune r = false := by
  unfold specialRune
  have : ¬ r < 128 := by omega
  simp [this]

theorem specialRune_chunkAt (b : Byte) (t : Str) (hs : special b = false) :
    specialRune (chunkAt b t).1 = false := by
  show specialRune (DecodeRuneInString (b :: t)).1 = false
  by_cases hb : b.val < 128
  · rw [decode_ascii b t hb, specialRune_val b hb, hs]
  · exact specialRune_ge _ (decode_rune_ge b t (by omega))

theorem quoteChunks_cons_special (c : Rune × Str) (cs : List (Rune × Str))
    (h : specialRune c.1 = true) :
    quoteChunks (c :: cs) = (rune '\\', [byte '\\']) :: c :: quoteChunks cs := by
  simp [quoteChunks, h]

theorem quoteChunks_cons_plain (c : Rune × Str) (cs : List (Rune × Str))
    (h : specialRune c.1 = false) :
    quoteChunks (c :: cs) = c :: quoteChunks cs := by
  simp [quoteChunks, h]

/-- What `QuoteMeta` does to the decoding steps: only ASCII bytes are escaped, so the
steps of the other runes stay as they are. -/
theorem chunks_QuoteMeta : ∀ (n : Nat) (p : Str), p.length ≤ n →
    chunks (QuoteMeta p) = quoteChunks (chunks p)
  | _, [], _ => rfl
  | 0, _ :: _, h => by simp at h
  | n + 1, b :: t, h => by
    have ht : t.length ≤ n := by simpa using h
    cases hs : special b
    · have hw := decode_width b t
      have hd : DecodeRuneInString (b :: QuoteMeta t) = DecodeRuneInString (b :: t) := by
        rw [← decode_lead b (QuoteMeta t), lead_QuoteMeta, decode_lead]
      have hc : chunkAt b (QuoteMeta t) = chunkAt b t := by
        rw [← chunkAt_lead b (QuoteMeta t), lead_QuoteMeta, chunkAt_lead]
      rw [QuoteMeta_cons_plain _ _ hs, chunks_cons, chunks_cons, hd, hc,
        quoteChunks_cons_plain _ _ (specialRune_chunkAt b t hs), QuoteMeta_drop _ _ hw.2,
        chunks_QuoteMeta n (t.drop _) (by simp; omega)]
    · have hb := special_lt b hs
      rw [QuoteMeta_cons_special _ _ hs, chunks_cons_ascii _ _ (by decide),
        chunks_cons_ascii _ _ hb, chunks_cons_ascii _ _ hb,
        quoteChunks_cons_special _ _ (by rw [specialRune_val b hb]; exact hs),
        chunks_QuoteMeta n t ht]
      rfl

theorem map_fst_quoteChunks : ∀ cs : List (Rune × Str),
    (quoteChunks cs).map Prod.fst = quoteRunes (cs.map Prod.fst)
  | [] => rfl
  | c :: cs => by
    cases h : specialRune c.1
    · rw [quoteChunks_cons_plain _ _ h, List.map_cons, List.map_cons, map_fst_quoteChunks cs]
      simp [quoteRunes, h]
    · rw [quoteChunks_cons_special _ _ h, List.map_cons, List.map_cons, List.map_cons,
        map_fst_quoteChunks cs]
      simp [quoteRunes, h]

theorem valid_quoteChunks : ∀ cs : List (Rune × Str),
    (∀ c ∈ quoteChunks cs, ValidChunk c) ↔ ∀ c ∈ cs, ValidChunk c
  | [] => Iff.rfl
  | c :: cs => by
    have hb : ValidChunk (rune '\\', [byte '\\']) := by
      intro h
      have := h.1
      revert this
      decide
    cases h : specialRune c.1
    · rw [quoteChunks_cons_plain _ _ h]
      simp only [List.forall_mem_cons, valid_quoteChunks cs]
    · rw [quoteChunks_cons_special _ _ h]
      simp only [List.forall_mem_cons, valid_quoteChunks cs, hb, true_and]

theorem valid_asciiChunks (u : Str) (hu : ∀ x ∈ u, x.val < 128) :
    ∀ c ∈ asciiChunks u, ValidChunk c := by
  intro c hc
  obtain ⟨a, ha, rfl⟩ := List.mem_map.mp hc
  intro h
  have h1 : a.val = RuneError := h.1
  have := hu a ha
  unfold RuneError at h1
  omega

theorem ascii_endpointHead : ∀ x ∈ ascii "\"endpoint\":\\s*\"", x.val < 128 := by decide

theorem chunks_endpointPattern (p : Str) :
    chunks (endpointPattern p) =
      asciiChunks (ascii "\"endpoint\":\\s*\"") ++
        (quoteChunks (chunks p) ++ [(rune '"', [byte '"'])]) := by
  unfold endpointPattern
  rw [List.append_assoc, chunks_ascii_append _ _ ascii_endpointHead]
  have e : ascii "\"" = [byte '"'] := rfl
  rw [e, chunks_append_ascii (byte '"') (by decide) [] _ _ (Nat.le_refl _),
    chunks_QuoteMeta _ _ (Nat.le_refl _)]
  rfl

theorem ValidString_endpointPattern (p : Str) :
    ValidString (endpointPattern p) = ValidString p := by
  rw [Bool.eq_iff_iff, ValidString_iff, ValidString_iff, chunks_endpointPattern]
  have hq : ValidChunk (rune '"', [byte '"']) := by
    intro h
    have := h.1
    revert this
    decide
  constructor
  · intro h
    rw [← valid_quoteChunks]
    intro c hc
    exact h c (List.mem_append_right _ (List.mem_append_left _ hc))
  · intro h c hc
    rcases List.mem_append.mp hc with hc | hc
    · exact valid_asciiChunks _ ascii_endpointHead c hc
    · rcases List.mem_append.mp hc with hc | hc
      · exact (valid_quoteChunks _).mpr h c hc
      · rw [List.mem_singleton.mp hc]
        exact hq

theorem runes_endpointPattern (p : Str) :
    runes (endpointPattern p) =
      (ascii "\"endpoint\":\\s*\"").map Fin.val ++ (quoteRunes (runes p) ++ [rune '"']) := by
  unfold runes
  rw [chunks_endpointPattern, List.map_append, List.map_append, map_fst_asciiChunks,
    map_fst_quoteChunks]
  rfl

theorem specialRune_escape : ∀ c : Nat, c < 128 → specialRune c = true →
    c ≠ rune 's' ∧ (decide (c < 128) && !isalnum c) = true := by
  decide

theorem not_specialRune_plain_lt : ∀ c : Nat, c < 128 → specialRune c = false →
    c ≠ rune '\\' ∧ c ≠ rune '*' ∧ c ≠ rune '.' ∧ otherOperators.contains c = false := by
  decide

theorem specialRune_lt (c : Nat) (h : specialRune c = true) : c < 128 := by
  unfold specialRune at h
  simp at h
  exact h.1

theorem otherOperators_lt : ∀ x : Nat, x ∈ otherOperators → x < 128 := by decide

theorem not_specialRune_plain (c : Nat) (h : specialRune c = false) :
    c ≠ rune '\\' ∧ c ≠ rune '*' ∧ c ≠ rune '.' ∧ otherOperators.contains c = false := by
  by_cases hc : c < 128
  · exact not_specialRune_plain_lt c hc h
  · refine ⟨?_, ?_, ?_, ?_⟩
    · intro e; rw [e] at hc; exact hc (by decide)
    · intro e; rw [e] at hc; exact hc (by decide)
    · intro e; rw [e] at hc; exact hc (by decide)
    · cases ho : otherOperators.contains c
      · rfl
      · have := otherOperators_lt c (by simpa using ho)
        omega

theorem parseLoop_escape (e : Rune) (rest : List Rune) (stack : List Piece) :
    parseLoop (rune '\\' :: e :: rest) stack =
      if e = rune 's' then parseLoop rest (⟨.perlSpace, false⟩ :: stack)
      else if e < 128 && !isalnum e then parseLoop rest (⟨.lit e, false⟩ :: stack)
      else none := rfl

theorem parseLoop_plain (c : Rune) (rest : List Rune) (stack : List Piece)
    (h1 : c ≠ rune '\\') (h2 : c ≠ rune '*') (h3 : c ≠ rune '.')
    (h4 : otherOperators.contains c = false) :
    parseLoop (c :: rest) stack = parseLoop rest (⟨.lit c, false⟩ :: stack) := by
  rw [parseLoop.eq_def]
  simp only [if_neg h1, if_neg h2, if_neg h3, h4, Bool.false_eq_true, if_false]

theorem parseLoop_star (rest : List Rune) (p : Piece) (stack : List Piece) (h : p.star = false) :
    parseLoop (rune '*' :: rest) (p :: stack) = parseLoop rest (⟨p.cls, true⟩ :: stack) := by
  rw [parseLoop.eq_def]
  simp [h, rune]

theorem parseLoop_quoteRunes (rest : List Rune) : ∀ (r : List Rune) (stack : List Piece),
    parseLoop (quoteRunes r ++ rest) stack = parseLoop rest ((literal r).reverse ++ stack) := by
  intro r
  induction r with
  | nil => intro stack; simp [quoteRunes, literal]
  | cons c r ih =>
    intro stack
    cases hs : specialRune c
    · obtain ⟨h1, h2, h3, h4⟩ := not_specialRune_plain c hs
      simp only [quoteRunes, hs, Bool.false_eq_true, if_false, List.cons_append]
      rw [parseLoop_plain c _ _ h1 h2 h3 h4, ih]
      simp [literal]
    · obtain ⟨h1, h2⟩ := specialRune_escape c (specialRune_lt c hs) hs
      simp only [quoteRunes, hs, if_true, List.cons_append]
      rw [parseLoop_escape, if_neg h1, if_pos h2, ih]
      simp [literal]

/-- The pattern of `updateKrakendConfig` compiles when the endpoint is valid UTF-8 and the
pattern is within the size limits: to the literal `"endpoint":`, a starred `\s`, and the
runes of the quoted endpoint as a literal. -/
theorem Compile_endpointPattern (tooLarge : Str → Bool) (p : Str) (hv : ValidString p = true)
    (hl : tooLarge (endpointPattern p) = false) :
    Compile tooLarge (endpointPattern p) = some (endpointRegexp p) := by
  have e : (ascii "\"endpoint\":\\s*\"").map Fin.val =
      [34, 101, 110, 100, 112, 111, 105, 110, 116, 34, 58, 92, 115, 42, 34] := by decide
  have h0 : ∀ x : List Rune, parseLoop ((ascii "\"endpoint\":\\s*\"").map Fin.val ++ x) [] =
      parseLoop x ((literal ((ascii "\"endpoint\":").map Fin.val) ++
        [(⟨.perlSpace, true⟩ : Piece)] ++ literal [rune '"']).reverse) := by
    intro x
    rw [e]
    simp only [List.cons_append, List.nil_append]
    rw [parseLoop_plain 34 _ _ (by decide) (by decide) (by decide) (by decide),
      parseLoop_plain 101 _ _ (by decide) (by decide) (by decide) (by decide),
      parseLoop_plain 110 _ _ (by decide) (by decide) (by decide) (by decide),
      parseLoop_plain 100 _ _ (by decide) (by decide) (by decide) (by decide),
      parseLoop_plain 112 _ _ (by decide) (by decide) (by decide) (by decide),
      parseLoop_plain 111 _ _ (by decide) (by decide) (by decide) (by decide),
      parseLoop_plain 105 _ _ (by decide) (by decide) (by decide) (by decide),
      parseLoop_plain 110 _ _ (by decide) (by decide) (by decide) (by decide),
      parseLoop_plain 116 _ _ (by decide) (by decide) (by decide) (by decide),
      parseLoop_plain 34 _ _ (by decide) (by decide) (by decide) (by decide),
      parseLoop_plain 58 _ _ (by decide) (by decide) (by decide) (by decide)]
    show parseLoop (rune '\\' :: 115 :: 42 :: 34 :: x) _ = _
    rw [parseLoop_escape, if_pos (by decide)]
    show parseLoop (rune '*' :: 34 :: x) _ = _
    rw [parseLoop_star _ _ _ rfl,
      parseLoop_plain 34 _ _ (by decide) (by decide) (by decide) (by decide)]
    rfl
  have h1 : ∀ st : List Piece,
      parseLoop [rune '"'] st = some ((⟨.lit (rune '"'), false⟩ :: st).reverse) := by
    intro st
    rfl
  unfold Compile
  rw [ValidString_endpointPattern, hv, hl, runes_endpointPattern, h0, parseLoop_quoteRunes, h1]
  simp [endpointRegexp, literal]

/-- The pattern does not compile when the endpoint is not valid UTF-8. -/
theorem Compile_invalid (tooLarge : Str → Bool) (p : Str) (hv : ValidString p = false) :
    Compile tooLarge (endpointPattern p) = none := by
  unfold Compile
  rw [ValidString_endpointPattern, hv]
  rfl

theorem Compile_tooLarge (tooLarge : Str → Bool) (p : Str)
    (hl : tooLarge (endpointPattern p) = true) :
    Compile tooLarge (endpointPattern p) = none := by
  unfold Compile
  rw [hl]
  simp

/-- When the pattern compiles, the endpoint is valid UTF-8, the pattern is within the size
limits, and the result is `endpointRegexp`. -/
theorem Compile_some (tooLarge : Str → Bool) (p : Str) (re : Regexp)
    (h : Compile tooLarge (endpointPattern p) = some re) :
    ValidString p = true ∧ tooLarge (endpointPattern p) = false ∧ re = endpointRegexp p := by
  cases hv : ValidString p
  · rw [Compile_invalid tooLarge p hv] at h; cases h
  · cases hl : tooLarge (endpointPattern p)
    · rw [Compile_endpointPattern tooLarge p hv hl] at h
      injection h with h
      exact ⟨rfl, rfl, h.symm⟩
    · rw [Compile_tooLarge tooLarge p hl] at h; cases h

/-! ## Injectivity of the decoding -/

/-- The decoding step at the start of a string, case by case: an ASCII byte, an invalid
byte, or a well-formed encoding of two, three or four bytes. -/
theorem chunkAt_cases (b : Byte) (t : Str) :
    (b.val < 128 ∧ chunkAt b t = (b.val, [b])) ∨
    (128 ≤ b.val ∧ chunkAt b t = (RuneError, [b])) ∨
    (∃ b1 : Byte, 0xC2 ≤ b.val ∧ b.val < 0xE0 ∧ 0x80 ≤ b1.val ∧ b1.val ≤ 0xBF ∧
      chunkAt b t = ((b.val - 0xC0) * 64 + (b1.val - 0x80), [b, b1])) ∨
    (∃ b1 b2 : Byte, 0xE0 ≤ b.val ∧ b.val < 0xF0 ∧ 0x80 ≤ b1.val ∧ b1.val ≤ 0xBF ∧
      (b.val = 0xE0 → 0xA0 ≤ b1.val) ∧ (b.val = 0xED → b1.val ≤ 0x9F) ∧
      0x80 ≤ b2.val ∧ b2.val ≤ 0xBF ∧
      chunkAt b t =
        ((b.val - 0xE0) * 4096 + (b1.val - 0x80) * 64 + (b2.val - 0x80), [b, b1, b2])) ∨
    (∃ b1 b2 b3 : Byte, 0xF0 ≤ b.val ∧ b.val < 0xF5 ∧ 0x80 ≤ b1.val ∧ b1.val ≤ 0xBF ∧
      (b.val = 0xF0 → 0x90 ≤ b1.val) ∧ (b.val = 0xF4 → b1.val ≤ 0x8F) ∧
      0x80 ≤ b2.val ∧ b2.val ≤ 0xBF ∧ 0x80 ≤ b3.val ∧ b3.val ≤ 0xBF ∧
      chunkAt b t =
        ((b.val - 0xF0) * 262144 + (b1.val - 0x80) * 4096 + (b2.val - 0x80) * 64
          + (b3.val - 0x80), [b, b1, b2, b3])) := by
  unfold chunkAt
  rcases decode_cases b t with ⟨h, e⟩ | ⟨h, e⟩ | ⟨b1, t', rfl, h0, h1, h2, h3, e⟩ |
      ⟨b1, b2, t', rfl, h0, h1, h2, h3, h4, h5, e⟩ |
      ⟨b1, b2, b3, t', rfl, h0, h1, h2, h3, h4, h5, h6, h7, e⟩
  · left; rw [e]; exact ⟨h, rfl⟩
  · right; left; rw [e]; exact ⟨h, rfl⟩
  · right; right; left; rw [e]; exact ⟨b1, h0, h1, h2, h3, rfl⟩
  · right; right; right; left; rw [e]
    refine ⟨b1, b2, h0, h1, ?_, ?_, ?_, ?_, h4, h5, rfl⟩
    · split_ifs at h2 <;> omega
    · split_ifs at h3 <;> omega
    · intro hb; rw [if_pos hb] at h2; exact h2
    · intro hb; rw [if_pos hb] at h3; exact h3
  · right; right; right; right; rw [e]
    refine ⟨b1, b2, b3, h0, h1, ?_, ?_, ?_, ?_, h4, h5, h6, h7, rfl⟩
    · split_ifs at h2 <;> omega
    · split_ifs at h3 <;> omega
    · intro hb; rw [if_pos hb] at h2; exact h2
    · intro hb; rw [if_pos hb] at h3; exact h3

/-- Decoding is injective on well-formed encodings: two decoding steps that give the same
rune, neither from an invalid byte, took the same bytes. -/
theorem chunk_inj (c c' : Rune × Str) (h : IsChunk c) (h' : IsChunk c') (v : ValidChunk c)
    (v' : ValidChunk c') (e : c.1 = c'.1) : c = c' := by
  obtain ⟨b, t, rfl⟩ := h
  obtain ⟨b', t', rfl⟩ := h'
  replace v : ¬ (@Eq Nat (chunkAt b t).1 RuneError ∧ (chunkAt b t).2.length = 1) := v
  replace v' : ¬ (@Eq Nat (chunkAt b' t').1 RuneError ∧ (chunkAt b' t').2.length = 1) := v'
  have e0 : @Eq Nat (chunkAt b t).1 (chunkAt b' t').1 := e
  rcases chunkAt_cases b t with ⟨_, e1⟩ | ⟨_, e1⟩ | ⟨b1, _, _, _, _, e1⟩ |
      ⟨b1, b2, _, _, _, _, _, _, _, _, e1⟩ | ⟨b1, b2, b3, _, _, _, _, _, _, _, _, _, _, e1⟩ <;>
    rcases chunkAt_cases b' t' with ⟨_, e2⟩ | ⟨_, e2⟩ | ⟨c1, _, _, _, _, e2⟩ |
      ⟨c1, c2, _, _, _, _, _, _, _, _, e2⟩ | ⟨c1, c2, c3, _, _, _, _, _, _, _, _, _, _, e2⟩ <;>
    rw [e1, e2] at e e0 <;> rw [e1] at v <;> rw [e2] at v' <;> rw [e1, e2] <;>
    simp only [RuneError, List.length_cons, List.length_nil, and_self, and_true,
      not_true_eq_false] at e0 v v' <;>
    first
    | (exfalso; omega)
    | (simp only [Prod.mk.injEq, List.cons.injEq, Fin.ext_iff, and_true]
       exact ⟨e, by omega⟩)

/-! ## What the compiled pattern matches -/

theorem chunks_eq_of_runes_eq : ∀ (cs cs' : List (Rune × Str)),
    (∀ c ∈ cs, IsChunk c ∧ ValidChunk c) → (∀ c ∈ cs', IsChunk c ∧ ValidChunk c) →
    cs.map Prod.fst = cs'.map Prod.fst → cs = cs'
  | [], [], _, _, _ => rfl
  | [], _ :: _, _, _, h => by cases h
  | _ :: _, [], _, _, h => by cases h
  | c :: cs, c' :: cs', h1, h2, h => by
    simp only [List.map_cons, List.cons.injEq] at h
    have hc := h1 c (List.mem_cons_self _ _)
    have hc' := h2 c' (List.mem_cons_self _ _)
    rw [chunk_inj c c' hc.1 hc'.1 hc.2 hc'.2 h.1,
      chunks_eq_of_runes_eq cs cs' (fun x hx => h1 x (List.mem_cons_of_mem _ hx))
        (fun x hx => h2 x (List.mem_cons_of_mem _ hx)) h.2]

theorem asciiChunks_of_runes_lt : ∀ cs : List (Rune × Str), (∀ c ∈ cs, IsChunk c) →
    (∀ r : Nat, r ∈ cs.map Prod.fst → r < 128) → ∃ u : Str, cs = asciiChunks u
  | [], _, _ => ⟨[], rfl⟩
  | c :: cs, h1, h2 => by
    obtain ⟨u, hu⟩ := asciiChunks_of_runes_lt cs (fun x hx => h1 x (List.mem_cons_of_mem _ hx))
      (fun r hr => h2 r (by rw [List.map_cons]; exact List.mem_cons_of_mem _ hr))
    obtain ⟨b, t, hc⟩ := h1 c (List.mem_cons_self _ _)
    have hr : (chunkAt b t).1 < 128 := by
      have := h2 c.1 (by rw [List.map_cons]; exact List.mem_cons_self _ _)
      rwa [hc] at this
    have hb : b.val < 128 := by
      by_contra hn
      have : 128 ≤ (DecodeRuneInString (b :: t)).1 := decode_rune_ge b t (by omega)
      exact absurd hr (Nat.not_lt.mpr this)
    refine ⟨b :: u, ?_⟩
    rw [hc, hu, chunkAt_ascii b t hb]
    rfl

theorem map_val_injective (u v : Str) (h : u.map Fin.val = v.map Fin.val) : u = v :=
  List.map_injective_iff.mpr Fin.val_injective h

theorem isPerlSpace_lt (r : Nat) (h : isPerlSpace r = true) : r < 128 := by
  unfold isPerlSpace at h
  simp only [Bool.or_eq_true, beq_iff_eq] at h
  rcases h with (((h | h) | h) | h) | h <;> subst h <;> decide

theorem starLoop_iff (a : Rune → Bool) (k : List Rune → Bool) : ∀ s : List Rune,
    starLoop a k s = true ↔
      ∃ ws s' : List Rune, (∀ c ∈ ws, a c = true) ∧ s = ws ++ s' ∧ k s' = true := by
  intro s
  induction s with
  | nil =>
    simp only [starLoop]
    constructor
    · intro h; exact ⟨[], [], by simp, rfl, h⟩
    · rintro ⟨ws, s', _, hs, hk⟩
      have : s' = [] := by
        have := congrArg List.length hs
        simp at this
        exact List.length_eq_zero.mp (by omega)
      rw [← this]; exact hk
  | cons c t ih =>
    simp only [starLoop, Bool.or_eq_true, Bool.and_eq_true, ih]
    constructor
    · rintro (h | ⟨hc, ws, s', hws, hs, hk⟩)
      · exact ⟨[], c :: t, by simp, rfl, h⟩
      · refine ⟨c :: ws, s', ?_, by rw [hs]; rfl, hk⟩
        intro x hx
        rcases List.mem_cons.mp hx with rfl | hx
        · exact hc
        · exact hws x hx
    · rintro ⟨ws, s', hws, hs, hk⟩
      cases ws with
      | nil => left; rw [hs]; exact hk
      | cons w ws =>
        right
        simp only [List.cons_append, List.cons.injEq] at hs
        obtain ⟨rfl, rfl⟩ := hs
        exact ⟨hws c (List.mem_cons_self _ _), ws, s', fun x hx => hws x (List.mem_cons_of_mem _ hx),
          rfl, hk⟩

theorem matchHere_literal (re : Regexp) : ∀ (t s : List Rune),
    matchHere (literal t ++ re) s = true ↔ ∃ s' : List Rune, s = t ++ s' ∧ matchHere re s' = true := by
  intro t
  induction t with
  | nil => intro s; simp [literal]
  | cons c t ih =>
    intro s
    have hl : literal (c :: t) ++ re = ⟨.lit c, false⟩ :: (literal t ++ re) := by simp [literal]
    rw [hl]
    cases s with
    | nil => simp [matchHere]
    | cons x s =>
      simp only [matchHere, Bool.false_eq_true, if_false, Bool.and_eq_true, ih, CharClass.accepts,
        beq_iff_eq, List.cons_append, List.cons.injEq]
      constructor
      · rintro ⟨rfl, s', rfl, h⟩; exact ⟨s', ⟨rfl, rfl⟩, h⟩
      · rintro ⟨s', ⟨rfl, rfl⟩, h⟩; exact ⟨rfl, s', rfl, h⟩

theorem matchHere_star (cls : CharClass) (re : Regexp) (s : List Rune) :
    matchHere (⟨cls, true⟩ :: re) s = true ↔
      ∃ ws s' : List Rune, (∀ c ∈ ws, cls.accepts c = true) ∧ s = ws ++ s' ∧
        matchHere re s' = true := by
  simp only [matchHere, if_true]
  exact starLoop_iff _ _ s

theorem searchRunes_iff (re : Regexp) : ∀ s : List Rune,
    searchRunes re s = true ↔ ∃ pre suf : List Rune, s = pre ++ suf ∧ matchHere re suf = true := by
  intro s
  induction s with
  | nil =>
    simp only [searchRunes]
    constructor
    · intro h; exact ⟨[], [], rfl, h⟩
    · rintro ⟨pre, suf, hs, h⟩
      have : suf = [] := by
        have := congrArg List.length hs
        simp at this
        exact List.length_eq_zero.mp (by omega)
      rw [← this]; exact h
  | cons c t ih =>
    simp only [searchRunes, Bool.or_eq_true, ih]
    constructor
    · rintro (h | ⟨pre, suf, rfl, h⟩)
      · exact ⟨[], c :: t, rfl, h⟩
      · exact ⟨c :: pre, suf, rfl, h⟩
    · rintro ⟨pre, suf, hs, h⟩
      cases pre with
      | nil => left; rw [hs]; exact h
      | cons x pre =>
        right
        simp only [List.cons_append, List.cons.injEq] at hs
        exact ⟨pre, suf, hs.2, h⟩

/-- What the compiled pattern finds in a sequence of runes: the runes of `"endpoint":`, then
runes of the class `\s`, then the runes of the endpoint between double quotes. -/
theorem searchRunes_endpointRegexp (R : List Rune) (p : Str) :
    searchRunes (endpointRegexp p) R = true ↔
      ∃ pre ws post : List Rune, (∀ c ∈ ws, isPerlSpace c = true) ∧
        R = pre ++ ((ascii "\"endpoint\":").map Fin.val ++ (ws ++ (rune '"' :: (runes p ++
          rune '"' :: post)))) := by
  rw [searchRunes_iff]
  unfold endpointRegexp
  constructor
  · rintro ⟨pre, suf, rfl, h⟩
    rw [matchHere_literal] at h
    obtain ⟨s1, rfl, h⟩ := h
    rw [matchHere_star] at h
    obtain ⟨ws, s2, hws, rfl, h⟩ := h
    have h' : matchHere (literal (rune '"' :: (runes p ++ [rune '"'])) ++ []) s2 = true := by
      simpa using h
    rw [matchHere_literal] at h'
    obtain ⟨post, rfl, _⟩ := h'
    exact ⟨pre, ws, post, hws, by simp⟩
  · rintro ⟨pre, ws, post, hws, rfl⟩
    refine ⟨pre, _, rfl, ?_⟩
    rw [matchHere_literal]
    refine ⟨_, rfl, ?_⟩
    rw [matchHere_star]
    refine ⟨ws, _, hws, rfl, ?_⟩
    have := (matchHere_literal [] (rune '"' :: (runes p ++ [rune '"']))
      (rune '"' :: (runes p ++ rune '"' :: post))).mpr ⟨post, by simp, rfl⟩
    simpa using this

theorem ascii_endpointKey : ∀ x ∈ ascii "\"endpoint\":", x.val < 128 := by decide

/-- A declaration in the bytes of the document is found by the compiled pattern. -/
theorem MatchString_of_decl (d p : Str) (h : HasEndpointDecl d p) :
    MatchString (endpointRegexp p) d = true := by
  obtain ⟨pre, ws, post, hws, rfl⟩ := h
  unfold MatchString
  rw [searchRunes_endpointRegexp]
  have hw : ∀ x ∈ ws, x.val < 128 := fun x hx => isPerlSpace_lt _ (hws x hx)
  have e1 : pre ++ (ascii "\"endpoint\":" ++ ws ++ ascii "\"" ++ p ++ ascii "\"") ++ post =
      pre ++ byte '"' :: (ascii "endpoint\":" ++ (ws ++ byte '"' :: (p ++ byte '"' :: post))) := by
    have a1 : ascii "\"endpoint\":" = byte '"' :: ascii "endpoint\":" := rfl
    have a2 : ascii "\"" = [byte '"'] := rfl
    rw [a1, a2]
    simp
  have e2 : byte '"' :: (ascii "endpoint\":" ++ (ws ++ byte '"' :: (p ++ byte '"' :: post))) =
      ascii "\"endpoint\":" ++ (ws ++ byte '"' :: (p ++ byte '"' :: post)) := rfl
  refine ⟨runes pre, ws.map Fin.val, runes post, ?_, ?_⟩
  · intro c hc
    obtain ⟨x, hx, rfl⟩ := List.mem_map.mp hc
    exact hws x hx
  · rw [e1, runes_append_ascii (byte '"') (by decide), ← runes_cons_ascii _ _ (by decide), e2,
      runes_ascii_append _ _ ascii_endpointKey, runes_ascii_append _ _ hw,
      runes_cons_ascii _ _ (by decide), runes_append_ascii (byte '"') (by decide)]
    rfl

/-- What the compiled pattern finds is a declaration in the bytes of the document, when
the endpoint is valid UTF-8 and either the document is valid UTF-8 too or the endpoint
holds no U+FFFD (the rune that an invalid byte of the document is read as). -/
theorem decl_of_MatchString (d p : Str) (hp : ValidString p = true)
    (hd : ValidString d = true ∨ RuneError ∉ runes p)
    (h : MatchString (endpointRegexp p) d = true) : HasEndpointDecl d p := by
  unfold MatchString at h
  rw [searchRunes_endpointRegexp] at h
  obtain ⟨R1, W, R2, hW, hR⟩ := h
  have hchunk := isChunk_of_mem_chunks d.length d (Nat.le_refl _)
  unfold runes at hR
  obtain ⟨C1, C', hC, h1, hR⟩ := List.map_eq_append_iff.mp hR
  obtain ⟨CE, C', rfl, hE, hR⟩ := List.map_eq_append_iff.mp hR
  obtain ⟨CW, C', rfl, hCW, hR⟩ := List.map_eq_append_iff.mp hR
  obtain ⟨cq, C', rfl, hq, hR⟩ := List.map_eq_cons_iff.mp hR
  obtain ⟨Cp, C', rfl, hCp, hR⟩ := List.map_eq_append_iff.mp hR
  obtain ⟨cq', C2, rfl, hq', hR⟩ := List.map_eq_cons_iff.mp hR
  have hmem : ∀ c, c ∈ CE ++ (CW ++ cq :: (Cp ++ cq' :: C2)) → c ∈ chunks d := by
    intro c hc
    rw [hC]
    exact List.mem_append_right _ hc
  -- the key
  obtain ⟨uE, huE⟩ := asciiChunks_of_runes_lt CE
    (fun c hc => hchunk c (hmem c (List.mem_append_left _ hc)))
    (fun r hr => by
      rw [hE] at hr
      obtain ⟨x, hx, rfl⟩ := List.mem_map.mp hr
      exact ascii_endpointKey x hx)
  have hE' : uE = ascii "\"endpoint\":" := by
    apply map_val_injective
    rw [← hE, huE, map_fst_asciiChunks]
  -- the white space
  obtain ⟨ws, hws⟩ := asciiChunks_of_runes_lt CW
    (fun c hc => hchunk c (hmem c (List.mem_append_right _ (List.mem_append_left _ hc))))
    (fun r hr => by
      rw [hCW] at hr
      exact isPerlSpace_lt r (hW r hr))
  have hws' : ∀ c ∈ ws, isPerlSpace c.val = true := by
    intro c hc
    apply hW
    rw [← hCW, hws, map_fst_asciiChunks]
    exact List.mem_map_of_mem _ hc
  -- the two quotes
  have hquote : ∀ c : Rune × Str, c ∈ chunks d → c.1 = rune '"' → c = (rune '"', [byte '"']) := by
    intro c hc hr
    obtain ⟨u, hu⟩ := asciiChunks_of_runes_lt [c]
      (fun x hx => by rw [List.mem_singleton.mp hx]; exact hchunk c hc)
      (fun r hr' => by
        simp only [List.map_cons, List.map_nil, List.mem_singleton] at hr'
        rw [hr', hr]
        decide)
    cases u with
    | nil => cases hu
    | cons a u =>
      cases u with
      | nil =>
        injection hu with hu _
        rw [hu] at hr ⊢
        have ha : a = byte '"' := Fin.ext hr
        rw [ha]
        rfl
      | cons _ _ => injection hu with _ hu; cases hu
  have hcq := hquote cq (hmem cq (by simp)) hq
  have hcq' := hquote cq' (hmem cq' (by simp)) hq'
  -- the endpoint
  have hCp' : Cp = chunks p := by
    apply chunks_eq_of_runes_eq
    · intro c hc
      have hcd : c ∈ chunks d := hmem c (by simp [hc])
      refine ⟨hchunk c hcd, ?_⟩
      rcases hd with hd | hd
      · exact (ValidString_iff d).mp hd c hcd
      · intro hv
        apply hd
        unfold runes
        rw [← hCp, ← hv.1]
        exact List.mem_map_of_mem _ hc
    · intro c hc
      exact ⟨isChunk_of_mem_chunks p.length p (Nat.le_refl _) c hc, (ValidString_iff p).mp hp c hc⟩
    · exact hCp
  have hbytes := bytesOf_chunks d.length d (Nat.le_refl _)
  rw [hC, huE, hE', hws, hcq, hcq', hCp'] at hbytes
  simp only [bytesOf_append, bytesOf_cons, bytesOf_asciiChunks,
    bytesOf_chunks p.length p (Nat.le_refl _)] at hbytes
  refine ⟨bytesOf C1, ws, bytesOf C2, hws', ?_⟩
  rw [← hbytes]
  have a2 : ascii "\"" = [byte '"'] := rfl
  rw [a2]
  simp

/-! ## Lemmas on `updateKrakendConfig` -/

theorem targetHost_ne_nil (svc : Str) : targetHost svc ≠ [] := by
  intro h
  have := congrArg List.length h
  simp [targetHost, ascii] at this

theorem targetHost_ne_newHost (svc pr : Str) : targetHost svc ≠ newHost svc pr := by
  intro h
  unfold targetHost newHost at h
  simp only [List.append_assoc, List.append_cancel_left_eq] at h
  have t : (some (byte '"') : Option Byte) = some (byte '-') := congrArg List.head? h
  revert t
  decide

theorem endpointNotFound_head (p : Str) : (endpointNotFound p).head? = some (byte 'e') := rfl

theorem hostNotFound_head (svc : Str) : (hostNotFound svc).head? = some (byte 'h') := rfl

theorem replaceNoop_head (svc : Str) : (replaceNoop svc).head? = some (byte 'f') := rfl

theorem hostNotFound_eq (svc : Str) :
    ascii "host " ++ targetHost svc ++ ascii " not found in config.json" = hostNotFound svc := by
  simp only [hostNotFound, targetHost, List.append_assoc]
  rfl

theorem krakendPatch_panic (tooLarge : Str → Bool) (d pr svc p : Str)
    (hc : Compile tooLarge (endpointPattern p) = none) :
    krakendPatch tooLarge d pr svc p =
      .panic (ascii "regexp: Compile(" ++ endpointPattern p ++ ascii ")") := by
  unfold krakendPatch
  rw [hc]

theorem krakendPatch_no_match (tooLarge : Str → Bool) (d pr svc p : Str) (re : Regexp)
    (hc : Compile tooLarge (endpointPattern p) = some re) (hm : MatchString re d = false) :
    krakendPatch tooLarge d pr svc p = .err (endpointNotFound p) := by
  unfold krakendPatch
  rw [hc]
  simp [hm, endpointNotFound]

theorem krakendPatch_no_host (tooLarge : Str → Bool) (d pr svc p : Str) (re : Regexp)
    (hc : Compile tooLarge (endpointPattern p) = some re) (hm : MatchString re d = true)
    (hH : ¬ targetHost svc <:+: d) :
    krakendPatch tooLarge d pr svc p = .err (hostNotFound svc) := by
  have hn : Contains d (targetHost svc) = false := (Contains_eq_false_iff _ _).mpr hH
  unfold krakendPatch
  rw [hc]
  simp only [hm, hn, Bool.not_true, Bool.false_eq_true, if_false, hostNotFound_eq]

theorem krakendPatch_found (tooLarge : Str → Bool) (d pr svc p : Str) (re : Regexp) (i : Nat)
    (hc : Compile tooLarge (endpointPattern p) = some re) (hm : MatchString re d = true)
    (hi : Index d (targetHost svc) = some i) :
    krakendPatch tooLarge d pr svc p =
      .ok (d.take i ++ newHost svc pr ++ d.drop (i + (targetHost svc).length)) := by
  have hn : Contains d (targetHost svc) = true := by unfold Contains; rw [hi]; rfl
  have hr := Replace_one d (targetHost svc) (newHost svc pr) i (targetHost_ne_nil svc)
    (targetHost_ne_newHost svc pr) hi
  have hd := (Index_found (targetHost svc) d i hi).1
  have hne : d.take i ++ newHost svc pr ++ d.drop (i + (targetHost svc).length) ≠ d := by
    intro h
    have h' : d.take i ++ newHost svc pr ++ d.drop (i + (targetHost svc).length) =
        d.take i ++ targetHost svc ++ d.drop (i + (targetHost svc).length) := h.trans hd
    simp only [List.append_assoc, List.append_cancel_left_eq, List.append_cancel_right_eq] at h'
    exact targetHost_ne_newHost svc pr h'.symm
  unfold krakendPatch
  rw [hc]
  simp only [hm, hn, hr, Bool.not_true, Bool.false_eq_true, if_false, if_true]
  rw [if_pos hne]

theorem Index_of_host (d svc : Str) (hH : targetHost svc <:+: d) :
    ∃ i, Index d (targetHost svc) = some i := by
  obtain ⟨pre0, post0, h0⟩ := hH
  obtain ⟨i, hi⟩ := Index_of_occurrence (targetHost svc) pre0 post0
  exact ⟨i, by rw [← h0]; exact hi⟩

/-- The outcomes of the host patch, case by case. -/
theorem krakendPatch_cases (tooLarge : Str → Bool) (d pr svc p : Str) :
    (Compile tooLarge (endpointPattern p) = none ∧ ∃ m, krakendPatch tooLarge d pr svc p = .panic m) ∨
    (∃ re, Compile tooLarge (endpointPattern p) = some re ∧ MatchString re d = false ∧
      krakendPatch tooLarge d pr svc p = .err (endpointNotFound p)) ∨
    (∃ re, Compile tooLarge (endpointPattern p) = some re ∧ MatchString re d = true ∧
      ¬ targetHost svc <:+: d ∧ krakendPatch tooLarge d pr svc p = .err (hostNotFound svc)) ∨
    (∃ re i, Compile tooLarge (endpointPattern p) = some re ∧ MatchString re d = true ∧
      Index d (targetHost svc) = some i ∧
      krakendPatch tooLarge d pr svc p =
        .ok (d.take i ++ newHost svc pr ++ d.drop (i + (targetHost svc).length))) := by
  cases hc : Compile tooLarge (endpointPattern p) with
  | none => left; exact ⟨rfl, _, krakendPatch_panic tooLarge d pr svc p hc⟩
  | some re =>
    right
    cases hm : MatchString re d
    · left; exact ⟨re, rfl, hm, krakendPatch_no_match tooLarge d pr svc p re hc hm⟩
    · right
      by_cases hH : targetHost svc <:+: d
      · right
        obtain ⟨i, hi⟩ := Index_of_host d svc hH
        exact ⟨re, i, rfl, hm, hi, krakendPatch_found tooLarge d pr svc p re i hc hm hi⟩
      · left; exact ⟨re, rfl, hm, hH, krakendPatch_no_host tooLarge d pr svc p re hc hm hH⟩

theorem not_decl_of_not_contains (d p : Str)
    (h : Contains d (ascii "\"" ++ p ++ ascii "\"") = false) : ¬ HasEndpointDecl d p := by
  rintro ⟨pre, ws, post, _, hd⟩
  rw [Contains_eq_false_iff] at h
  apply h
  refine ⟨pre ++ ascii "\"endpoint\":" ++ ws, post, ?_⟩
  rw [hd]
  simp

/-! ## Properties of `updateKrakendConfig` -/

/-- C1 as stated fails: the document `invalidPathConfig` contains the endpoint declaration
for the path `/app/` followed by the byte `FF`, and the quoted literal `"http://svc"`, yet
the patch does not succeed: the pattern built from the path is not valid UTF-8 and
`regexp.MustCompile` panics. -/
theorem krakendPatch_replaces_first_host_counterexample :
    HasEndpointDecl invalidPathConfig invalidPath ∧
    (ascii "\"http://" ++ ascii "svc" ++ ascii "\"") <:+: invalidPathConfig ∧
    krakendPatch noLimit invalidPathConfig (ascii "42") (ascii "svc") invalidPath =
      .panic (ascii "regexp: Compile(" ++ endpointPattern invalidPath ++ ascii ")") :=
  ⟨⟨ascii "\x7b", ascii " ", ascii ", \"host\": [\"http://svc\"]\x7d", by decide, by decide⟩,
    (Contains_iff_occurs _ _).mp (by decide), by decide⟩

/-- C1, amended: if the endpoint path `p` is valid UTF-8 and its pattern is within the size
limits of the regexp parser, and the document contains the endpoint declaration for `p` and
the quoted literal `"http://svc"`, the host patch succeeds and its output is the document
with the leftmost occurrence of `"http://svc"` replaced by `"http://svc-pr"`, the text
before and after that occurrence unchanged; this output is what the function writes to
`config.json`. -/
theorem krakendPatch_replaces_first_host (tooLarge : Str → Bool) (d svc pr p : Str)
    (hp : ValidString p = true) (hl : tooLarge (endpointPattern p) = false)
    (hE : HasEndpointDecl d p)
    (hH : (ascii "\"http://" ++ svc ++ ascii "\"") <:+: d) :
    ∃ pre post : Str,
      d = pre ++ (ascii "\"http://" ++ svc ++ ascii "\"") ++ post ∧
      (∀ pre' post' : Str, d = pre' ++ (ascii "\"http://" ++ svc ++ ascii "\"") ++ post' →
        pre.length ≤ pre'.length) ∧
      krakendPatch tooLarge d pr svc p =
        .ok (pre ++ (ascii "\"http://" ++ svc ++ ascii "-" ++ pr ++ ascii "\"") ++ post) ∧
      updateKrakendConfig tooLarge ⟨.ok d, none⟩ pr svc p =
        (.ok (), ⟨.ok (pre ++ (ascii "\"http://" ++ svc ++ ascii "-" ++ pr ++ ascii "\"")
          ++ post), none⟩) := by
  obtain ⟨i, hi⟩ := Index_of_host d svc hH
  obtain ⟨hd, hleft⟩ := Index_found (targetHost svc) d i hi
  have hlen : (d.take i).length = i := by
    have := congrArg List.length hd
    simp only [List.length_append, List.length_take, List.length_drop] at this
    have hpos : 0 < (targetHost svc).length := List.length_pos.mpr (targetHost_ne_nil svc)
    rw [List.length_take]
    omega
  have hk := krakendPatch_found tooLarge d pr svc p _ i
    (Compile_endpointPattern tooLarge p hp hl) (MatchString_of_decl d p hE) hi
  refine ⟨d.take i, d.drop (i + (targetHost svc).length), hd, ?_, hk, ?_⟩
  · intro pre' post' h
    rw [hlen]
    exact hleft pre' post' h
  · unfold updateKrakendConfig
    simp only [hk]
    rfl

/-- C1, amended, on the end-to-end scenario: PR 654, service `home-depot`, endpoint
`/app/v1/fair-lock`; the output contains `"http://home-depot-654"`. -/
theorem krakendPatch_replaces_first_host_witness :
    ValidString (ascii "/app/v1/fair-lock") = true ∧
    noLimit (endpointPattern (ascii "/app/v1/fair-lock")) = false ∧
    HasEndpointDecl scenarioConfig (ascii "/app/v1/fair-lock") ∧
    (ascii "\"http://" ++ ascii "home-depot" ++ ascii "\"") <:+: scenarioConfig ∧
    (∃ pre post : Str,
      scenarioConfig = pre ++ (ascii "\"http://" ++ ascii "home-depot" ++ ascii "\"") ++ post ∧
      (∀ pre' post' : Str,
        scenarioConfig = pre' ++ (ascii "\"http://" ++ ascii "home-depot" ++ ascii "\"") ++ post' →
        pre.length ≤ pre'.length) ∧
      krakendPatch noLimit scenarioConfig (ascii "654") (ascii "home-depot")
          (ascii "/app/v1/fair-lock") =
        .ok (pre ++ (ascii "\"http://" ++ ascii "home-depot" ++ ascii "-" ++ ascii "654" ++
          ascii "\"") ++ post) ∧
      updateKrakendConfig noLimit ⟨.ok scenarioConfig, none⟩ (ascii "654") (ascii "home-depot")
          (ascii "/app/v1/fair-lock") =
        (.ok (), ⟨.ok (pre ++ (ascii "\"http://" ++ ascii "home-depot" ++ ascii "-" ++
          ascii "654" ++ ascii "\"") ++ post), none⟩)) ∧
    krakendPatch noLimit scenarioConfig (ascii "654") (ascii "home-depot")
        (ascii "/app/v1/fair-lock") = .ok scenarioPatched ∧
    (ascii "\"http://home-depot-654\"") <:+: scenarioPatched :=
  have hE : HasEndpointDecl scenarioConfig (ascii "/app/v1/fair-lock") :=
    ⟨ascii "\x7b\"endpoints\":[\x7b", [],
      ascii ",\"backend\":[\x7b\"host\":[\"http://home-depot\"]\x7d]\x7d]\x7d", by decide, by decide⟩
  have hH : (ascii "\"http://" ++ ascii "home-depot" ++ ascii "\"") <:+: scenarioConfig :=
    (Contains_iff_occurs _ _).mp (by decide)
  ⟨by decide, rfl, hE, hH,
    krakendPatch_replaces_first_host noLimit scenarioConfig (ascii "home-depot") (ascii "654")
      (ascii "/app/v1/fair-lock") (by decide) rfl hE hH,
    by decide, (Contains_iff_occurs _ _).mp (by decide)⟩

/-- C2 as stated fails, in two ways.  For the endpoint path `/app/` followed by the byte
`FF`, the document `otherHostConfig` has no endpoint declaration, yet the patch does not
fail with the endpoint-not-found error: `regexp.MustCompile` panics on the pattern, which
is not valid UTF-8.  For the endpoint path `/app/` followed by U+FFFD, the document
`invalidPathConfig` does not contain the path at all, yet the patch finds an endpoint
declaration and succeeds: the matcher reads the invalid byte `FF` of the document as
U+FFFD, so the path is not matched as literal text. -/
theorem krakendPatch_endpoint_guard_counterexample :
    (¬ HasEndpointDecl otherHostConfig invalidPath ∧
      krakendPatch noLimit otherHostConfig (ascii "654") (ascii "home-depot") invalidPath =
        .panic (ascii "regexp: Compile(" ++ endpointPattern invalidPath ++ ascii ")")) ∧
    (¬ HasEndpointDecl invalidPathConfig replacementPath ∧
      Contains invalidPathConfig replacementPath = false ∧
      krakendPatch noLimit invalidPathConfig (ascii "42") (ascii "svc") replacementPath =
        .ok invalidPathPatched) :=
  ⟨⟨not_decl_of_not_contains _ _ (by decide), by decide⟩,
    ⟨not_decl_of_not_contains _ _ (by decide), by decide, by decide⟩⟩

/-- C2, amended: when the endpoint path `p` is valid UTF-8, its pattern is within the size
limits of the regexp parser, and the document is valid UTF-8 or `p` holds no U+FFFD, the
host patch fails with the endpoint-not-found error exactly when the document has no
endpoint declaration for `p` (`p` taken literally), whether or not the host literal is
present; on that failure the function returns the error and leaves `config.json` as it
was. -/
theorem krakendPatch_endpoint_guard (tooLarge : Str → Bool) (d svc pr p : Str)
    (hp : ValidString p = true) (hl : tooLarge (endpointPattern p) = false)
    (hd : ValidString d = true ∨ RuneError ∉ runes p) :
    (krakendPatch tooLarge d pr svc p = .err (endpointNotFound p) ↔ ¬ HasEndpointDecl d p) ∧
    (¬ HasEndpointDecl d p → ∀ config : File, config.read = .ok d →
      updateKrakendConfig tooLarge config pr svc p = (.err (endpointNotFound p), config)) := by
  have hc := Compile_endpointPattern tooLarge p hp hl
  have hno : ¬ HasEndpointDecl d p →
      krakendPatch tooLarge d pr svc p = .err (endpointNotFound p) := by
    intro hE
    apply krakendPatch_no_match tooLarge d pr svc p _ hc
    cases hm : MatchString (endpointRegexp p) d
    · rfl
    · exact absurd (decl_of_MatchString d p hp hd hm) hE
  refine ⟨⟨?_, hno⟩, ?_⟩
  · intro h hE
    have hm := MatchString_of_decl d p hE
    by_cases hH : targetHost svc <:+: d
    · obtain ⟨i, hi⟩ := Index_of_host d svc hH
      rw [krakendPatch_found tooLarge d pr svc p _ i hc hm hi] at h
      cases h
    · rw [krakendPatch_no_host tooLarge d pr svc p _ hc hm hH] at h
      injection h with h
      have := congrArg List.head? h
      rw [hostNotFound_head, endpointNotFound_head] at this
      revert this
      decide
  · intro hE config hr
    unfold updateKrakendConfig
    rw [hr]
    simp only [hno hE]

/-- C2, amended, on a document that declares `/app/v1/fairxlock` and does contain the host
literal: the patch for `/app/v1/fair.lock` fails with the endpoint-not-found error, the dot
of the endpoint path being matched literally, and the file is left as it was. -/
theorem krakendPatch_endpoint_guard_witness :
    ValidString (ascii "/app/v1/fair.lock") = true ∧
    noLimit (endpointPattern (ascii "/app/v1/fair.lock")) = false ∧
    ValidString otherEndpointConfig = true ∧
    (ascii "\"http://" ++ ascii "home-depot" ++ ascii "\"") <:+: otherEndpointConfig ∧
    krakendPatch noLimit otherEndpointConfig (ascii "654") (ascii "home-depot")
        (ascii "/app/v1/fair.lock") =
      .err (ascii "endpoint /app/v1/fair.lock not found in config.json") ∧
    updateKrakendConfig noLimit ⟨.ok otherEndpointConfig, none⟩ (ascii "654")
        (ascii "home-depot") (ascii "/app/v1/fair.lock") =
      (.err (ascii "endpoint /app/v1/fair.lock not found in config.json"),
        ⟨.ok otherEndpointConfig, none⟩) :=
  have hE : ¬ HasEndpointDecl otherEndpointConfig (ascii "/app/v1/fair.lock") :=
    not_decl_of_not_contains _ _ (by decide)
  ⟨by decide, rfl, by decide, (Contains_iff_occurs _ _).mp (by decide),
    (krakendPatch_endpoint_guard noLimit otherEndpointConfig (ascii "home-depot") (ascii "654")
      (ascii "/app/v1/fair.lock") (by decide) rfl (Or.inl (by decide))).1.mpr hE,
    (krakendPatch_endpoint_guard noLimit otherEndpointConfig (ascii "home-depot") (ascii "654")
      (ascii "/app/v1/fair.lock") (by decide) rfl (Or.inl (by decide))).2 hE
        ⟨.ok otherEndpointConfig, none⟩ rfl⟩

/-- C3 as stated fails: both documents contain the endpoint declaration for the path
`/app/` followed by the byte `FF`.  The first lacks the quoted literal `"http://svc"`, yet
the failure is not the host-not-found error; the second contains the literal, yet the patch
does not succeed.  In both `regexp.MustCompile` panics on the pattern, which is not valid
UTF-8. -/
theorem krakendPatch_host_guard_counterexample :
    (HasEndpointDecl invalidPathOtherHost invalidPath ∧
      ¬ (ascii "\"http://" ++ ascii "svc" ++ ascii "\"") <:+: invalidPathOtherHost ∧
      krakendPatch noLimit invalidPathOtherHost (ascii "42") (ascii "svc") invalidPath =
        .panic (ascii "regexp: Compile(" ++ endpointPattern invalidPath ++ ascii ")")) ∧
    (HasEndpointDecl invalidPathConfig invalidPath ∧
      (ascii "\"http://" ++ ascii "svc" ++ ascii "\"") <:+: invalidPathConfig ∧
      krakendPatch noLimit invalidPathConfig (ascii "42") (ascii "svc") invalidPath =
        .panic (ascii "regexp: Compile(" ++ endpointPattern invalidPath ++ ascii ")")) :=
  ⟨⟨⟨ascii "\x7b", ascii " ", ascii ", \"host\": [\"http://garden\"]\x7d", by decide, by decide⟩,
      (Contains_eq_false_iff _ _).mp (by decide), by decide⟩,
    ⟨⟨ascii "\x7b", ascii " ", ascii ", \"host\": [\"http://svc\"]\x7d", by decide, by decide⟩,
      (Contains_iff_occurs _ _).mp (by decide), by decide⟩⟩

/-- C3, amended: when the endpoint path is valid UTF-8, its pattern is within the size
limits of the regexp parser, and the endpoint declaration exists, the host patch succeeds
exactly when the quoted literal `"http://svc"` occurs in the document, and otherwise fails
with the host-not-found error; the replace-was-a-no-op error is produced for no input
whatever. -/
theorem krakendPatch_host_guard (tooLarge : Str → Bool) (d svc pr p : Str) :
    (ValidString p = true → tooLarge (endpointPattern p) = false → HasEndpointDecl d p →
      ((∃ c, krakendPatch tooLarge d pr svc p = .ok c) ↔
        (ascii "\"http://" ++ svc ++ ascii "\"") <:+: d) ∧
      (¬ (ascii "\"http://" ++ svc ++ ascii "\"") <:+: d →
        krakendPatch tooLarge d pr svc p = .err (hostNotFound svc))) ∧
    krakendPatch tooLarge d pr svc p ≠ .err (replaceNoop svc) := by
  refine ⟨fun hp hl hE => ⟨⟨?_, ?_⟩, ?_⟩, ?_⟩
  · rintro ⟨c, hc⟩
    by_contra hH
    rw [krakendPatch_no_host tooLarge d pr svc p _ (Compile_endpointPattern tooLarge p hp hl)
      (MatchString_of_decl d p hE) hH] at hc
    cases hc
  · intro hH
    obtain ⟨i, hi⟩ := Index_of_host d svc hH
    exact ⟨_, krakendPatch_found tooLarge d pr svc p _ i
      (Compile_endpointPattern tooLarge p hp hl) (MatchString_of_decl d p hE) hi⟩
  · intro hH
    exact krakendPatch_no_host tooLarge d pr svc p _ (Compile_endpointPattern tooLarge p hp hl)
      (MatchString_of_decl d p hE) hH
  · intro h
    rcases krakendPatch_cases tooLarge d pr svc p with ⟨_, m, h1⟩ | ⟨_, _, _, h1⟩ |
        ⟨_, _, _, _, h1⟩ | ⟨_, _, _, _, _, h1⟩
    · rw [h1] at h
      cases h
    · rw [h1] at h
      injection h with h
      have := congrArg List.head? h
      rw [replaceNoop_head, endpointNotFound_head] at this
      revert this
      decide
    · rw [h1] at h
      injection h with h
      have := congrArg List.head? h
      rw [replaceNoop_head, hostNotFound_head] at this
      revert this
      decide
    · rw [h1] at h
      cases h

/-- C3, amended, on a document that declares the endpoint but lacks the host literal: the
patch fails with the host-not-found error. -/
theorem krakendPatch_host_guard_witness :
    ValidString (ascii "/app/v1/fair-lock") = true ∧
    noLimit (endpointPattern (ascii "/app/v1/fair-lock")) = false ∧
    HasEndpointDecl otherHostConfig (ascii "/app/v1/fair-lock") ∧
    krakendPatch noLimit otherHostConfig (ascii "654") (ascii "home-depot")
        (ascii "/app/v1/fair-lock") =
      .err (ascii "host \"http://home-depot\" not found in config.json") :=
  have hE : HasEndpointDecl otherHostConfig (ascii "/app/v1/fair-lock") :=
    ⟨ascii "\x7b", ascii " ", ascii ", \"host\": [\"http://garden\"]\x7d", by decide, by decide⟩
  ⟨by decide, rfl, hE,
    ((krakendPatch_host_guard noLimit otherHostConfig (ascii "home-depot") (ascii "654")
      (ascii "/app/v1/fair-lock")).1 (by decide) rfl hE).2
        (fun h => absurd ((Contains_iff_occurs _ _).mpr h) (by decide))⟩

/-! ## Lemmas on `Split` and `Join` -/

theorem Split_nil (c : Byte) : Split [] c = [[]] := by
  rw [Split]

theorem Split_exists_cons (c : Byte) : ∀ s : Str, ∃ h r, Split s c = h :: r := by
  intro s
  induction s with
  | nil => exact ⟨[], [], Split_nil c⟩
  | cons x t ih =>
    obtain ⟨h, r, e⟩ := ih
    rw [Split]
    by_cases hx : x = c
    · exact ⟨[], Split t c, by rw [if_pos hx]⟩
    · exact ⟨x :: h, r, by rw [if_neg hx, e]⟩

theorem Split_ne_nil (c : Byte) (s : Str) : Split s c ≠ [] := by
  obtain ⟨h, r, e⟩ := Split_exists_cons c s
  rw [e]
  exact List.cons_ne_nil _ _

theorem Split_cons_sep (c : Byte) (t : Str) : Split (c :: t) c = [] :: Split t c := by
  rw [Split, if_pos rfl]

theorem Split_cons_other (c x : Byte) (t h : Str) (r : List Str) (hx : x ≠ c)
    (e : Split t c = h :: r) : Split (x :: t) c = (x :: h) :: r := by
  rw [Split, if_neg hx, e]

theorem Split_append_sep (c : Byte) (b : Str) : ∀ a : Str,
    Split (a ++ c :: b) c = Split a c ++ Split b c := by
  intro a
  induction a with
  | nil => rw [Split_nil]; exact Split_cons_sep c b
  | cons x a ih =>
    by_cases hx : x = c
    · subst hx
      rw [List.cons_append, Split_cons_sep, Split_cons_sep, ih]
      rfl
    · obtain ⟨h, r, e⟩ := Split_exists_cons c a
      rw [List.cons_append, Split_cons_other c x _ h (r ++ Split b c) hx (by rw [ih, e]; rfl),
        Split_cons_other c x _ h r hx e]
      rfl

theorem Split_of_not_mem (c : Byte) : ∀ w : Str, c ∉ w → Split w c = [w] := by
  intro w
  induction w with
  | nil => intro _; exact Split_nil c
  | cons x w ih =>
    intro h
    have hx : x ≠ c := fun e => h (by rw [e]; exact List.mem_cons_self _ _)
    have hw : c ∉ w := fun e => h (List.mem_cons_of_mem _ e)
    exact Split_cons_other c x w w [] hx (ih hw)

theorem Join_cons (a : Str) (l : List Str) (sep : Str) (hl : l ≠ []) :
    Join (a :: l) sep = a ++ sep ++ Join l sep := by
  cases l with
  | nil => exact absurd rfl hl
  | cons b rest => rw [Join]

theorem Join_single (a sep : Str) : Join [a] sep = a := by
  rw [Join]

theorem Join_append (sep : Str) (l2 : List Str) (h2 : l2 ≠ []) : ∀ l1 : List Str, l1 ≠ [] →
    Join (l1 ++ l2) sep = Join l1 sep ++ sep ++ Join l2 sep := by
  intro l1
  induction l1 with
  | nil => intro h; exact absurd rfl h
  | cons a l1 ih =>
    intro _
    cases l1 with
    | nil =>
      rw [Join_single]
      exact Join_cons a l2 sep h2
    | cons b rest =>
      rw [List.cons_append, Join_cons a _ sep (by simp), ih (by simp),
        Join_cons a _ sep (by simp)]
      simp

theorem Join_Split (c : Byte) : ∀ s : Str, Join (Split s c) [c] = s := by
  intro s
  induction s with
  | nil => rw [Split_nil, Join_single]
  | cons x t ih =>
    by_cases hx : x = c
    · subst hx
      rw [Split_cons_sep, Join_cons _ _ _ (Split_ne_nil _ _), ih]
      rfl
    · obtain ⟨h, r, e⟩ := Split_exists_cons c t
      rw [Split_cons_other c x t h r hx e]
      rw [e] at ih
      cases r with
      | nil =>
        rw [Join_single] at ih
        rw [Join_single, ih]
      | cons b rest =>
        rw [Join_cons _ _ _ (by simp)] at ih
        rw [Join_cons _ _ _ (by simp), ← ih]
        simp

theorem Split_Join (c : Byte) : ∀ l : List Str, l ≠ [] → (∀ seg ∈ l, c ∉ seg) →
    Split (Join l [c]) c = l := by
  intro l
  induction l with
  | nil => intro h; exact absurd rfl h
  | cons a l ih =>
    intro _ hall
    cases l with
    | nil =>
      rw [Join_single]
      exact Split_of_not_mem c a (hall a (List.mem_cons_self _ _))
    | cons b rest =>
      rw [Join_cons _ _ _ (by simp)]
      have e : a ++ [c] ++ Join (b :: rest) [c] = a ++ c :: Join (b :: rest) [c] := by simp
      rw [e, Split_append_sep, Split_of_not_mem c a (hall a (List.mem_cons_self _ _)),
        ih (by simp) (fun seg hs => hall seg (List.mem_cons_of_mem _ hs))]
      rfl

theorem not_mem_of_mem_Split (c : Byte) : ∀ (s seg : Str), seg ∈ Split s c → c ∉ seg := by
  intro s
  induction s with
  | nil =>
    intro seg h
    rw [Split_nil] at h
    simp only [List.mem_singleton] at h
    rw [h]
    exact List.not_mem_nil _
  | cons x t ih =>
    intro seg h
    by_cases hx : x = c
    · subst hx
      rw [Split_cons_sep] at h
      rcases List.mem_cons.mp h with rfl | h
      · exact List.not_mem_nil _
      · exact ih seg h
    · obtain ⟨hd, r, e⟩ := Split_exists_cons c t
      rw [Split_cons_other c x t hd r hx e] at h
      rcases List.mem_cons.mp h with rfl | h
      · intro hm
        rcases List.mem_cons.mp hm with rfl | hm
        · exact hx rfl
        · exact ih hd (by rw [e]; exact List.mem_cons_self _ _) hm
      · exact ih seg (by rw [e]; exact List.mem_cons_of_mem _ h)

/-! ## Occurrences of quoted texts, seen on the segments between double quotes -/

theorem mem_occurrences (t post : Str) (pre : Str) :
    pre.length ∈ occurrences (pre ++ t ++ post) t := by
  unfold occurrences
  rw [List.mem_filter, List.mem_range]
  constructor
  · simp only [List.length_append]; omega
  · rw [List.append_assoc, List.drop_left]
    exact isPrefixOf_append_self t post

theorem occursAtMostOnce_of_occurrences (t s : Str) (h : (occurrences s t).length ≤ 1) :
    OccursAtMostOnce t s := by
  intro pre₁ post₁ pre₂ post₂ h₁ h₂
  have m₁ : pre₁.length ∈ occurrences s t := h₁ ▸ mem_occurrences t post₁ pre₁
  have m₂ : pre₂.length ∈ occurrences s t := h₂ ▸ mem_occurrences t post₂ pre₂
  have hlen : pre₁.length = pre₂.length := by
    cases ho : occurrences s t with
    | nil => rw [ho] at m₁; cases m₁
    | cons a l =>
      rw [ho] at h m₁ m₂
      cases l with
      | nil =>
        rw [List.mem_singleton] at m₁ m₂
        rw [m₁, m₂]
      | cons b l => simp at h
  have e : pre₁ ++ (t ++ post₁) = pre₂ ++ (t ++ post₂) := by
    rw [← List.append_assoc, ← List.append_assoc, ← h₁, ← h₂]
  exact (List.append_inj e hlen).1

theorem Split_quoted (q : Byte) (X Y : Str) (T : List Str) (hT : T ≠ [])
    (hall : ∀ seg ∈ T, q ∉ seg) :
    Split (X ++ q :: (Join T [q] ++ q :: Y)) q = Split X q ++ T ++ Split Y q := by
  rw [Split_append_sep, Split_append_sep, Split_Join q T hT hall, List.append_assoc]

theorem Join_quoted (q : Byte) (s : Str) (l₁ l₂ T : List Str) (h₁ : l₁ ≠ []) (h₂ : l₂ ≠ [])
    (hT : T ≠ []) (h : Split s q = l₁ ++ T ++ l₂) :
    s = Join l₁ [q] ++ q :: (Join T [q] ++ q :: Join l₂ [q]) := by
  have e := Join_Split q s
  rw [h, List.append_assoc, Join_append [q] (T ++ l₂) (by simp [hT]) l₁ h₁,
    Join_append [q] l₂ h₂ T hT] at e
  rw [← e]
  simp

theorem segments_replace_keep (w w' : Str) (T : List Str) (hw : w ∉ T) (P Q l₁ l₂ : List Str)
    (h₁ : l₁ ≠ []) (h₂ : l₂ ≠ []) (h : P ++ w :: Q = l₁ ++ T ++ l₂) :
    ∃ l₁' l₂' : List Str, l₁' ≠ [] ∧ l₂' ≠ [] ∧ P ++ w' :: Q = l₁' ++ T ++ l₂' := by
  rw [List.append_assoc, List.append_eq_append_iff] at h
  rcases h with ⟨a', e₁, e₂⟩ | ⟨c', e₁, e₂⟩
  · -- `l₁ = P ++ a'`
    rcases List.cons_eq_append_iff.mp e₂ with ⟨ha, e₃⟩ | ⟨a'', ha, e₃⟩
    · subst ha
      cases T with
      | nil =>
        refine ⟨l₁, w' :: Q, h₁, by simp, ?_⟩
        simp only [List.append_nil] at e₁
        rw [e₁]; simp
      | cons t T' =>
        exfalso
        simp only [List.cons_append, List.cons.injEq] at e₃
        exact hw (by rw [← e₃.1]; exact List.mem_cons_self _ _)
    · refine ⟨P ++ w' :: a'', l₂, by simp, h₂, ?_⟩
      rw [e₃]; simp
  · -- `P = l₁ ++ c'`
    rw [List.append_eq_append_iff] at e₂
    rcases e₂ with ⟨a', e₃, e₄⟩ | ⟨c'', e₃, e₄⟩
    · refine ⟨l₁, a' ++ w' :: Q, h₁, by simp, ?_⟩
      rw [e₁, e₃]; simp
    · rcases List.cons_eq_append_iff.mp e₄ with ⟨hc, e₅⟩ | ⟨c₃, hc, _⟩
      · subst hc
        refine ⟨l₁, w' :: Q, h₁, by simp, ?_⟩
        rw [e₁, e₃]; simp
      · exfalso
        apply hw
        rw [e₃, hc]
        simp

theorem segments_other_occurrence (w w' : Str) (hne : w' ≠ w) (P Q l₁ l₂ : List Str)
    (h : P ++ w' :: Q = l₁ ++ w :: l₂) :
    (∃ m, P = l₁ ++ w :: m) ∨ (∃ m, Q = m ++ w :: l₂) := by
  rw [List.append_eq_append_iff] at h
  rcases h with ⟨a', e₁, e₂⟩ | ⟨c', e₁, e₂⟩
  · right
    rcases List.cons_eq_append_iff.mp e₂ with ⟨_, e₃⟩ | ⟨a'', _, e₃⟩
    · simp only [List.cons.injEq] at e₃
      exact absurd e₃.1.symm hne
    · exact ⟨a'', e₃⟩
  · left
    rcases List.cons_eq_append_iff.mp e₂ with ⟨_, e₃⟩ | ⟨c'', hc, _⟩
    · simp only [List.cons.injEq] at e₃
      exact absurd e₃.1 hne
    · exact ⟨c'', by rw [e₁, hc]⟩

/-! ## Re-application of the host patch -/

theorem targetHost_quoted (svc : Str) :
    targetHost svc = (byte '"') :: (Join [(ascii "http://") ++ svc] [(byte '"')] ++ [(byte '"')]) := by
  rw [Join_single]
  simp [targetHost]
  rfl

theorem newHost_quoted (svc pr : Str) :
    newHost svc pr = (byte '"') :: (Join [(ascii "http://") ++ svc ++ (byte '-') :: pr] [(byte '"')] ++ [(byte '"')]) := by
  rw [Join_single]
  simp [newHost]
  rfl

theorem endpointDecl_quoted (ws p : Str) :
    (ascii "\"endpoint\":") ++ ws ++ (ascii "\"") ++ p ++ (ascii "\"") =
      (byte '"') :: (Join [(ascii "endpoint"), (byte ':') :: ws, p] [(byte '"')] ++ [(byte '"')]) := by
  have e : (ascii "\"endpoint\":") = (byte '"') :: ((ascii "endpoint") ++ [(byte '"'), (byte ':')]) := rfl
  have e' : (ascii "\"") = [(byte '"')] := rfl
  rw [e, e']
  simp [Join]

theorem quote_not_mem_http (svc : Str) (h : (byte '"') ∉ svc) : (byte '"') ∉ (ascii "http://") ++ svc := by
  intro hm
  rcases List.mem_append.mp hm with hm | hm
  · revert hm; decide
  · exact h hm

theorem quote_not_mem_patched (svc pr : Str) (h : (byte '"') ∉ svc) (h' : (byte '"') ∉ pr) :
    (byte '"') ∉ (ascii "http://") ++ svc ++ (byte '-') :: pr := by
  intro hm
  rcases List.mem_append.mp hm with hm | hm
  · exact quote_not_mem_http svc h hm
  · rcases List.mem_cons.mp hm with hm | hm
    · revert hm; decide
    · exact h' hm

theorem quote_not_perlSpace (ws : Str) (h : ∀ c ∈ ws, isPerlSpace c.val = true) : (byte '"') ∉ ws := by
  intro hm
  have := h _ hm
  revert this
  decide

theorem reapply_endpoint_kept (d d' svc pr p pre post : Str)
    (hsvc : (byte '"') ∉ svc) (hpr : (byte '"') ∉ pr) (hp : (byte '"') ∉ p) (hpne : p ≠ (ascii "http://") ++ svc)
    (hd : d = pre ++ targetHost svc ++ post) (hd' : d' = pre ++ newHost svc pr ++ post)
    (hE : HasEndpointDecl d p) : HasEndpointDecl d' p := by
  obtain ⟨X, ws, Y, hws, hX⟩ := hE
  have hw := quote_not_mem_http svc hsvc
  -- the segments of `d`, seen from both decompositions
  have s₁ : Split d (byte '"') = Split pre (byte '"') ++ [(ascii "http://") ++ svc] ++ Split post (byte '"') := by
    rw [hd, targetHost_quoted, List.append_assoc, List.cons_append, List.append_assoc,
      List.singleton_append]
    exact Split_quoted (byte '"') pre post _ (by simp) (by simpa using hw)
  have hT : ∀ seg ∈ [(ascii "endpoint"), (byte ':') :: ws, p], (byte '"') ∉ seg := by
    intro seg hs
    simp only [List.mem_cons, List.mem_singleton, List.not_mem_nil, or_false] at hs
    rcases hs with rfl | rfl | rfl
    · decide
    · intro hm
      rcases List.mem_cons.mp hm with hm | hm
      · revert hm; decide
      · exact quote_not_perlSpace ws hws hm
    · exact hp
  have s₂ : Split d (byte '"') =
      Split X (byte '"') ++ [(ascii "endpoint"), (byte ':') :: ws, p] ++ Split Y (byte '"') := by
    rw [hX, endpointDecl_quoted, List.append_assoc, List.cons_append, List.append_assoc,
      List.singleton_append]
    exact Split_quoted (byte '"') X Y _ (by simp) hT
  have hnot : ((ascii "http://") ++ svc) ∉ [(ascii "endpoint"), (byte ':') :: ws, p] := by
    intro hm
    simp only [List.mem_cons, List.mem_singleton, List.not_mem_nil, or_false] at hm
    rcases hm with h | h | h
    · have t : (some (byte 'h') : Option Byte) = some (byte 'e') := congrArg List.head? h
      revert t; decide
    · have t : (some (byte 'h') : Option Byte) = some (byte ':') := congrArg List.head? h
      revert t; decide
    · exact hpne h.symm
  have hseg : Split pre (byte '"') ++ ((ascii "http://") ++ svc) :: Split post (byte '"') =
      Split X (byte '"') ++ [(ascii "endpoint"), (byte ':') :: ws, p] ++ Split Y (byte '"') := by
    rw [← s₂, s₁]; simp
  obtain ⟨l₁, l₂, h₁, h₂, hl⟩ := segments_replace_keep ((ascii "http://") ++ svc)
    ((ascii "http://") ++ svc ++ (byte '-') :: pr) _ hnot _ _ _ _ (Split_ne_nil _ _) (Split_ne_nil _ _) hseg
  have hw' := quote_not_mem_patched svc pr hsvc hpr
  have s₃ : Split d' (byte '"') = l₁ ++ [(ascii "endpoint"), (byte ':') :: ws, p] ++ l₂ := by
    rw [← hl, hd', newHost_quoted, List.append_assoc, List.cons_append, List.append_assoc,
      List.singleton_append, Split_quoted (byte '"') pre post _ (by simp) (by simpa using hw')]
    simp
  have := Join_quoted (byte '"') d' l₁ l₂ _ h₁ h₂ (by simp) s₃
  refine ⟨Join l₁ [(byte '"')], ws, Join l₂ [(byte '"')], hws, ?_⟩
  rw [endpointDecl_quoted, this]
  simp

theorem reapply_host_gone (d d' svc pr pre post : Str)
    (hsvc : (byte '"') ∉ svc) (hpr : (byte '"') ∉ pr)
    (hd : d = pre ++ targetHost svc ++ post) (hd' : d' = pre ++ newHost svc pr ++ post)
    (huniq : OccursAtMostOnce (targetHost svc) d) : ¬ targetHost svc <:+: d' := by
  rintro ⟨X, Y, hX⟩
  have hw := quote_not_mem_http svc hsvc
  have hw' := quote_not_mem_patched svc pr hsvc hpr
  have s₁ : Split d (byte '"') = Split pre (byte '"') ++ [(ascii "http://") ++ svc] ++ Split post (byte '"') := by
    rw [hd, targetHost_quoted, List.append_assoc, List.cons_append, List.append_assoc,
      List.singleton_append]
    exact Split_quoted (byte '"') pre post _ (by simp) (by simpa using hw)
  have s₂ : Split d' (byte '"') =
      Split pre (byte '"') ++ [(ascii "http://") ++ svc ++ (byte '-') :: pr] ++ Split post (byte '"') := by
    rw [hd', newHost_quoted, List.append_assoc, List.cons_append, List.append_assoc,
      List.singleton_append]
    exact Split_quoted (byte '"') pre post _ (by simp) (by simpa using hw')
  have s₃ : Split d' (byte '"') = Split X (byte '"') ++ [(ascii "http://") ++ svc] ++ Split Y (byte '"') := by
    rw [← hX, targetHost_quoted, List.append_assoc, List.cons_append, List.append_assoc,
      List.singleton_append]
    exact Split_quoted (byte '"') X Y _ (by simp) (by simpa using hw)
  have hne : (ascii "http://") ++ svc ++ (byte '-') :: pr ≠ (ascii "http://") ++ svc := by
    intro h
    have := congrArg List.length h
    simp at this
  have hseg : Split pre (byte '"') ++ ((ascii "http://") ++ svc ++ (byte '-') :: pr) :: Split post (byte '"') =
      Split X (byte '"') ++ ((ascii "http://") ++ svc) :: Split Y (byte '"') := by
    rw [← List.singleton_append, ← List.append_assoc, ← s₂, s₃]; simp
  -- a decomposition of the segments of `d` gives an occurrence of the host literal in `d`
  have occ : ∀ l₁ l₂ : List Str, l₁ ≠ [] → l₂ ≠ [] →
      Split d (byte '"') = l₁ ++ [(ascii "http://") ++ svc] ++ l₂ →
      d = Join l₁ [(byte '"')] ++ targetHost svc ++ Join l₂ [(byte '"')] := by
    intro l₁ l₂ h₁ h₂ h
    rw [Join_quoted (byte '"') d l₁ l₂ _ h₁ h₂ (by simp) h, targetHost_quoted]
    simp
  have hpre : d = Join (Split pre (byte '"')) [(byte '"')] ++ targetHost svc ++ Join (Split post (byte '"')) [(byte '"')] := by
    rw [Join_Split, Join_Split]; exact hd
  rcases segments_other_occurrence _ _ hne _ _ _ _ hseg with ⟨m, hm⟩ | ⟨m, hm⟩
  · have h := occ (Split X (byte '"')) (m ++ ((ascii "http://") ++ svc) :: Split post (byte '"'))
      (Split_ne_nil _ _) (by simp) (by rw [s₁, hm]; simp)
    have e := huniq _ _ _ _ h hpre
    rw [hm, Join_append [(byte '"')] _ (by simp) _ (Split_ne_nil _ _)] at e
    have := congrArg List.length e
    simp at this
  · have h := occ (Split pre (byte '"') ++ ((ascii "http://") ++ svc) :: m) (Split Y (byte '"'))
      (by simp) (Split_ne_nil _ _) (by rw [s₁, hm]; simp)
    have e := huniq _ _ _ _ h hpre
    rw [Join_append [(byte '"')] _ (by simp) _ (Split_ne_nil _ _)] at e
    have := congrArg List.length e
    simp at this

/-- C4 as stated fails: five inputs on which the host patch succeeds and the text
`"http://svc` (the service name as an opening of a host literal) occurs once only, yet the
second application does not fail with the host-not-found error.  With a double quote in the
endpoint path, with the endpoint path `http://svc` itself, or with a double quote in the
service name, the patch destroys the endpoint declaration and the second application fails
with the endpoint-not-found error; with a double quote in the PR identifier the new host
contains the old one and the second application succeeds again.  In the fifth, the service
name is the invalid byte `FF` and the endpoint path is `http://` followed by U+FFFD, without
any double quote: the matcher reads the host of the document as the endpoint path, and the
second application fails with the endpoint-not-found error. -/
theorem krakendPatch_reapply_counterexample :
    (krakendPatch noLimit quotedPathConfig (ascii "42") (ascii "svc") (ascii "/app/\"http://svc") =
        .ok quotedPathPatched ∧
      occurrences quotedPathConfig (ascii "\"http://svc") = [19] ∧
      krakendPatch noLimit quotedPathPatched (ascii "42") (ascii "svc") (ascii "/app/\"http://svc") =
        .err (ascii "endpoint /app/\"http://svc not found in config.json")) ∧
    (krakendPatch noLimit hostAsPathConfig (ascii "42") (ascii "svc") (ascii "http://svc") =
        .ok hostAsPathPatched ∧
      occurrences hostAsPathConfig (ascii "\"http://svc") = [13] ∧
      krakendPatch noLimit hostAsPathPatched (ascii "42") (ascii "svc") (ascii "http://svc") =
        .err (ascii "endpoint http://svc not found in config.json")) ∧
    (krakendPatch noLimit quotedServiceConfig (ascii "42") (ascii "a\"endpoint") (ascii "/app/x") =
        .ok quotedServicePatched ∧
      occurrences quotedServiceConfig (ascii "\"http://a\"endpoint") = [1] ∧
      krakendPatch noLimit quotedServicePatched (ascii "42") (ascii "a\"endpoint") (ascii "/app/x") =
        .err (ascii "endpoint /app/x not found in config.json")) ∧
    (krakendPatch noLimit plainConfig (ascii "\"http://svc") (ascii "svc") (ascii "/app/x") =
        .ok quotedPrPatched ∧
      occurrences plainConfig (ascii "\"http://svc") = [32] ∧
      krakendPatch noLimit quotedPrPatched (ascii "\"http://svc") (ascii "svc") (ascii "/app/x") =
        .ok quotedPrPatchedTwice) ∧
    (krakendPatch noLimit invalidHostConfig (ascii "42") [0xFF] replacementHost =
        .ok invalidHostPatched ∧
      occurrences invalidHostConfig (ascii "\"http://" ++ [0xFF]) = [13] ∧
      ValidString invalidHostConfig = false ∧ RuneError ∈ runes replacementHost ∧
      krakendPatch noLimit invalidHostPatched (ascii "42") [0xFF] replacementHost =
        .err (ascii "endpoint " ++ replacementHost ++ ascii " not found in config.json")) := by
  decide

/-- C4, amended: when the service name, the PR identifier and the endpoint path contain no
double quote, the endpoint path is not `http://svc`, the document `d` is valid UTF-8 or the
endpoint path holds no U+FFFD, the host patch succeeds on `d` with output `d'`, and the
quoted literal `"http://svc"` occurs only once in `d`, the same patch applied to `d'` fails
with the host-not-found error. -/
theorem krakendPatch_reapply_host_not_found (tooLarge : Str → Bool) (d d' svc pr p : Str)
    (hsvc : byte '"' ∉ svc) (hpr : byte '"' ∉ pr) (hp : byte '"' ∉ p)
    (hpne : p ≠ ascii "http://" ++ svc)
    (hutf : ValidString d = true ∨ RuneError ∉ runes p)
    (hok : krakendPatch tooLarge d pr svc p = .ok d')
    (huniq : OccursAtMostOnce (ascii "\"http://" ++ svc ++ ascii "\"") d) :
    krakendPatch tooLarge d' pr svc p = .err (hostNotFound svc) := by
  rcases krakendPatch_cases tooLarge d pr svc p with ⟨_, m, h1⟩ | ⟨_, _, _, h1⟩ |
      ⟨_, _, _, _, h1⟩ | ⟨re, i, hc, hm, hi, h1⟩
  · rw [h1] at hok; cases hok
  · rw [h1] at hok; cases hok
  · rw [h1] at hok; cases hok
  · obtain ⟨hv, _, rfl⟩ := Compile_some tooLarge p re hc
    have hE : HasEndpointDecl d p := decl_of_MatchString d p hv hutf hm
    have hd := (Index_found (targetHost svc) d i hi).1
    have hd' : d' = d.take i ++ newHost svc pr ++ d.drop (i + (targetHost svc).length) := by
      rw [h1] at hok
      injection hok with hok
      exact hok.symm
    exact krakendPatch_no_host tooLarge d' pr svc p _ hc
      (MatchString_of_decl d' p
        (reapply_endpoint_kept d d' svc pr p _ _ hsvc hpr hp hpne hd hd' hE))
      (reapply_host_gone d d' svc pr _ _ hsvc hpr hd hd' huniq)

/-- C4, amended, on the end-to-end scenario: the second application to the patched
`config.json` fails with the host-not-found error. -/
theorem krakendPatch_reapply_host_not_found_witness :
    krakendPatch noLimit scenarioConfig (ascii "654") (ascii "home-depot")
        (ascii "/app/v1/fair-lock") = .ok scenarioPatched ∧
    ValidString scenarioConfig = true ∧
    krakendPatch noLimit scenarioPatched (ascii "654") (ascii "home-depot")
        (ascii "/app/v1/fair-lock") =
      .err (ascii "host \"http://home-depot\" not found in config.json") :=
  ⟨by decide, by decide,
    krakendPatch_reapply_host_not_found noLimit scenarioConfig scenarioPatched
      (ascii "home-depot") (ascii "654") (ascii "/app/v1/fair-lock") (by decide) (by decide)
      (by decide) (by decide) (Or.inl (by decide)) (by decide)
      (occursAtMostOnce_of_occurrences _ _ (by decide))⟩

/-! ## Lemmas on the line scan of `updateGwIngressValues` -/

theorem scanStep_override (pr : Str) (st : ScanState) (l : Str) (h : ruleOf st l = .override) :
    scanStep pr st l =
      { st with result := st.result ++ [l] ++ [overrideLine], addedEndpointOverride := true } := by
  unfold ruleOf at h
  unfold scanStep
  split_ifs at h ⊢
  rfl

theorem scanStep_header (pr : Str) (st : ScanState) (l : Str) (h : ruleOf st l = .header) :
    scanStep pr st l =
      { st with
        inKrakendSection := true
        result := st.result ++ [l] ++ [instanceLine pr]
        updated := true } := by
  unfold ruleOf at h
  unfold scanStep
  split_ifs at h ⊢
  rfl

theorem scanStep_drop (pr : Str) (st : ScanState) (l : Str) (h : ruleOf st l = .drop) :
    scanStep pr st l = st := by
  unfold ruleOf at h
  unfold scanStep
  split_ifs at h ⊢
  rfl

theorem scanStep_emit (pr : Str) (st : ScanState) (l : Str) (h : ruleOf st l = .emit) :
    scanStep pr st l =
      { st with
        result := st.result ++ [l]
        inKrakendSection := st.inKrakendSection && staysInSection l } := by
  unfold ruleOf at h
  unfold scanStep
  split_ifs at h ⊢ <;> cases l <;> simp_all [staysInSection]

theorem emitted_eq (pr : Str) (st : ScanState) (l : Str) :
    emitted pr st l =
      match ruleOf st l with
      | .override => [l, overrideLine]
      | .header => [l, instanceLine pr]
      | .drop => []
      | .emit => [l] := by
  unfold emitted
  cases h : ruleOf st l with
  | override => rw [scanStep_override pr st l h]; simp
  | header => rw [scanStep_header pr st l h]; simp
  | drop => rw [scanStep_drop pr st l h]; simp
  | emit => rw [scanStep_emit pr st l h]; simp

theorem scanStep_result (pr : Str) (st : ScanState) (l : Str) :
    (scanStep pr st l).result = st.result ++ emitted pr st l := by
  rw [emitted_eq]
  cases h : ruleOf st l with
  | override => rw [scanStep_override pr st l h]; simp
  | header => rw [scanStep_header pr st l h]; simp
  | drop => rw [scanStep_drop pr st l h]; simp
  | emit => rw [scanStep_emit pr st l h]

theorem scanFrom_nil (pr : Str) (st : ScanState) : scanFrom pr st [] = st := rfl

theorem scanFrom_cons (pr : Str) (st : ScanState) (l : Str) (ls : List Str) :
    scanFrom pr st (l :: ls) = scanFrom pr (scanStep pr st l) ls := rfl

theorem scanFrom_append (pr : Str) (st : ScanState) (a b : List Str) :
    scanFrom pr st (a ++ b) = scanFrom pr (scanFrom pr st a) b := by
  unfold scanFrom
  rw [List.foldl_append]

theorem scanFrom_result (pr : Str) : ∀ (ls : List Str) (st : ScanState),
    (scanFrom pr st ls).result = st.result ++ scanOut pr st ls := by
  intro ls
  induction ls with
  | nil => intro st; simp [scanFrom_nil, scanOut]
  | cons l ls ih =>
    intro st
    rw [scanFrom_cons, ih, scanStep_result, scanOut, List.append_assoc]

theorem scanOut_append (pr : Str) (b : List Str) : ∀ (a : List Str) (st : ScanState),
    scanOut pr st (a ++ b) = scanOut pr st a ++ scanOut pr (scanFrom pr st a) b := by
  intro a
  induction a with
  | nil => intro st; simp [scanOut, scanFrom_nil]
  | cons l a ih =>
    intro st
    rw [List.cons_append, scanOut, scanOut, ih, scanFrom_cons, List.append_assoc]

theorem scanStep_added (pr : Str) (st : ScanState) (l : Str) :
    (scanStep pr st l).addedEndpointOverride =
      (st.addedEndpointOverride || Contains l albIdleMarker) := by
  unfold scanStep
  split_ifs <;> simp_all

theorem scanFrom_added (pr : Str) : ∀ (ls : List Str) (st : ScanState),
    (scanFrom pr st ls).addedEndpointOverride =
      (st.addedEndpointOverride || ls.any fun l => Contains l albIdleMarker) := by
  intro ls
  induction ls with
  | nil => intro st; simp [scanFrom_nil]
  | cons l ls ih =>
    intro st
    rw [scanFrom_cons, ih, scanStep_added, List.any_cons, Bool.or_assoc]

theorem scanStep_updated_mono (pr : Str) (st : ScanState) (l : Str) (h : st.updated = true) :
    (scanStep pr st l).updated = true := by
  unfold scanStep
  split_ifs <;> simp_all

theorem scanFrom_updated_mono (pr : Str) : ∀ (ls : List Str) (st : ScanState),
    st.updated = true → (scanFrom pr st ls).updated = true := by
  intro ls
  induction ls with
  | nil => intro st h; exact h
  | cons l ls ih =>
    intro st h
    rw [scanFrom_cons]
    exact ih _ (scanStep_updated_mono pr st l h)

theorem scanStep_updated_of_no_krakend (pr : Str) (st : ScanState) (l : Str)
    (h : Contains l krakendMarker = false) : (scanStep pr st l).updated = st.updated := by
  unfold scanStep
  split_ifs <;> simp_all

theorem scanFrom_updated_of_no_krakend (pr : Str) : ∀ (ls : List Str) (st : ScanState),
    (∀ l ∈ ls, Contains l krakendMarker = false) → (scanFrom pr st ls).updated = st.updated := by
  intro ls
  induction ls with
  | nil => intro st _; rfl
  | cons l ls ih =>
    intro st h
    rw [scanFrom_cons, ih _ (fun x hx => h x (List.mem_cons_of_mem _ hx)),
      scanStep_updated_of_no_krakend pr st l (h l (List.mem_cons_self _ _))]

theorem gwIngressPatch_eq (data pr : Str) :
    gwIngressPatch data pr =
      if (scanFrom pr ScanState.init (Split data (byte '\n'))).updated = true then
        .ok (Join (scanOut pr ScanState.init (Split data (byte '\n'))) (ascii "\n"))
      else .err krakendSectionNotFound := by
  unfold gwIngressPatch
  simp only [scanFrom_result]
  cases (scanFrom pr ScanState.init (Split data (byte '\n'))).updated <;> simp [ScanState.init, krakendSectionNotFound]

/-! ## Section tracking: the flag `inKrakendSection` -/

theorem staysInSection_iff (x : Str) :
    staysInSection x = true ↔ (x = [] ∨ x.head? = some (byte ' ')) := by
  unfold staysInSection
  cases x <;> simp

theorem ruleOf_header_contains (st : ScanState) (l : Str) (h : ruleOf st l = .header) :
    Contains l krakendMarker = true := by
  unfold ruleOf at h
  split_ifs at h
  assumption

theorem scanStep_inSection (pr : Str) (st : ScanState) (x : Str) :
    (scanStep pr st x).inKrakendSection = true ↔
      ruleOf st x = .header ∨
        (st.inKrakendSection = true ∧ (ruleOf st x = .emit → staysInSection x = true)) := by
  cases h : ruleOf st x with
  | override => rw [scanStep_override pr st x h]; simp
  | header => rw [scanStep_header pr st x h]; simp
  | drop => rw [scanStep_drop pr st x h]; simp
  | emit => rw [scanStep_emit pr st x h]; simp

theorem scanStep_not_inSection (pr : Str) (st : ScanState) (x : Str)
    (h : st.inKrakendSection = false) (hk : Contains x krakendMarker = false) :
    (scanStep pr st x).inKrakendSection = false := by
  have := scanStep_inSection pr st x
  cases hs : (scanStep pr st x).inKrakendSection with
  | false => rfl
  | true =>
    rcases this.mp hs with hh | ⟨hin, _⟩
    · rw [ruleOf_header_contains st x hh] at hk; cases hk
    · rw [hin] at h; cases h

theorem scanFrom_not_inSection (pr : Str) : ∀ (ls : List Str) (st : ScanState),
    st.inKrakendSection = false → (∀ l ∈ ls, Contains l krakendMarker = false) →
    (scanFrom pr st ls).inKrakendSection = false := by
  intro ls
  induction ls with
  | nil => intro st h _; exact h
  | cons l ls ih =>
    intro st h hall
    rw [scanFrom_cons]
    exact ih _ (scanStep_not_inSection pr st l h (hall l (List.mem_cons_self _ _)))
      (fun x hx => hall x (List.mem_cons_of_mem _ hx))

theorem concat_eq_append_cons {α : Type} (b b₁ b₂ : List α) (x k : α)
    (h : b ++ [x] = b₁ ++ k :: b₂) :
    (b₂ = [] ∧ b = b₁ ∧ x = k) ∨ (∃ b₂', b₂ = b₂' ++ [x] ∧ b = b₁ ++ k :: b₂') := by
  rcases List.eq_nil_or_concat b₂ with rfl | ⟨L, a, rfl⟩
  · left
    have := List.append_inj' h rfl
    exact ⟨rfl, this.1, by simpa using this.2⟩
  · right
    have h' : b ++ [x] = (b₁ ++ k :: L) ++ [a] := by rw [h]; simp
    have := List.append_inj' h' rfl
    refine ⟨L, ?_, this.1⟩
    have e : x = a := by simpa using this.2
    rw [e]
    simp

/-- The scan is inside the target section after the lines `before`: some line took the
`krakend:` branch, and every later line that took the fall-through branch is empty or
begins with a space. -/
theorem inSection_extend (pr : Str) (b : List Str) (x : Str) :
    (∃ (b₁ : List Str) (k : Str) (b₂ : List Str), b ++ [x] = b₁ ++ k :: b₂ ∧
        ruleOf (scanFrom pr ScanState.init b₁) k = .header ∧
        ∀ (b₃ : List Str) (y : Str) (b₄ : List Str), b₂ = b₃ ++ y :: b₄ →
          ruleOf (scanFrom pr ScanState.init (b₁ ++ k :: b₃)) y = .emit →
          (y = [] ∨ y.head? = some (byte ' '))) ↔
      (ruleOf (scanFrom pr ScanState.init b) x = .header ∨
        ((∃ (b₁ : List Str) (k : Str) (b₂ : List Str), b = b₁ ++ k :: b₂ ∧
          ruleOf (scanFrom pr ScanState.init b₁) k = .header ∧
          ∀ (b₃ : List Str) (y : Str) (b₄ : List Str), b₂ = b₃ ++ y :: b₄ →
            ruleOf (scanFrom pr ScanState.init (b₁ ++ k :: b₃)) y = .emit →
            (y = [] ∨ y.head? = some (byte ' '))) ∧
          (ruleOf (scanFrom pr ScanState.init b) x = .emit → staysInSection x = true))) := by
  constructor
  · rintro ⟨b₁, k, b₂, e, hk, hall⟩
    rcases concat_eq_append_cons b b₁ b₂ x k e with ⟨_, rfl, rfl⟩ | ⟨b₂', rfl, rfl⟩
    · left; exact hk
    · right
      refine ⟨⟨b₁, k, b₂', rfl, hk, ?_⟩, ?_⟩
      · intro b₃ y b₄ e' hy
        exact hall b₃ y (b₄ ++ [x]) (by rw [e']; simp) hy
      · intro hx
        rw [staysInSection_iff]
        exact hall b₂' x [] rfl hx
  · rintro (hh | ⟨⟨b₁, k, b₂, rfl, hk, hall⟩, hx⟩)
    · exact ⟨b, x, [], rfl, hh, fun b₃ y b₄ e => by simp at e⟩
    · refine ⟨b₁, k, b₂ ++ [x], by simp, hk, ?_⟩
      intro b₃ y b₄ e hy
      rcases concat_eq_append_cons b₂ b₃ b₄ x y e with ⟨_, rfl, rfl⟩ | ⟨b₄', _, rfl⟩
      · rw [← staysInSection_iff]
        exact hx hy
      · exact hall b₃ y b₄' rfl hy

theorem inSection_iff (pr : Str) (before : List Str) :
    (scanFrom pr ScanState.init before).inKrakendSection = true ↔
      ∃ (b₁ : List Str) (k : Str) (b₂ : List Str), before = b₁ ++ k :: b₂ ∧
        ruleOf (scanFrom pr ScanState.init b₁) k = .header ∧
        ∀ (b₃ : List Str) (y : Str) (b₄ : List Str), b₂ = b₃ ++ y :: b₄ →
          ruleOf (scanFrom pr ScanState.init (b₁ ++ k :: b₃)) y = .emit →
          (y = [] ∨ y.head? = some (byte ' ')) := by
  induction before using List.reverseRecOn with
  | nil =>
    constructor
    · intro h; cases h
    · rintro ⟨b₁, k, b₂, e, _⟩
      simp at e
  | append_singleton b x ih =>
    rw [inSection_extend, ← ih, scanFrom_append, scanFrom_cons, scanFrom_nil, scanStep_inSection]

theorem isFirstAlb_iff (pr : Str) (b : List Str) (x : Str) :
    IsFirstAlb b x ↔ (Contains x albIdleMarker = true ∧
      (scanFrom pr ScanState.init b).addedEndpointOverride = false) := by
  unfold IsFirstAlb
  rw [scanFrom_added, ← Contains_iff_occurs]
  simp only [ScanState.init, Bool.false_or, List.any_eq_false]
  constructor
  · rintro ⟨h1, h2⟩
    refine ⟨h1, fun l hl => ?_⟩
    have := (Contains_eq_false_iff _ _).mpr (h2 l hl)
    simpa using this
  · rintro ⟨h1, h2⟩
    refine ⟨h1, fun l hl => (Contains_eq_false_iff _ _).mp ?_⟩
    simpa using h2 l hl

/-- The `krakend:` branch, said of the text of the lines: it is taken by a line that
contains `krakend:` and is not the first line with `albIdleTimeout: 180`. -/
theorem ruleOf_header_iff (pr : Str) (b : List Str) (x : Str) :
    ruleOf (scanFrom pr ScanState.init b) x = .header ↔
      (ascii "krakend:" <:+: x ∧ ¬ IsFirstAlb b x) := by
  rw [isFirstAlb_iff pr, ← Contains_iff_occurs]
  unfold ruleOf
  cases hA : Contains x albIdleMarker <;>
    cases hd : (scanFrom pr ScanState.init b).addedEndpointOverride <;>
    cases hK : Contains x (ascii "krakend:") <;>
    cases hI : (scanFrom pr ScanState.init b).inKrakendSection &&
      Contains x instanceMarker <;>
    simp [krakendMarker, hK, hI]

theorem ruleOf_emit_iff (pr : Str) (b : List Str) (x : Str)
    (hF : (scanFrom pr ScanState.init b).inKrakendSection = true) :
    ruleOf (scanFrom pr ScanState.init b) x = .emit ↔
      (¬ IsFirstAlb b x ∧ ¬ ascii "krakend:" <:+: x ∧ ¬ ascii "instance:" <:+: x) := by
  rw [isFirstAlb_iff pr, ← Contains_iff_occurs, ← Contains_iff_occurs]
  unfold ruleOf
  rw [hF]
  cases hA : Contains x albIdleMarker <;>
    cases hd : (scanFrom pr ScanState.init b).addedEndpointOverride <;>
    cases hK : Contains x (ascii "krakend:") <;>
    cases hI : Contains x (ascii "instance:") <;>
    simp [krakendMarker, instanceMarker, hK, hI]

theorem lies_extend (b : List Str) (x : Str) :
    LiesInKrakendSection (b ++ [x]) ↔
      ((ascii "krakend:" <:+: x ∧ ¬ IsFirstAlb b x) ∨
        (LiesInKrakendSection b ∧
          (x = [] ∨ x.head? = some (byte ' ') ∨ ascii "instance:" <:+: x ∨
            ascii "krakend:" <:+: x ∨ IsFirstAlb b x))) := by
  constructor
  · rintro ⟨b₁, k, b₂, e, hk, hfa, hall⟩
    rcases concat_eq_append_cons b b₁ b₂ x k e with ⟨_, rfl, rfl⟩ | ⟨b₂', rfl, rfl⟩
    · left; exact ⟨hk, hfa⟩
    · right
      refine ⟨⟨b₁, k, b₂', rfl, hk, hfa, ?_⟩, hall b₂' x [] rfl⟩
      intro b₃ y b₄ e'
      exact hall b₃ y (b₄ ++ [x]) (by rw [e']; simp)
  · rintro (⟨hk, hfa⟩ | ⟨⟨b₁, k, b₂, rfl, hk, hfa, hall⟩, hx⟩)
    · exact ⟨b, x, [], rfl, hk, hfa, fun b₃ y b₄ e => by simp at e⟩
    · refine ⟨b₁, k, b₂ ++ [x], by simp, hk, hfa, ?_⟩
      intro b₃ y b₄ e
      rcases concat_eq_append_cons b₂ b₃ b₄ x y e with ⟨_, rfl, rfl⟩ | ⟨b₄', _, rfl⟩
      · exact hx
      · exact hall b₃ y b₄' rfl

/-- The flag `inKrakendSection` after the lines `before`, said of the text of the lines
alone. -/
theorem inSection_iff_lies (pr : Str) (before : List Str) :
    (scanFrom pr ScanState.init before).inKrakendSection = true ↔
      LiesInKrakendSection before := by
  induction before using List.reverseRecOn with
  | nil =>
    constructor
    · intro h; cases h
    · rintro ⟨b₁, k, b₂, e, _⟩
      simp at e
  | append_singleton b x ih =>
    rw [lies_extend, ← ih, scanFrom_append, scanFrom_cons, scanFrom_nil, scanStep_inSection,
      ruleOf_header_iff]
    constructor
    · rintro (h | ⟨hF, hx⟩)
      · left; exact h
      · right
        refine ⟨hF, ?_⟩
        rw [ruleOf_emit_iff pr b x hF, staysInSection_iff] at hx
        by_cases h1 : IsFirstAlb b x
        · exact Or.inr (Or.inr (Or.inr (Or.inr h1)))
        · by_cases h2 : ascii "krakend:" <:+: x
          · exact Or.inr (Or.inr (Or.inr (Or.inl h2)))
          · by_cases h3 : ascii "instance:" <:+: x
            · exact Or.inr (Or.inr (Or.inl h3))
            · rcases hx ⟨h1, h2, h3⟩ with h | h
              · exact Or.inl h
              · exact Or.inr (Or.inl h)
    · rintro (h | ⟨hF, hx⟩)
      · left; exact h
      · right
        refine ⟨hF, ?_⟩
        rw [ruleOf_emit_iff pr b x hF, staysInSection_iff]
        rintro ⟨h1, h2, h3⟩
        rcases hx with h | h | h | h | h
        · exact Or.inl h
        · exact Or.inr h
        · exact absurd h h3
        · exact absurd h h2
        · exact absurd h h1

/-! ## Properties of `updateGwIngressValues` and of `main` -/

theorem exists_first_split (p : Str → Bool) : ∀ l : List Str, (∃ x ∈ l, p x = true) →
    ∃ (a₁ : List Str) (A : Str) (a₂ : List Str),
      l = a₁ ++ A :: a₂ ∧ (∀ y ∈ a₁, p y = false) ∧ p A = true := by
  intro l
  induction l with
  | nil => rintro ⟨x, hx, _⟩; cases hx
  | cons a l ih =>
    rintro ⟨x, hx, hp⟩
    by_cases ha : p a = true
    · exact ⟨[], a, l, rfl, by simp, ha⟩
    · have hx' : x ∈ l := by
        rcases List.mem_cons.mp hx with rfl | h
        · exact absurd hp ha
        · exact h
      obtain ⟨a₁, A, a₂, e, h₁, h₂⟩ := ih ⟨x, hx', hp⟩
      refine ⟨a :: a₁, A, a₂, by rw [e]; rfl, ?_, h₂⟩
      intro y hy
      rcases List.mem_cons.mp hy with rfl | h
      · simpa using ha
      · exact h₁ y h

/-- C6: when no line of the document contains `krakend:`, the values patch fails with the
krakend-section-not-found error, whatever was appended to `result` during the scan, and
the function leaves the values file as it was. -/
theorem gwIngressPatch_no_krakend_section (data pr : Str)
    (h : ∀ line ∈ Split data (byte '\n'), ¬ (ascii "krakend:") <:+: line) :
    gwIngressPatch data pr = .err krakendSectionNotFound ∧
    ∀ values : File, values.read = .ok data →
      updateGwIngressValues values pr = (.err krakendSectionNotFound, values) := by
  have h' : ∀ line ∈ Split data (byte '\n'), Contains line krakendMarker = false :=
    fun line hl => (Contains_eq_false_iff _ _).mpr (h line hl)
  have hu := scanFrom_updated_of_no_krakend pr (Split data (byte '\n')) ScanState.init h'
  have hp : gwIngressPatch data pr = .err krakendSectionNotFound := by
    rw [gwIngressPatch_eq, hu]
    rfl
  refine ⟨hp, ?_⟩
  intro values hr
  unfold updateGwIngressValues
  rw [hr]
  simp only [hp]

/-- C6, on a values file with an `albIdleTimeout: 180` line and no `krakend:` line. -/
theorem gwIngressPatch_no_krakend_section_witness :
    gwIngressPatch valuesNoKrakend (ascii "654") =
      .err (ascii "no krakend section found in values file") ∧
    updateGwIngressValues ⟨.ok valuesNoKrakend, none⟩ (ascii "654") =
      (.err (ascii "no krakend section found in values file"), ⟨.ok valuesNoKrakend, none⟩) :=
  have h : ∀ line ∈ Split valuesNoKrakend (byte '\n'), ¬ (ascii "krakend:") <:+: line := by
    have h' : ∀ line ∈ Split valuesNoKrakend (byte '\n'), Contains line (ascii "krakend:") = false := by
      decide
    exact fun line hl => (Contains_eq_false_iff _ _).mp (h' line hl)
  ⟨(gwIngressPatch_no_krakend_section valuesNoKrakend (ascii "654") h).1,
    (gwIngressPatch_no_krakend_section valuesNoKrakend (ascii "654") h).2 _ rfl⟩

/-- C5 as stated fails in its last clause: a line of the krakend section that contains
`instance:` is copied to the output when it is the first line with `albIdleTimeout: 180`
(first document, line 1) and when it also contains `krakend:` (second document, line 2);
and the instance line that follows a `krakend:` line is copied when that `krakend:` line is
itself the first line with `albIdleTimeout: 180` (third document, line 1). -/
theorem gwIngressPatch_insertions_counterexample :
    (Split valuesInstanceWithAlb (byte '\n') =
        [ascii "krakend:", ascii "  instance: 1 # albIdleTimeout: 180", ascii "krakend:"] ∧
      (stateAt (ascii "7") (Split valuesInstanceWithAlb (byte '\n')) 1).inKrakendSection = true ∧
      Contains (ascii "  instance: 1 # albIdleTimeout: 180") instanceMarker = true ∧
      emitted (ascii "7") (stateAt (ascii "7") (Split valuesInstanceWithAlb (byte '\n')) 1)
          (ascii "  instance: 1 # albIdleTimeout: 180") =
        [ascii "  instance: 1 # albIdleTimeout: 180", overrideLine] ∧
      gwIngressPatch valuesInstanceWithAlb (ascii "7") =
        .ok (ascii "krakend:\n      instance: 7\n  instance: 1 # albIdleTimeout: 180\n  endpointFullNameOverride: api-fyre\nkrakend:\n      instance: 7")) ∧
    (Split valuesInstanceWithKrakend (byte '\n') =
        [ascii "  albIdleTimeout: 180", ascii "krakend:", ascii "  sub-krakend: instance: 3"] ∧
      (stateAt (ascii "7") (Split valuesInstanceWithKrakend (byte '\n')) 2).inKrakendSection = true ∧
      Contains (ascii "  sub-krakend: instance: 3") instanceMarker = true ∧
      emitted (ascii "7") (stateAt (ascii "7") (Split valuesInstanceWithKrakend (byte '\n')) 2)
          (ascii "  sub-krakend: instance: 3") =
        [ascii "  sub-krakend: instance: 3", instanceLine (ascii "7")] ∧
      gwIngressPatch valuesInstanceWithKrakend (ascii "7") =
        .ok (ascii "  albIdleTimeout: 180\n  endpointFullNameOverride: api-fyre\nkrakend:\n      instance: 7\n  sub-krakend: instance: 3\n      instance: 7")) ∧
    (Split valuesKrakendWithAlb (byte '\n') =
        [ascii "krakend: # albIdleTimeout: 180", ascii "  instance: 5", ascii "krakend:"] ∧
      Contains (ascii "krakend: # albIdleTimeout: 180") krakendMarker = true ∧
      Contains (ascii "  instance: 5") instanceMarker = true ∧
      emitted (ascii "7") (stateAt (ascii "7") (Split valuesKrakendWithAlb (byte '\n')) 1)
          (ascii "  instance: 5") = [ascii "  instance: 5"] ∧
      gwIngressPatch valuesKrakendWithAlb (ascii "7") =
        .ok (ascii "krakend: # albIdleTimeout: 180\n  endpointFullNameOverride: api-fyre\n  instance: 5\nkrakend:\n      instance: 7")) := by
  decide

/-- C5, amended: when some line contains `albIdleTimeout: 180` and a later line `K` contains
`krakend:`, the values patch succeeds; its output lines hold the first
`albIdleTimeout: 180` line immediately followed by the override line and, further on, `K`
immediately followed by the instance line; and a line that lies inside the krakend section
and contains `instance:` appends nothing to the output, unless it also contains `krakend:`
or is the first line with `albIdleTimeout: 180`.  Inside the krakend section is said of the
text of the lines before (`LiesInKrakendSection`), not of the state of the scan. -/
theorem gwIngressPatch_insertions (data pr : Str) (l₁ l₂ l₃ : List Str) (La K : Str)
    (hlines : Split data (byte '\n') = l₁ ++ La :: (l₂ ++ K :: l₃))
    (hLa : (ascii "albIdleTimeout: 180") <:+: La) (hK : (ascii "krakend:") <:+: K) :
    gwIngressPatch data pr =
      .ok (Join (scanFrom pr ScanState.init (Split data (byte '\n'))).result (ascii "\n")) ∧
    (∃ (a₁ a₂ : List Str) (A : Str) (o₁ o₂ o₃ : List Str),
      Split data (byte '\n') = a₁ ++ A :: a₂ ∧
      (∀ l ∈ a₁, ¬ (ascii "albIdleTimeout: 180") <:+: l) ∧
      (ascii "albIdleTimeout: 180") <:+: A ∧
      (scanFrom pr ScanState.init (Split data (byte '\n'))).result =
        o₁ ++ A :: (ascii "  endpointFullNameOverride: api-fyre") ::
          (o₂ ++ K :: ((ascii "      instance: ") ++ pr) :: o₃)) ∧
    (∀ (before after : List Str) (line : Str),
      Split data (byte '\n') = before ++ line :: after →
      (ascii "instance:") <:+: line → ¬ (ascii "krakend:") <:+: line →
      ¬ IsFirstAlb before line → LiesInKrakendSection before →
      emitted pr (scanFrom pr ScanState.init before) line = []) := by
  have hLa' : Contains La albIdleMarker = true := (Contains_iff_occurs _ _).mpr hLa
  have hK' : Contains K krakendMarker = true := (Contains_iff_occurs _ _).mpr hK
  obtain ⟨a₁, A, a₂, e, hA₁, hA₂⟩ := exists_first_split (fun l => Contains l albIdleMarker)
    (l₁ ++ [La]) ⟨La, by simp, hLa'⟩
  have hA₂' : Contains A albIdleMarker = true := hA₂
  have hsplit : Split data (byte '\n') = a₁ ++ A :: ((a₂ ++ l₂) ++ K :: l₃) := by
    rw [hlines]
    have : l₁ ++ La :: (l₂ ++ K :: l₃) = (l₁ ++ [La]) ++ (l₂ ++ K :: l₃) := by simp
    rw [this, e]
    simp
  -- the state before `A`, and the branch `A` takes
  have hadd₀ : (scanFrom pr ScanState.init a₁).addedEndpointOverride = false := by
    rw [scanFrom_added]
    simp only [ScanState.init, Bool.false_or, List.any_eq_false]
    intro x hx
    simpa using hA₁ x hx
  have hrA : ruleOf (scanFrom pr ScanState.init a₁) A = .override := by
    unfold ruleOf
    simp [hA₂', hadd₀]
  -- the state before `K`, and the branch `K` takes
  have hadd₁ : (scanFrom pr (scanStep pr (scanFrom pr ScanState.init a₁) A)
      (a₂ ++ l₂)).addedEndpointOverride = true := by
    rw [scanFrom_added, scanStep_override pr _ A hrA]
    rfl
  have hrK : ruleOf (scanFrom pr (scanStep pr (scanFrom pr ScanState.init a₁) A) (a₂ ++ l₂)) K =
      .header := by
    unfold ruleOf
    simp [hadd₁, hK']
  have hupd : (scanFrom pr ScanState.init (Split data (byte '\n'))).updated = true := by
    rw [hsplit, scanFrom_append, scanFrom_cons, scanFrom_append, scanFrom_cons]
    apply scanFrom_updated_mono
    rw [scanStep_header pr _ K hrK]
  refine ⟨?_, ?_, ?_⟩
  · rw [gwIngressPatch_eq, if_pos hupd, scanFrom_result]
    rfl
  · refine ⟨a₁, (a₂ ++ l₂) ++ K :: l₃, A, scanOut pr ScanState.init a₁,
      scanOut pr (scanStep pr (scanFrom pr ScanState.init a₁) A) (a₂ ++ l₂),
      scanOut pr (scanStep pr
        (scanFrom pr (scanStep pr (scanFrom pr ScanState.init a₁) A) (a₂ ++ l₂)) K) l₃,
      hsplit, ?_, (Contains_iff_occurs _ _).mp hA₂', ?_⟩
    · intro l hl
      rw [← Contains_iff_occurs]
      simpa using hA₁ l hl
    · rw [scanFrom_result, hsplit, scanOut_append, scanOut, emitted_eq, hrA, scanOut_append,
        scanOut, emitted_eq, hrK]
      simp [ScanState.init, overrideLine, instanceLine]
  · intro before after line _ hI hK hA hin
    have hI' : Contains line instanceMarker = true := (Contains_iff_occurs _ _).mpr hI
    have hK' : Contains line krakendMarker = false := (Contains_eq_false_iff _ _).mpr hK
    have hF := (inSection_iff_lies pr before).mpr hin
    rw [isFirstAlb_iff pr] at hA
    rw [emitted_eq]
    have : ruleOf (scanFrom pr ScanState.init before) line = .drop := by
      unfold ruleOf
      cases hc : Contains line albIdleMarker <;>
        cases hd : (scanFrom pr ScanState.init before).addedEndpointOverride <;>
        simp [hI', hK', hF, hc, hd] at hA ⊢
    rw [this]

/-- C5, amended, on a values file with the `albIdleTimeout: 180` line, a krakend section
with a stale instance line, and an instance line in a later section: the patch gives the
patched file, and the stale instance line, which lies inside the krakend section, appends
nothing. -/
theorem gwIngressPatch_insertions_witness :
    gwIngressPatch valuesScenario (ascii "654") = .ok valuesScenarioPatched ∧
    LiesInKrakendSection [ascii "global:", ascii "  albIdleTimeout: 180", ascii "krakend:"] ∧
    emitted (ascii "654") (scanFrom (ascii "654") ScanState.init
        [ascii "global:", ascii "  albIdleTimeout: 180", ascii "krakend:"])
      (ascii "  instance: 5") = [] :=
  have hA : ascii "albIdleTimeout: 180" <:+: ascii "  albIdleTimeout: 180" :=
    (Contains_iff_occurs _ _).mp (by decide)
  have hL : LiesInKrakendSection
      [ascii "global:", ascii "  albIdleTimeout: 180", ascii "krakend:"] :=
    ⟨[ascii "global:", ascii "  albIdleTimeout: 180"], ascii "krakend:", [], rfl,
      (Contains_iff_occurs _ _).mp (by decide),
      fun h => absurd ((Contains_iff_occurs _ _).mpr h.1) (by decide),
      fun b₃ y b₄ e => by simp at e⟩
  have h := gwIngressPatch_insertions valuesScenario (ascii "654") [ascii "global:"] []
    [ascii "  instance: 5", ascii "  replicas: 2", ascii "other:", ascii "  instance: 9", []]
    (ascii "  albIdleTimeout: 180") (ascii "krakend:") (by decide) hA
    ((Contains_iff_occurs _ _).mp (by decide))
  ⟨h.1.trans (by decide), hL,
    h.2.2 [ascii "global:", ascii "  albIdleTimeout: 180", ascii "krakend:"]
      [ascii "  replicas: 2", ascii "other:", ascii "  instance: 9", []] (ascii "  instance: 5")
      (by decide) ((Contains_iff_occurs _ _).mp (by decide))
      (fun h => absurd ((Contains_iff_occurs _ _).mpr h) (by decide))
      (fun h => h.2 _ (List.mem_cons_of_mem _ (List.mem_cons_self _ _)) hA) hL⟩

/-- C7 fails on the code for three arguments: `main` prints the usage text and returns for
zero, one or two arguments after the program name, but with three it passes the guard
`len(os.Args) < 4` and panics on reading `os.Args[4]`. -/
theorem main_three_arguments_panics (prog a b c : Str) :
    main [prog] = .usage usageText ∧
    main [prog, a] = .usage usageText ∧
    main [prog, a, b] = .usage usageText ∧
    main [prog, a, b, c] = .indexOutOfRange 4 4 ∧
    main [(ascii "prep-waldo"), (ascii "654"), (ascii "home-depot"), (ascii "/v1/fair-lock")] =
      .indexOutOfRange 4 4 :=
  ⟨rfl, rfl, rfl, rfl, rfl⟩

/-! ## Section tracking -/

/-- C10 as stated fails in its clause on the lines after the section: in the lines
`krakend:`, `  replicas: 2`, `rds-instance:`, `  instance: 9` the third line is non-empty,
begins at column 0 and follows the krakend section, and no later line contains `krakend:`,
yet the instance line after it is dropped.  The third line contains `instance:` and is
dropped itself, by the branch that comes before the fall-through branch, so that it does
not end the section. -/
theorem scan_section_tracking_counterexample :
    Split valuesInstanceSection (byte '\n') =
      [ascii "krakend:", ascii "  replicas: 2", ascii "rds-instance:", ascii "  instance: 9"] ∧
    (ascii "rds-instance:").head? = some (byte 'r') ∧
    Contains (ascii "  instance: 9") instanceMarker = true ∧
    Contains (ascii "  instance: 9") krakendMarker = false ∧
    Contains (ascii "  instance: 9") albIdleMarker = false ∧
    emitted (ascii "7") (scanFrom (ascii "7") ScanState.init
        [ascii "krakend:", ascii "  replicas: 2"]) (ascii "rds-instance:") = [] ∧
    (scanFrom (ascii "7") ScanState.init
      [ascii "krakend:", ascii "  replicas: 2", ascii "rds-instance:"]).inKrakendSection = true ∧
    emitted (ascii "7") (scanFrom (ascii "7") ScanState.init
        [ascii "krakend:", ascii "  replicas: 2", ascii "rds-instance:"])
      (ascii "  instance: 9") = [] ∧
    gwIngressPatch valuesInstanceSection (ascii "7") =
      .ok (ascii "krakend:\n      instance: 7\n  replicas: 2") := by
  decide

/-- C10, amended: for a line that contains `instance:` but neither `krakend:` nor
`albIdleTimeout: 180`, reached after the lines `before`: it is dropped exactly when the
scan is inside the target section, and kept unchanged otherwise; the scan is inside the
section exactly when an earlier line took the `krakend:` branch and every fall-through line
since then is empty or begins with a space.  So the line is kept when no earlier line
contains `krakend:`, and when a non-empty line not beginning with a space that the
fall-through branch emits is followed by no `krakend:` line; such is every non-empty line
at column 0 that contains none of `instance:`, `krakend:` and `albIdleTimeout: 180`.  And
a line that is empty or begins with a space never ends the section. -/
theorem scan_section_tracking (pr : Str) (before : List Str) (line : Str)
    (hI : (ascii "instance:") <:+: line) (hK : ¬ (ascii "krakend:") <:+: line)
    (hA : ¬ (ascii "albIdleTimeout: 180") <:+: line) :
    (emitted pr (scanFrom pr ScanState.init before) line = [] ↔
      (scanFrom pr ScanState.init before).inKrakendSection = true) ∧
    ((scanFrom pr ScanState.init before).inKrakendSection = false →
      emitted pr (scanFrom pr ScanState.init before) line = [line]) ∧
    ((scanFrom pr ScanState.init before).inKrakendSection = true ↔
      ∃ (b₁ : List Str) (k : Str) (b₂ : List Str), before = b₁ ++ k :: b₂ ∧
        ruleOf (scanFrom pr ScanState.init b₁) k = .header ∧
        ∀ (b₃ : List Str) (y : Str) (b₄ : List Str), b₂ = b₃ ++ y :: b₄ →
          ruleOf (scanFrom pr ScanState.init (b₁ ++ k :: b₃)) y = .emit →
          (y = [] ∨ y.head? = some (byte ' '))) ∧
    ((∀ l ∈ before, ¬ (ascii "krakend:") <:+: l) →
      emitted pr (scanFrom pr ScanState.init before) line = [line]) ∧
    (∀ (b₁ : List Str) (x : Str) (b₂ : List Str), before = b₁ ++ x :: b₂ →
      ruleOf (scanFrom pr ScanState.init b₁) x = .emit → x ≠ [] → x.head? ≠ some (byte ' ') →
      (∀ l ∈ b₂, ¬ (ascii "krakend:") <:+: l) →
      emitted pr (scanFrom pr ScanState.init before) line = [line]) ∧
    (∀ (b₁ : List Str) (x : Str) (b₂ : List Str), before = b₁ ++ x :: b₂ →
      x ≠ [] → x.head? ≠ some (byte ' ') → ¬ (ascii "instance:") <:+: x →
      ¬ (ascii "krakend:") <:+: x → ¬ (ascii "albIdleTimeout: 180") <:+: x →
      (∀ l ∈ b₂, ¬ (ascii "krakend:") <:+: l) →
      emitted pr (scanFrom pr ScanState.init before) line = [line]) ∧
    (∀ (st : ScanState) (x : Str), st.inKrakendSection = true →
      (x = [] ∨ x.head? = some (byte ' ')) → (scanStep pr st x).inKrakendSection = true) := by
  have hI' : Contains line instanceMarker = true := (Contains_iff_occurs _ _).mpr hI
  have hK' : Contains line krakendMarker = false := (Contains_eq_false_iff _ _).mpr hK
  have hA' : Contains line albIdleMarker = false := (Contains_eq_false_iff _ _).mpr hA
  have hin : ∀ st : ScanState, st.inKrakendSection = true → emitted pr st line = [] := by
    intro st h
    have : ruleOf st line = .drop := by unfold ruleOf; simp [hI', hK', hA', h]
    rw [emitted_eq, this]
  have hout : ∀ st : ScanState, st.inKrakendSection = false → emitted pr st line = [line] := by
    intro st h
    have : ruleOf st line = .emit := by unfold ruleOf; simp [hK', hA', h]
    rw [emitted_eq, this]
  have hafter : ∀ (b₁ : List Str) (x : Str) (b₂ : List Str), before = b₁ ++ x :: b₂ →
      ruleOf (scanFrom pr ScanState.init b₁) x = .emit → x ≠ [] → x.head? ≠ some (byte ' ') →
      (∀ l ∈ b₂, ¬ (ascii "krakend:") <:+: l) →
      emitted pr (scanFrom pr ScanState.init before) line = [line] := by
    intro b₁ x b₂ e hx hne hhead hall
    apply hout
    rw [e, scanFrom_append, scanFrom_cons]
    apply scanFrom_not_inSection pr b₂ _ _
      (fun l hl => (Contains_eq_false_iff _ _).mpr (hall l hl))
    rw [scanStep_emit pr _ x hx]
    have : staysInSection x = false := by
      cases hs : staysInSection x with
      | false => rfl
      | true =>
        rcases (staysInSection_iff x).mp hs with h | h
        · exact absurd h hne
        · exact absurd h hhead
    simp [this]
  refine ⟨⟨?_, hin _⟩, hout _, inSection_iff pr before, ?_, hafter, ?_, ?_⟩
  · intro h
    cases hs : (scanFrom pr ScanState.init before).inKrakendSection with
    | true => rfl
    | false => rw [hout _ hs] at h; cases h
  · intro hall
    exact hout _ (scanFrom_not_inSection pr before ScanState.init rfl
      (fun l hl => (Contains_eq_false_iff _ _).mpr (hall l hl)))
  · intro b₁ x b₂ e hne hhead hxI hxK hxA hall
    refine hafter b₁ x b₂ e ?_ hne hhead hall
    have h1 : Contains x instanceMarker = false := (Contains_eq_false_iff _ _).mpr hxI
    have h2 : Contains x krakendMarker = false := (Contains_eq_false_iff _ _).mpr hxK
    have h3 : Contains x albIdleMarker = false := (Contains_eq_false_iff _ _).mpr hxA
    unfold ruleOf
    simp [h1, h2, h3]
  · intro st x hst hx
    rw [scanStep_inSection]
    by_cases hh : ruleOf st x = .header
    · left; exact hh
    · right; exact ⟨hst, fun _ => (staysInSection_iff x).mpr hx⟩

/-- C10, amended, on the values scenario: the instance line of the krakend section is dropped, the
instance line after the top-level line `other:` is kept. -/
theorem scan_section_tracking_witness :
    emitted (ascii "654") (scanFrom (ascii "654") ScanState.init
        [(ascii "global:"), (ascii "  albIdleTimeout: 180"), (ascii "krakend:")])
      (ascii "  instance: 5") = [] ∧
    emitted (ascii "654") (scanFrom (ascii "654") ScanState.init
        [(ascii "global:"), (ascii "  albIdleTimeout: 180"), (ascii "krakend:"),
          (ascii "  instance: 5"), (ascii "  replicas: 2"), (ascii "other:")])
      (ascii "  instance: 9") = [(ascii "  instance: 9")] :=
  ⟨(scan_section_tracking (ascii "654")
      [(ascii "global:"), (ascii "  albIdleTimeout: 180"), (ascii "krakend:")] (ascii "  instance: 5")
      ((Contains_iff_occurs _ _).mp (by decide))
      (fun h => absurd ((Contains_iff_occurs _ _).mpr h) (by decide))
      (fun h => absurd ((Contains_iff_occurs _ _).mpr h) (by decide))).1.mpr (by decide),
   (scan_section_tracking (ascii "654")
      [(ascii "global:"), (ascii "  albIdleTimeout: 180"), (ascii "krakend:"),
        (ascii "  instance: 5"), (ascii "  replicas: 2"), (ascii "other:")] (ascii "  instance: 9")
      ((Contains_iff_occurs _ _).mp (by decide))
      (fun h => absurd ((Contains_iff_occurs _ _).mpr h) (by decide))
      (fun h => absurd ((Contains_iff_occurs _ _).mpr h) (by decide))).2.1 (by decide)⟩

/-! ## Content preservation -/

theorem ruleOf_drop_contains (st : ScanState) (l : Str) (h : ruleOf st l = .drop) :
    Contains l instanceMarker = true := by
  unfold ruleOf at h
  split_ifs at h with h₁ h₂ h₃
  simp only [Bool.and_eq_true] at h₃
  exact h₃.2

theorem kept_sublist_scanOut (pr : Str) : ∀ (ls : List Str) (st : ScanState),
    List.Sublist (ls.filter fun l => !Contains l instanceMarker) (scanOut pr st ls) := by
  intro ls
  induction ls with
  | nil => intro st; simp [scanOut]
  | cons l ls ih =>
    intro st
    rw [scanOut, emitted_eq]
    cases hc : Contains l instanceMarker with
    | true =>
      rw [List.filter_cons_of_neg (by simp [hc])]
      exact (ih _).trans (List.sublist_append_right _ _)
    | false =>
      rw [List.filter_cons_of_pos (by simp [hc])]
      cases hr : ruleOf st l with
      | override => exact ((ih (scanStep pr st l)).cons overrideLine).cons₂ l
      | header => exact ((ih (scanStep pr st l)).cons (instanceLine pr)).cons₂ l
      | drop => rw [ruleOf_drop_contains st l hr] at hc; cases hc
      | emit => exact (ih _).cons₂ l

theorem mem_scanOut (pr : Str) : ∀ (ls : List Str) (st : ScanState) (x : Str),
    x ∈ scanOut pr st ls → x ∈ ls ∨ x = overrideLine ∨ x = instanceLine pr := by
  intro ls
  induction ls with
  | nil => intro st x h; simp [scanOut] at h
  | cons l ls ih =>
    intro st x h
    rw [scanOut, emitted_eq, List.mem_append] at h
    rcases h with h | h
    · cases hr : ruleOf st l <;> rw [hr] at h <;> simp at h
      · rcases h with rfl | rfl
        · left; exact List.mem_cons_self _ _
        · right; left; rfl
      · rcases h with rfl | rfl
        · left; exact List.mem_cons_self _ _
        · right; right; rfl
      · left; rw [h]; exact List.mem_cons_self _ _
    · rcases ih _ x h with h | h
      · left; exact List.mem_cons_of_mem _ h
      · right; exact h

theorem scanOut_ne_nil_of_updated (pr : Str) : ∀ (ls : List Str) (st : ScanState),
    st.updated = false → (scanFrom pr st ls).updated = true → scanOut pr st ls ≠ [] := by
  intro ls
  induction ls with
  | nil => intro st h₀ h; rw [scanFrom_nil, h₀] at h; cases h
  | cons l ls ih =>
    intro st h₀ h
    rw [scanOut, emitted_eq]
    cases hr : ruleOf st l with
    | override => simp
    | header => simp
    | emit => simp
    | drop =>
      rw [scanFrom_cons, scanStep_drop pr st l hr] at h
      rw [scanStep_drop pr st l hr]
      simpa using ih st h₀ h

theorem Split_concat_sep (c : Byte) (s : Str) : Split (s ++ [c]) c = Split s c ++ [[]] := by
  rw [Split_append_sep, Split_nil]

theorem Split_concat_other (c x : Byte) (hx : x ≠ c) : ∀ s : Str,
    ∃ (ls : List Str) (seg : Str), Split (s ++ [x]) c = ls ++ [seg ++ [x]] := by
  intro s
  induction s with
  | nil => exact ⟨[], [], Split_cons_other c x [] [] [] hx (Split_nil c)⟩
  | cons y s ih =>
    obtain ⟨ls, seg, e⟩ := ih
    by_cases hy : y = c
    · subst hy
      exact ⟨[] :: ls, seg, by rw [List.cons_append, Split_cons_sep, e]; rfl⟩
    · cases ls with
      | nil =>
        exact ⟨[], y :: seg, Split_cons_other c y _ _ [] hy e⟩
      | cons a ls =>
        exact ⟨(y :: a) :: ls, seg, Split_cons_other c y _ a _ hy e⟩

theorem Join_concat_getLast? (sep Z : Str) (hZ : Z ≠ []) (o : List Str) :
    (Join (o ++ [Z]) sep).getLast? = Z.getLast? := by
  cases o with
  | nil => rw [List.nil_append, Join_single]
  | cons a o =>
    rw [Join_append sep [Z] (by simp) (a :: o) (by simp), Join_single,
      List.getLast?_append_of_ne_nil _ hZ]

theorem Join_concat_nil (sep : Str) (o : List Str) (ho : o ≠ []) :
    Join (o ++ [[]]) sep = Join o sep ++ sep := by
  rw [Join_append sep [[]] (by simp) o ho, Join_single, List.append_nil]

theorem ruleOf_nil (st : ScanState) : ruleOf st [] = .emit := by
  unfold ruleOf
  have h₁ : Contains [] albIdleMarker = false := by decide
  have h₂ : Contains [] krakendMarker = false := by decide
  have h₃ : Contains [] instanceMarker = false := by decide
  simp [h₁, h₂, h₃]

theorem instanceLine_getLast? (pr : Str) (h : pr.getLast? ≠ some (byte '\n')) :
    (instanceLine pr).getLast? ≠ some (byte '\n') := by
  unfold instanceLine
  cases pr with
  | nil => decide
  | cons a pr => rw [List.getLast?_append_of_ne_nil _ (by simp)]; exact h

theorem gwIngressPatch_ok (data pr out : Str) (hok : gwIngressPatch data pr = .ok out) :
    (scanFrom pr ScanState.init (Split data (byte '\n'))).updated = true ∧
      out = Join (scanOut pr ScanState.init (Split data (byte '\n'))) (ascii "\n") := by
  rw [gwIngressPatch_eq] at hok
  by_cases h : (scanFrom pr ScanState.init (Split data (byte '\n'))).updated = true
  · rw [if_pos h] at hok
    injection hok with hok
    exact ⟨h, hok.symm⟩
  · rw [if_neg h] at hok
    cases hok

theorem scanFrom_init_result (pr : Str) (ls : List Str) :
    (scanFrom pr ScanState.init ls).result = scanOut pr ScanState.init ls := by
  rw [scanFrom_result]
  rfl

/-- C9 as stated fails in its last clause: the absence of a final line break is not always
preserved.  The first document does not end with a line break, its last line is a stale
instance line after a blank line, and the output ends with a line break; in the second
case the line break comes from the PR identifier. -/
theorem gwIngressPatch_preserves_content_counterexample :
    (valuesStaleLast.getLast? = some (byte '5') ∧
      gwIngressPatch valuesStaleLast (ascii "7") = .ok (ascii "krakend:\n      instance: 7\n") ∧
      (ascii "krakend:\n      instance: 7\n").getLast? = some (byte '\n')) ∧
    ((ascii "krakend:").getLast? = some (byte ':') ∧
      gwIngressPatch (ascii "krakend:") (ascii "7\n") = .ok (ascii "krakend:\n      instance: 7\n")) := by
  decide

/-- C9, amended: when the values patch succeeds, the output is the lines of `result` joined
with line breaks; the input lines without `instance:` form a sublist of `result`, in their
order; every line of `result` is an input line, the override line or the instance line; a
final line break of the input is preserved; and the output has no final line break when
the input has none, the PR identifier does not end with a line break and the last input
line does not contain `instance:`. -/
theorem gwIngressPatch_preserves_content (data pr out : Str)
    (hok : gwIngressPatch data pr = .ok out) :
    out = Join (scanFrom pr ScanState.init (Split data (byte '\n'))).result (ascii "\n") ∧
    List.Sublist ((Split data (byte '\n')).filter fun l => !Contains l instanceMarker)
      (scanFrom pr ScanState.init (Split data (byte '\n'))).result ∧
    (∀ l ∈ (scanFrom pr ScanState.init (Split data (byte '\n'))).result,
      l ∈ Split data (byte '\n') ∨ l = (ascii "  endpointFullNameOverride: api-fyre") ∨
        l = (ascii "      instance: ") ++ pr) ∧
    (data.getLast? = some (byte '\n') → out.getLast? = some (byte '\n')) ∧
    (data.getLast? ≠ some (byte '\n') → pr.getLast? ≠ some (byte '\n') →
      (∀ L, (Split data (byte '\n')).getLast? = some L → ¬ (ascii "instance:") <:+: L) →
      out.getLast? ≠ some (byte '\n')) := by
  obtain ⟨hupd, hout⟩ := gwIngressPatch_ok data pr out hok
  rw [scanFrom_init_result]
  refine ⟨hout, kept_sublist_scanOut pr _ _, mem_scanOut pr _ _, ?_, ?_⟩
  · intro hlast
    obtain ⟨s, rfl⟩ := List.getLast?_eq_some_iff.mp hlast
    rw [Split_concat_sep] at hupd hout
    rw [scanFrom_append, scanFrom_cons, scanFrom_nil, scanStep_emit pr _ [] (ruleOf_nil _)] at hupd
    have ho : scanOut pr ScanState.init (Split s (byte '\n')) ≠ [] :=
      scanOut_ne_nil_of_updated pr _ _ rfl hupd
    rw [scanOut_append, scanOut, emitted_eq, ruleOf_nil, scanOut, List.append_nil,
      Join_concat_nil _ _ ho] at hout
    rw [hout]
    exact List.getLast?_concat _
  · intro hlast hpr hL
    rcases List.eq_nil_or_concat data with rfl | ⟨s, x, rfl⟩
    · rw [Split_nil, scanFrom_cons, scanFrom_nil, scanStep_emit pr _ [] (ruleOf_nil _)] at hupd
      cases hupd
    · simp only [List.concat_eq_append] at hupd hout hlast hL
      have hx : x ≠ (byte '\n') := by
        intro hx
        apply hlast
        rw [hx]
        exact List.getLast?_concat _
      obtain ⟨ls, seg, e⟩ := Split_concat_other (byte '\n') x hx s
      rw [e] at hout hL
      have hI : Contains (seg ++ [x]) instanceMarker = false :=
        (Contains_eq_false_iff _ _).mpr (hL _ (List.getLast?_concat _))
      rw [scanOut_append, scanOut, emitted_eq, scanOut, List.append_nil] at hout
      rw [hout]
      cases hr : ruleOf (scanFrom pr ScanState.init ls) (seg ++ [x]) with
      | override =>
        have e' : scanOut pr ScanState.init ls ++ [seg ++ [x], overrideLine] =
            (scanOut pr ScanState.init ls ++ [seg ++ [x]]) ++ [overrideLine] := by simp
        simp only [e']
        rw [Join_concat_getLast? _ _ (by decide)]
        decide
      | header =>
        have e' : scanOut pr ScanState.init ls ++ [seg ++ [x], instanceLine pr] =
            (scanOut pr ScanState.init ls ++ [seg ++ [x]]) ++ [instanceLine pr] := by simp
        simp only [e']
        rw [Join_concat_getLast? _ _ (by simp [instanceLine, ascii])]
        exact instanceLine_getLast? pr hpr
      | drop => rw [ruleOf_drop_contains _ _ hr] at hI; cases hI
      | emit =>
        simp only
        rw [Join_concat_getLast? _ _ (by simp), List.getLast?_concat]
        intro h
        injection h with h
        exact hx h

/-- C9, amended, on the values scenario. -/
theorem gwIngressPatch_preserves_content_witness :
    gwIngressPatch valuesScenario (ascii "654") = .ok valuesScenarioPatched ∧
    valuesScenario.getLast? = some (byte '\n') ∧ valuesScenarioPatched.getLast? = some (byte '\n') :=
  ⟨by decide, by decide,
    (gwIngressPatch_preserves_content valuesScenario (ascii "654") valuesScenarioPatched
      (by decide)).2.2.2.1 (by decide)⟩

/-! ## Re-application of the values patch -/

theorem Contains_cons (c : Byte) (s t : Str) :
    Contains (c :: s) t = (t.isPrefixOf (c :: s) || Contains s t) := by
  unfold Contains
  rw [Index_unfold_cons]
  by_cases h : t.isPrefixOf (c :: s) = true
  · rw [if_pos h, h]; rfl
  · rw [if_neg h]
    simp only [Bool.not_eq_true] at h
    rw [h, Bool.false_or, Option.isSome_map']

theorem instanceLine_contains_krakend (pr : Str) :
    Contains (instanceLine pr) krakendMarker = Contains pr krakendMarker := by
  have e : ascii "      instance: " =
      [32, 32, 32, 32, 32, 32, 105, 110, 115, 116, 97, 110, 99, 101, 58, 32] := by decide
  have ek : krakendMarker = [107, 114, 97, 107, 101, 110, 100, 58] := by decide
  unfold instanceLine
  rw [e, ek]
  simp [Contains_cons, List.isPrefixOf]

theorem instanceLine_contains_alb (pr : Str) :
    Contains (instanceLine pr) albIdleMarker = Contains pr albIdleMarker := by
  have e : ascii "      instance: " =
      [32, 32, 32, 32, 32, 32, 105, 110, 115, 116, 97, 110, 99, 101, 58, 32] := by decide
  have ek : albIdleMarker =
      [97, 108, 98, 73, 100, 108, 101, 84, 105, 109, 101, 111, 117, 116, 58, 32, 49, 56, 48] := by decide
  unfold instanceLine
  rw [e, ek]
  simp [Contains_cons, List.isPrefixOf]

theorem instanceLine_contains_instance (pr : Str) :
    Contains (instanceLine pr) instanceMarker = true :=
  (Contains_iff_occurs _ _).mpr ⟨ascii "      ", ascii " " ++ pr, rfl⟩

theorem newline_not_mem_instanceLine (pr : Str) (h : (byte '\n') ∉ pr) : (byte '\n') ∉ instanceLine pr := by
  intro hm
  rcases List.mem_append.mp hm with hm | hm
  · revert hm; decide
  · exact h hm

theorem ruleOf_of_no_alb (st : ScanState) (l : Str) (h : Contains l albIdleMarker = false) :
    ruleOf st l =
      if Contains l krakendMarker then .header
      else if st.inKrakendSection && Contains l instanceMarker then .drop
      else .emit := by
  unfold ruleOf
  simp [h]

theorem rescan_scanOut (pr : Str) (hk : Contains (instanceLine pr) krakendMarker = false)
    (ha : Contains (instanceLine pr) albIdleMarker = false) :
    ∀ (ls : List Str) (st st' : ScanState), (∀ l ∈ ls, Contains l albIdleMarker = false) →
      st.inKrakendSection = st'.inKrakendSection →
      scanOut pr st' (scanOut pr st ls) = scanOut pr st ls := by
  intro ls
  induction ls with
  | nil => intro st st' _ _; simp [scanOut]
  | cons l ls ih =>
    intro st st' hall hin
    have hl := hall l (List.mem_cons_self _ _)
    have hall' : ∀ x ∈ ls, Contains x albIdleMarker = false :=
      fun x hx => hall x (List.mem_cons_of_mem _ hx)
    have hr' : ruleOf st' l = ruleOf st l := by
      rw [ruleOf_of_no_alb st l hl, ruleOf_of_no_alb st' l hl, hin]
    rw [scanOut, emitted_eq]
    cases hr : ruleOf st l with
    | override =>
      rw [ruleOf_of_no_alb st l hl] at hr
      split_ifs at hr
    | header =>
      rw [hr] at hr'
      simp only [List.cons_append, List.nil_append]
      rw [scanOut, emitted_eq, hr', scanOut, emitted_eq]
      have hd : ruleOf (scanStep pr st' l) (instanceLine pr) = .drop := by
        rw [ruleOf_of_no_alb _ _ ha, hk, scanStep_header pr st' l hr',
          instanceLine_contains_instance]
        rfl
      rw [hd, scanStep_drop pr _ _ hd]
      simp only [List.cons_append, List.nil_append]
      rw [ih _ _ hall' (by rw [scanStep_header pr st l hr, scanStep_header pr st' l hr'])]
    | drop =>
      rw [scanStep_drop pr st l hr]
      exact ih st st' hall' hin
    | emit =>
      rw [hr] at hr'
      simp only [List.cons_append, List.nil_append]
      rw [scanOut, emitted_eq, hr']
      simp only [List.cons_append, List.nil_append]
      rw [ih _ _ hall' (by rw [scanStep_emit pr st l hr, scanStep_emit pr st' l hr']; simp [hin])]

theorem exists_krakend_of_updated (pr : Str) : ∀ (ls : List Str) (st : ScanState),
    st.updated = false → (scanFrom pr st ls).updated = true →
    ∃ K ∈ ls, Contains K krakendMarker = true := by
  intro ls
  induction ls with
  | nil => intro st h₀ h; rw [scanFrom_nil, h₀] at h; cases h
  | cons l ls ih =>
    intro st h₀ h
    by_cases hl : Contains l krakendMarker = true
    · exact ⟨l, List.mem_cons_self _ _, hl⟩
    · simp only [Bool.not_eq_true] at hl
      rw [scanFrom_cons] at h
      obtain ⟨K, hK, hc⟩ := ih _ (by rw [scanStep_updated_of_no_krakend pr st l hl]; exact h₀) h
      exact ⟨K, List.mem_cons_of_mem _ hK, hc⟩

theorem mem_scanOut_of_krakend (pr K : Str) (hK : Contains K krakendMarker = true) :
    ∀ (ls : List Str) (st : ScanState), (∀ l ∈ ls, Contains l albIdleMarker = false) →
      K ∈ ls → K ∈ scanOut pr st ls := by
  intro ls
  induction ls with
  | nil => intro st _ h; cases h
  | cons l ls ih =>
    intro st hall h
    rw [scanOut, List.mem_append]
    rcases List.mem_cons.mp h with rfl | h
    · left
      have : ruleOf st K = .header := by
        rw [ruleOf_of_no_alb st K (hall K (List.mem_cons_self _ _)), hK]
        rfl
      rw [emitted_eq, this]
      exact List.mem_cons_self _ _
    · right
      exact ih _ (fun x hx => hall x (List.mem_cons_of_mem _ hx)) h

theorem updated_of_krakend (pr K : Str) (hK : Contains K krakendMarker = true) :
    ∀ (ls : List Str) (st : ScanState), (∀ l ∈ ls, Contains l albIdleMarker = false) →
      K ∈ ls → (scanFrom pr st ls).updated = true := by
  intro ls
  induction ls with
  | nil => intro st _ h; cases h
  | cons l ls ih =>
    intro st hall h
    rw [scanFrom_cons]
    rcases List.mem_cons.mp h with rfl | h
    · apply scanFrom_updated_mono
      have : ruleOf st K = .header := by
        rw [ruleOf_of_no_alb st K (hall K (List.mem_cons_self _ _)), hK]
        rfl
      rw [scanStep_header pr st K this]
    · exact ih _ (fun x hx => hall x (List.mem_cons_of_mem _ hx)) h

/-- C8 as stated fails: on a values file with an `albIdleTimeout: 180` line the second
application inserts the override line once more, so the output of the second run differs
from that of the first.  It also fails for a PR identifier that holds a line break,
`krakend:` or `albIdleTimeout: 180`. -/
theorem gwIngressPatch_reapply_counterexample :
    (gwIngressPatch valuesScenario (ascii "654") = .ok valuesScenarioPatched ∧
      gwIngressPatch valuesScenarioPatched (ascii "654") = .ok valuesScenarioPatchedTwice ∧
      valuesScenarioPatchedTwice ≠ valuesScenarioPatched) ∧
    (gwIngressPatch (ascii "krakend:") (ascii "1\nx") = .ok (ascii "krakend:\n      instance: 1\nx") ∧
      gwIngressPatch (ascii "krakend:\n      instance: 1\nx") (ascii "1\nx") =
        .ok (ascii "krakend:\n      instance: 1\nx\nx")) ∧
    (gwIngressPatch (ascii "krakend:") (ascii "krakend:1") =
        .ok (ascii "krakend:\n      instance: krakend:1") ∧
      gwIngressPatch (ascii "krakend:\n      instance: krakend:1") (ascii "krakend:1") =
        .ok (ascii "krakend:\n      instance: krakend:1\n      instance: krakend:1\n      instance: krakend:1")) ∧
    (gwIngressPatch (ascii "krakend:") (ascii "albIdleTimeout: 180") =
        .ok (ascii "krakend:\n      instance: albIdleTimeout: 180") ∧
      gwIngressPatch (ascii "krakend:\n      instance: albIdleTimeout: 180")
          (ascii "albIdleTimeout: 180") =
        .ok (ascii "krakend:\n      instance: albIdleTimeout: 180\n      instance: albIdleTimeout: 180\n  endpointFullNameOverride: api-fyre")) := by
  decide

/-- C8, amended: when no line of the document contains `albIdleTimeout: 180`, the PR
identifier holds no line break, no `krakend:` and no `albIdleTimeout: 180`, and the values
patch succeeds with output `out`, the same patch applied to `out` succeeds and returns
`out` unchanged. -/
theorem gwIngressPatch_reapply_unchanged (data pr out : Str)
    (hdata : ∀ l ∈ Split data (byte '\n'), ¬ (ascii "albIdleTimeout: 180") <:+: l)
    (hnl : (byte '\n') ∉ pr) (hk : ¬ (ascii "krakend:") <:+: pr)
    (ha : ¬ (ascii "albIdleTimeout: 180") <:+: pr)
    (hok : gwIngressPatch data pr = .ok out) :
    gwIngressPatch out pr = .ok out := by
  obtain ⟨hupd, hout⟩ := gwIngressPatch_ok data pr out hok
  have hk' : Contains (instanceLine pr) krakendMarker = false := by
    rw [instanceLine_contains_krakend]; exact (Contains_eq_false_iff _ _).mpr hk
  have ha' : Contains (instanceLine pr) albIdleMarker = false := by
    rw [instanceLine_contains_alb]; exact (Contains_eq_false_iff _ _).mpr ha
  have hdata' : ∀ l ∈ Split data (byte '\n'), Contains l albIdleMarker = false :=
    fun l hl => (Contains_eq_false_iff _ _).mpr (hdata l hl)
  -- a `krakend:` line of the input is in the output lines
  obtain ⟨K, hK, hKc⟩ := exists_krakend_of_updated pr _ _ rfl hupd
  have hKout := mem_scanOut_of_krakend pr K hKc _ ScanState.init hdata' hK
  -- the output lines hold no line break and no `albIdleTimeout: 180`
  have hlines : ∀ x ∈ scanOut pr ScanState.init (Split data (byte '\n')),
      (byte '\n') ∉ x ∧ Contains x albIdleMarker = false := by
    intro x hx
    rcases mem_scanOut pr _ _ x hx with h | rfl | rfl
    · exact ⟨not_mem_of_mem_Split (byte '\n') data x h, hdata' x h⟩
    · exact ⟨by decide, by decide⟩
    · exact ⟨newline_not_mem_instanceLine pr hnl, ha'⟩
  have hsplit : Split out (byte '\n') = scanOut pr ScanState.init (Split data (byte '\n')) := by
    rw [hout]
    exact Split_Join (byte '\n') _ (List.ne_nil_of_mem hKout) (fun x hx => (hlines x hx).1)
  rw [gwIngressPatch_eq, hsplit,
    if_pos (updated_of_krakend pr K hKc _ ScanState.init (fun x hx => (hlines x hx).2) hKout),
    rescan_scanOut pr hk' ha' _ _ _ hdata' rfl, ← hout]

/-- C8, amended, on a values file without `albIdleTimeout: 180` line. -/
theorem gwIngressPatch_reapply_unchanged_witness :
    gwIngressPatch valuesNoAlb (ascii "654") = .ok valuesNoAlbPatched ∧
    gwIngressPatch valuesNoAlbPatched (ascii "654") = .ok valuesNoAlbPatched :=
  have hd : ∀ l ∈ Split valuesNoAlb (byte '\n'), ¬ (ascii "albIdleTimeout: 180") <:+: l := by
    have h' : ∀ l ∈ Split valuesNoAlb (byte '\n'), Contains l (ascii "albIdleTimeout: 180") = false := by
      decide
    exact fun l hl => (Contains_eq_false_iff _ _).mp (h' l hl)
  ⟨by decide,
    gwIngressPatch_reapply_unchanged valuesNoAlb (ascii "654") valuesNoAlbPatched hd (by decide)
      (fun h => absurd ((Contains_iff_occurs _ _).mpr h) (by decide))
      (fun h => absurd ((Contains_iff_occurs _ _).mpr h) (by decide)) (by decide)⟩

end PrepWaldo
